import Mathlib

/-!
# Digi clustering and trigger-path counters

A shallow embedding of three pieces of the repository:

* the offline clusteriser block inside the per-module digi loops of
  `Phase2TrackerMonitorDigi::fillITPixelDigiHistos` and
  `Phase2TrackerMonitorDigi::fillOTDigiHistos`, and the reporting of the
  clusters by `fillDigiClusters`;
* the per-level event counters of `HLTBtagLifetimeAnalyzer`
  (`beginJob`, `cachePathDescription`, `analyze`, the efficiency lines of
  `endJob`) and the helper `closestJet`;
* the efficiency maps of `CSCSegmentReader` (`recInfo` and the divisions of the
  destructor).

Histogram fills other than those of `fillDigiClusters`, logging and geometry
transforms do not influence the values modelled here and are left out.  C++ `int` values are integers (signed overflow
is undefined and not modelled); `unsigned int` counters are naturals reduced
modulo `2 ^ 32`.
-/

namespace Phase2TrackerMonitorDigi

/-- The cluster record filled by the digi loops.  Its declaration lives in the
plugin header; the loops assign `int` expressions to each of the four fields
(`position` receives `row + 1` or the `int` local `pos`), so every field holds
an integer value whatever its declared arithmetic type. -/
structure Ph2DigiCluster where
  charge : Int
  position : Int
  width : Int
  column : Int
  deriving DecidableEq, Repr

/-- What the inner-tracker loop reads from a `PixelDigi`: `row()`, `column()`, `adc()`. -/
structure PixelDigi where
  row : Int
  column : Int
  adc : Int
  deriving DecidableEq, Repr

/-- What the outer-tracker loop reads from a `Phase2TrackerDigi`:
`row()`, `column()`, `overThreshold()`. -/
structure Phase2TrackerDigi where
  row : Int
  column : Int
  overThreshold : Bool
  deriving DecidableEq, Repr

/-- The locals of the per-module digi loop that the clusteriser block uses:
`row_last`, `col_last` and the vector `digiClusters`. -/
structure DigiLoop where
  row_last : Int
  col_last : Int
  digiClusters : List Ph2DigiCluster
  deriving DecidableEq, Repr

/-- The locals as declared before the loop: `row_last = -1`, `col_last = -1`,
an empty `digiClusters`. -/
def DigiLoop.start : DigiLoop :=
  { row_last := -1, col_last := -1, digiClusters := [] }

/-- One iteration of the loop over a `DetSet<PixelDigi>` (clusteriser block of
`fillITPixelDigiHistos`).  `none` stands for the two undefined outcomes of the
C++ code: `digiClusters.back()` on an empty vector and an integer division by
zero. -/
def fillITPixelDigiHistos_step (clsFlag_ : Bool) (st : DigiLoop) (di : PixelDigi) :
    Option DigiLoop :=
  let col := di.column
  let row := di.row
  if clsFlag_ then
    if st.row_last = -1 ∨ (row - st.row_last).natAbs ≠ 1 ∨ col ≠ st.col_last then
      let dClus : Ph2DigiCluster :=
        { position := row + 1, column := col, width := 1, charge := 255 }
      some { row_last := row, col_last := col, digiClusters := st.digiClusters ++ [dClus] }
    else
      match st.digiClusters.getLast? with
      | none => none
      | some back =>
        let pos := back.position + row + 1
        let width := back.width + 1
        if width = 0 then none
        else
          let pos := Int.tdiv pos width
          some { row_last := row, col_last := col,
                 digiClusters := st.digiClusters.dropLast ++
                   [{ back with position := pos, width := back.width + 1 }] }
  else some st

/-- The loop over the digis of one module in `fillITPixelDigiHistos`. -/
def fillITPixelDigiHistos_loop (clsFlag_ : Bool) : DigiLoop → List PixelDigi → Option DigiLoop
  | st, [] => some st
  | st, di :: rest =>
    match fillITPixelDigiHistos_step clsFlag_ st di with
    | none => none
    | some st' => fillITPixelDigiHistos_loop clsFlag_ st' rest

/-- The vector `digiClusters` that `fillITPixelDigiHistos` has built for one
module when its digi loop ends. -/
def fillITPixelDigiHistos (clsFlag_ : Bool) (digis : List PixelDigi) :
    Option (List Ph2DigiCluster) :=
  (fillITPixelDigiHistos_loop clsFlag_ DigiLoop.start digis).map DigiLoop.digiClusters

/-- One iteration of the loop over a `DetSet<Phase2TrackerDigi>` (clusteriser
block of `fillOTDigiHistos`); `none` as in `fillITPixelDigiHistos_step`. -/
def fillOTDigiHistos_step (clsFlag_ : Bool) (st : DigiLoop) (di : Phase2TrackerDigi) :
    Option DigiLoop :=
  let col := di.column
  let row := di.row
  if clsFlag_ then
    if st.row_last = -1 ∨ (row - st.row_last).natAbs ≠ 1 ∨ col ≠ st.col_last then
      let dClus : Ph2DigiCluster :=
        { position := row + 1, column := col, width := 1, charge := 255 }
      some { row_last := row, col_last := col, digiClusters := st.digiClusters ++ [dClus] }
    else
      match st.digiClusters.getLast? with
      | none => none
      | some back =>
        let pos := back.position + row + 1
        let width := back.width + 1
        if width = 0 then none
        else
          let pos := Int.tdiv pos width
          some { row_last := row, col_last := col,
                 digiClusters := st.digiClusters.dropLast ++
                   [{ back with position := pos, width := back.width + 1 }] }
  else some st

/-- The loop over the digis of one module in `fillOTDigiHistos`. -/
def fillOTDigiHistos_loop (clsFlag_ : Bool) :
    DigiLoop → List Phase2TrackerDigi → Option DigiLoop
  | st, [] => some st
  | st, di :: rest =>
    match fillOTDigiHistos_step clsFlag_ st di with
    | none => none
    | some st' => fillOTDigiHistos_loop clsFlag_ st' rest

/-- The vector `digiClusters` that `fillOTDigiHistos` has built for one module
when its digi loop ends. -/
def fillOTDigiHistos (clsFlag_ : Bool) (digis : List Phase2TrackerDigi) :
    Option (List Ph2DigiCluster) :=
  (fillOTDigiHistos_loop clsFlag_ DigiLoop.start digis).map DigiLoop.digiClusters

/-- Reading a `Phase2TrackerDigi` as the `(row, column)` pair of a `PixelDigi`
(proof device relating the two loops; the charge is irrelevant). -/
def asPixelDigi (d : Phase2TrackerDigi) : PixelDigi :=
  { row := d.row, column := d.column, adc := 0 }

/-- The relation between the digis consumed so far and the loop locals:
before any digi the locals are as declared; afterwards `row_last`, `col_last`
hold the coordinates of the latest digi and `digiClusters` is non-empty. -/
def Tracks (digis : List PixelDigi) (st : DigiLoop) : Prop :=
  match digis.getLast? with
  | none => st = DigiLoop.start
  | some p => st.row_last = p.row ∧ st.col_last = p.column ∧ st.digiClusters ≠ []

/-- The adjacency condition between a pixel hit `p` and the hit `d` that follows
it in the stream: same column, rows exactly one apart. -/
def adjacentIT (p d : PixelDigi) : Bool :=
  decide (d.column = p.column ∧ (d.row - p.row).natAbs = 1)

/-- The adjacency condition between an outer-tracker hit `p` and the hit `d`
that follows it in the stream: same column, rows exactly one apart. -/
def adjacentOT (p d : Phase2TrackerDigi) : Bool :=
  decide (d.column = p.column ∧ (d.row - p.row).natAbs = 1)

/-- The maximal runs of a list in which each element is related to its
predecessor, computed from the right (proof device: it is `List.splitBy`, see
`splitBy_eq_runs`). -/
def runs {α : Type} (r : α → α → Bool) : List α → List (List α)
  | [] => []
  | [a] => [[a]]
  | a :: b :: l =>
    match runs r (b :: l) with
    | [] => [[a]]
    | first :: others => if r a b then (a :: first) :: others else [a] :: first :: others

/-- The monitor elements of `DigiMEs` that `fillDigiClusters` tests: `true` when
the pointer is non-null, that is when the histogram has been booked. -/
structure DigiMEs where
  NumberOfClustersPerDet : Bool
  ClusterWidth : Bool
  ChargeOfDigisVsWidth : Bool
  ClusterPositionP : Bool
  ClusterPositionS : Bool
  deriving DecidableEq, Repr

/-- One `Fill` call made by `fillDigiClusters`, named after the histogram that
receives it, with the arguments of the call. -/
inductive Fill where
  | NumberOfClustersPerDet (nclus : Int)
  | ClusterWidth (width : Int)
  | ChargeOfDigisVsWidth (charge width : Int)
  | ClusterPositionP (position column1 : Int)
  | ClusterPositionS (position column1 : Int)
  deriving DecidableEq, Repr

/-- The body of the loop `for (auto& iclus : digi_clusters)` of
`fillDigiClusters`: the `Fill` calls made for one cluster, in order. -/
def fillDigiClusters_cluster (pixelFlag_ : Bool) (mes : DigiMEs) (iclus : Ph2DigiCluster) :
    List Fill :=
  (if mes.ClusterWidth then [Fill.ClusterWidth iclus.width] else []) ++
  (if pixelFlag_ && mes.ChargeOfDigisVsWidth then
    [Fill.ChargeOfDigisVsWidth iclus.charge iclus.width] else []) ++
  (if mes.ClusterPositionP then
    [Fill.ClusterPositionP iclus.position (iclus.column + 1)] else []) ++
  (if !pixelFlag_ && mes.ClusterPositionS && decide (iclus.column ≤ 2) then
    [Fill.ClusterPositionS iclus.position (iclus.column + 1)] else [])

/-- The loop over the clusters in `fillDigiClusters`. -/
def fillDigiClusters_loop (pixelFlag_ : Bool) (mes : DigiMEs) : List Ph2DigiCluster → List Fill
  | [] => []
  | iclus :: rest =>
    fillDigiClusters_cluster pixelFlag_ mes iclus ++ fillDigiClusters_loop pixelFlag_ mes rest

/-- `fillDigiClusters`: the sequence of `Fill` calls it makes, and the cluster
vector as it leaves it (the vector is taken by non-const reference). -/
def fillDigiClusters (pixelFlag_ : Bool) (mes : DigiMEs) (digi_clusters : List Ph2DigiCluster) :
    List Fill × List Ph2DigiCluster :=
  let nclus : Int := digi_clusters.length
  ((if mes.NumberOfClustersPerDet then [Fill.NumberOfClustersPerDet nclus] else []) ++
    fillDigiClusters_loop pixelFlag_ mes digi_clusters, digi_clusters)

/-- The cluster counts among a sequence of `Fill` calls. -/
def Fill.counts (fills : List Fill) : List Int :=
  fills.filterMap (fun x => match x with
    | Fill.NumberOfClustersPerDet n => some n
    | _ => none)

/-- The widths filled into `ClusterWidth` among a sequence of `Fill` calls. -/
def Fill.widths (fills : List Fill) : List Int :=
  fills.filterMap (fun x => match x with
    | Fill.ClusterWidth w => some w
    | _ => none)

/-- The pairs filled into `ClusterPositionP` among a sequence of `Fill` calls. -/
def Fill.positionsP (fills : List Fill) : List (Int × Int) :=
  fills.filterMap (fun x => match x with
    | Fill.ClusterPositionP a b => some (a, b)
    | _ => none)

/-- The pairs filled into `ClusterPositionS` among a sequence of `Fill` calls. -/
def Fill.positionsS (fills : List Fill) : List (Int × Int) :=
  fills.filterMap (fun x => match x with
    | Fill.ClusterPositionS a b => some (a, b)
    | _ => none)

/-- The pairs filled into `ChargeOfDigisVsWidth` among a sequence of `Fill` calls. -/
def Fill.chargeWidths (fills : List Fill) : List (Int × Int) :=
  fills.filterMap (fun x => match x with
    | Fill.ChargeOfDigisVsWidth c w => some (c, w)
    | _ => none)

end Phase2TrackerMonitorDigi

namespace HLTBtagLifetimeAnalyzer

/-- The fields of `InputData` that the counters depend on: one configured level
of the trigger path.  `m_filter` is the label of the filter; `m_filterIndex` is
an `unsigned int`, only ever compared. -/
structure InputData where
  m_name : String
  m_title : String
  m_filter : String
  m_filterIndex : Nat
  deriving DecidableEq, Repr

/-- What the level loop of `analyze` reads from the trigger results of one
event that reaches it: `accepted = accept(m_pathIndex)` and
`latest = index(m_pathIndex)`, the position at which the path stopped. -/
structure PathStatus where
  accepted : Bool
  latest : Nat
  deriving DecidableEq, Repr

/-- `m_events.resize(n, 0)` on a `std::vector<unsigned int>`. -/
def resize (m_events : List Nat) (n : Nat) : List Nat :=
  m_events.take n ++ List.replicate (n - m_events.length) 0

/-- `beginJob`, as far as the counters go: `m_events.resize(m_levels.size(), 0)`. -/
def beginJob (m_levels : List InputData) (m_events : List Nat) : List Nat :=
  resize m_events m_levels.length

/-- The statement `++m_events[l]` on `unsigned int` counters (32 bits, wrapping).
`none` stands for an access past the end of the vector, which is undefined. -/
def incrementAt (m_events : List Nat) (l : Nat) : Option (List Nat) :=
  if h : l < m_events.length then some (m_events.set l ((m_events[l] + 1) % 2 ^ 32))
  else none

/-- The flag `passed` of the level loop: `accepted or (latest > level.m_filterIndex)`. -/
def passed (status : PathStatus) (level : InputData) : Bool :=
  status.accepted || decide (status.latest > level.m_filterIndex)

/-- The level loop of `analyze` (`for (l = 0; l < m_levels.size(); ++l)`), run on
the levels from index `l` on.  A level that is not passed ends the loop
(`break`). -/
def analyze_levels (status : PathStatus) : List InputData → Nat → List Nat → Option (List Nat)
  | [], _, m_events => some m_events
  | level :: rest, l, m_events =>
    if passed status level then
      match incrementAt m_events l with
      | none => none
      | some m_events' => analyze_levels status rest (l + 1) m_events'
    else some m_events

/-- The effect of `analyze` on `m_events` for an event that reaches the level
loop. -/
def analyze (m_levels : List InputData) (m_events : List Nat) (status : PathStatus) :
    Option (List Nat) :=
  analyze_levels status m_levels 0 m_events

/-- Successive calls of `analyze`, one per event that reaches the level loop. -/
def analyze_all (m_levels : List InputData) : List Nat → List PathStatus → Option (List Nat)
  | m_events, [] => some m_events
  | m_events, status :: rest =>
    match analyze m_levels m_events status with
    | none => none
    | some m_events' => analyze_all m_levels m_events' rest

/-- One efficiency line of `endJob`: either the percentage computed as
`(double) num / (double) den * 100.` or the text `NaN`. -/
inductive Efficiency where
  | percent (num den : Nat)
  | NaN
  deriving DecidableEq, Repr

/-- The ratio behind an efficiency line, as an exact rational number.  The
rounding of the `double` quotient and the two-decimal print format are not
modelled. -/
def Efficiency.ratio : Efficiency → Option ℚ
  | Efficiency.percent num den => some ((num : ℚ) / (den : ℚ))
  | Efficiency.NaN => none

/-- Body of the second loop of `endJob` for index `i`: the step efficiency line.
`none` stands for a read past the end of `m_events`. -/
def endJob_stepLine (m_events : List Nat) (i : Nat) : Option Efficiency :=
  match m_events[i - 1]? with
  | none => none
  | some prev =>
    if prev > 0 then
      match m_events[i]? with
      | none => none
      | some cur => some (Efficiency.percent cur prev)
    else some Efficiency.NaN

/-- Body of the third loop of `endJob` for index `i`: the cumulative efficiency
line. -/
def endJob_cumulativeLine (m_events : List Nat) (i : Nat) : Option Efficiency :=
  match m_events[0]? with
  | none => none
  | some first =>
    if first > 0 then
      match m_events[i]? with
      | none => none
      | some cur => some (Efficiency.percent cur first)
    else some Efficiency.NaN

/-- The three blocks of lines that `endJob` prints, each line tagged with the
index `i` of its level. -/
structure Summary where
  events : List (Nat × Option Nat)
  step : List (Nat × Option Efficiency)
  cumulative : List (Nat × Option Efficiency)
  deriving DecidableEq, Repr

/-- The printed part of `endJob`: the first loop runs over `i = 0 .. size - 1`,
the second and the third over `i = 1 .. size - 1`. -/
def endJob (m_levels : List InputData) (m_events : List Nat) : Summary :=
  { events := (List.range m_levels.length).map (fun i => (i, m_events[i]?)),
    step := (List.range' 1 (m_levels.length - 1)).map (fun i => (i, endJob_stepLine m_events i)),
    cumulative :=
      (List.range' 1 (m_levels.length - 1)).map (fun i => (i, endJob_cumulativeLine m_events i)) }

/-- The loop of `closestJet` from index `i` on.  The list holds, entry by entry,
the value `d` of `DeltaR(jet.momentum(), association[i].first->momentum())`,
taken in a linearly ordered type. -/
def closestJet_loop {α : Type} [LinearOrder α] : List α → Nat → α → Int → Int
  | [], _, _, closest => closest
  | d :: rest, i, distance, closest =>
    if d < distance then closestJet_loop rest (i + 1) d (i : Int)
    else closestJet_loop rest (i + 1) distance closest

/-- `closestJet`: the index of the closest entry within `distance`, or `-1`. -/
def closestJet {α : Type} [LinearOrder α] (deltaR : List α) (distance : α) : Int :=
  closestJet_loop deltaR 0 distance (-1)

/-- The data members of the analyzer that the path description and the counters
use.  The constructor leaves `m_levels` as configured, `m_events` and
`m_pathModules` empty, `m_pathIndex = (unsigned int) -1`, `m_pathCached = false`. -/
structure Analyzer where
  m_triggerPath : String
  m_levels : List InputData
  m_events : List Nat
  m_pathModules : List String
  m_pathIndex : Nat
  m_pathCached : Bool

/-- What `analyze` obtains from the framework for one event: whether the two
handles are valid; the `@trigger_paths` of the parameter set of the trigger
results (`none` when `getMapped` fails); the modules of the configured path in
the process description (`none` when `getMapped` fails); and, for each path
index, `accept` and `index` of the trigger results.  A parameter missing from a
mapped parameter set makes the framework throw; that is not modelled. -/
structure Event where
  triggerResultsValid : Bool
  triggerEventValid : Bool
  trigger_paths : Option (List String)
  pathModules : Option (List String)
  status : Nat → PathStatus

/-- `cachePathDescription`: the returned flag and the analyzer as the call leaves
it.  `List.indexOf` is the position of the first equal element, or the length
of the list when there is none: the value at which the loop over `paths` stops
and the offset of the iterator returned by `std::find`. -/
def cachePathDescription (a : Analyzer) (trigger_paths : Option (List String))
    (pathModules : Option (List String)) : Bool × Analyzer :=
  if a.m_pathCached then (true, a)
  else
    match trigger_paths with
    | none => (false, a)
    | some paths =>
      match pathModules with
      | none => (false, a)
      | some modules =>
        let a1 := { a with m_pathModules := modules }
        let a2 := { a1 with m_pathIndex := paths.indexOf a1.m_triggerPath }
        if a2.m_pathIndex = paths.length then (false, a2)
        else
          let levels := a2.m_levels.map (fun level =>
            if a2.m_pathModules.indexOf level.m_filter ≠ a2.m_pathModules.length then
              { level with m_filterIndex := a2.m_pathModules.indexOf level.m_filter }
            else
              { level with m_filterIndex := 0 })
          (true, { a2 with m_levels := levels, m_pathCached := true })

/-- The whole of `analyze` as far as the analyzer's data members go: the early
returns (invalid handles, no path description, stop index past the end of the
path) and then the level loop.  `none` as in `incrementAt`. -/
def analyzeEvent (a : Analyzer) (ev : Event) : Option Analyzer :=
  if !ev.triggerResultsValid then some a
  else if !ev.triggerEventValid then some a
  else
    let r := cachePathDescription a ev.trigger_paths ev.pathModules
    if !r.1 then some r.2
    else
      let status := ev.status r.2.m_pathIndex
      if status.latest ≥ r.2.m_pathModules.length then some r.2
      else
        match analyze r.2.m_levels r.2.m_events status with
        | none => none
        | some m_events => some { r.2 with m_events := m_events }

end HLTBtagLifetimeAnalyzer

namespace CSCSegmentReader

/-- The fields of a `CSCDetId` that `recInfo` compares. -/
structure CSCDetId where
  endcap : Int
  station : Int
  ring : Int
  chamber : Int
  layer : Int
  deriving DecidableEq, Repr

/-- What `recInfo` reads from a `CSCSegment`: `cscDetId()` and `nRecHits()`. -/
structure CSCSegment where
  cscDetId : CSCDetId
  nRecHits : Int
  deriving DecidableEq, Repr

/-- What `recInfo` obtains from the geometry for the chamber of a detector id:
whether layer 1 lies farther from the origin than layer 6
(`fabs(g1) > fabs(g6)`), and `specs()->chamberTypeName()`. -/
structure CSCGeometry where
  layer1Farther : CSCDetId → Bool
  chamberTypeName : CSCDetId → String

/-- The three thresholds read by the constructor from the parameter set. -/
structure Thresholds where
  minLayerWithRechitChamber : Int
  minLayerWithSimhitChamber : Int
  minRechitSegment : Int
  deriving DecidableEq, Repr

/-- The collections handed to `recInfo` for one event: the detector ids of the
simulated hits, the detector ids of the reconstructed hits, the segments. -/
structure Collections where
  simHits : List CSCDetId
  recHits : List CSCDetId
  cscSegments : List CSCSegment
  deriving DecidableEq, Repr

/-- A `std::map<std::string, int>`: `none` for a key that is not in the map. -/
abbrev TypeMap := String → Option Int

/-- The value of `m[k]`: the stored count, or 0 for a key that `operator[]`
has to insert. -/
def TypeMap.value (m : TypeMap) (k : String) : Int := (m k).getD 0

/-- The statement `m[k]++`. -/
def TypeMap.increment (m : TypeMap) (k : String) : TypeMap :=
  fun key => if key = k then some (TypeMap.value m k + 1) else m key

/-- The five maps of the reader. -/
structure Maps where
  chaMap1 : TypeMap
  chaMap2 : TypeMap
  segMap1 : TypeMap
  segMap2 : TypeMap
  segMap3 : TypeMap

/-- The maps as default-constructed: all empty. -/
def Maps.empty : Maps :=
  { chaMap1 := fun _ => none, chaMap2 := fun _ => none, segMap1 := fun _ => none,
    segMap2 := fun _ => none, segMap3 := fun _ => none }

/-- The loop over the simulated hits that computes `nLayerWithSimhitsInChamber`
for the chamber of `simId`, from the current `ith_layer` and count. -/
def simhitLayerLoop (simId : CSCDetId) : List CSCDetId → Int → Int → Int
  | [], _, nLayerWithSimhitsInChamber => nLayerWithSimhitsInChamber
  | simId2 :: rest, ith_layer, nLayerWithSimhitsInChamber =>
    if simId2.chamber = simId.chamber ∧ simId2.station = simId.station ∧
        simId2.ring = simId.ring ∧ simId2.endcap = simId.endcap ∧
        simId2.layer ≠ ith_layer then
      simhitLayerLoop simId rest simId2.layer (nLayerWithSimhitsInChamber + 1)
    else simhitLayerLoop simId rest ith_layer nLayerWithSimhitsInChamber

/-- The value `nLayerWithSimhitsInChamber` of `recInfo` (`ith_layer = 0`, count 0
before the loop). -/
def nLayerWithSimhitsInChamber (simId : CSCDetId) (simHits : List CSCDetId) : Int :=
  simhitLayerLoop simId simHits 0 0

/-- The loop over the reconstructed hits that computes
`nLayerWithRechitsInChamber`. -/
def rechitLayerLoop (simId : CSCDetId) : List CSCDetId → Int → Int → Int
  | [], _, nLayerWithRechitsInChamber => nLayerWithRechitsInChamber
  | idrec :: rest, ith_layer, nLayerWithRechitsInChamber =>
    if idrec.endcap = simId.endcap ∧ idrec.ring = simId.ring ∧
        idrec.station = simId.station ∧ idrec.chamber = simId.chamber ∧
        idrec.layer ≠ ith_layer then
      rechitLayerLoop simId rest idrec.layer (nLayerWithRechitsInChamber + 1)
    else rechitLayerLoop simId rest ith_layer nLayerWithRechitsInChamber

/-- The loop over the segments: the flags `(satisfied1, satisfied2)` when it
ends.  A segment of the chamber with enough hits ends the loop (`break`). -/
def segmentLoop (cfg : Thresholds) (simId : CSCDetId) : List CSCSegment → Bool → Bool × Bool
  | [], satisfied1 => (satisfied1, false)
  | seg :: rest, satisfied1 =>
    if simId.endcap = seg.cscDetId.endcap ∧ simId.ring = seg.cscDetId.ring ∧
        simId.station = seg.cscDetId.station ∧ simId.chamber = seg.cscDetId.chamber then
      if seg.nRecHits ≥ cfg.minRechitSegment then (true, true)
      else segmentLoop cfg simId rest true
    else segmentLoop cfg simId rest satisfied1

/-- The body of the loop of `recInfo` over the simulated hits, for the hit with
detector id `simId`: its effect on the five maps. -/
def recInfo_simHit (cfg : Thresholds) (geom : CSCGeometry) (c : Collections) (maps : Maps)
    (simId : CSCDetId) : Maps :=
  let firstLayer : Int := if geom.layer1Farther simId then 6 else 1
  if simId.layer = firstLayer then
    if nLayerWithSimhitsInChamber simId c.simHits < cfg.minLayerWithSimhitChamber then maps
    else
      let name := geom.chamberTypeName simId
      let maps1 := { maps with chaMap1 := maps.chaMap1.increment name }
      let satisfied0 :=
        decide (rechitLayerLoop simId c.recHits 0 0 ≥ cfg.minLayerWithRechitChamber)
      let maps2 :=
        if satisfied0 then { maps1 with chaMap2 := maps1.chaMap2.increment name } else maps1
      let satisfied := segmentLoop cfg simId c.cscSegments false
      let maps3 :=
        if satisfied.1 then { maps2 with segMap1 := maps2.segMap1.increment name } else maps2
      let maps4 :=
        if satisfied.1 && satisfied0 then
          { maps3 with segMap2 := maps3.segMap2.increment name } else maps3
      if satisfied.2 && satisfied0 then
        { maps4 with segMap3 := maps4.segMap3.increment name } else maps4
  else maps

/-- The loop of `recInfo` over the simulated hits. -/
def recInfo_loop (cfg : Thresholds) (geom : CSCGeometry) (c : Collections) :
    Maps → List CSCDetId → Maps
  | maps, [] => maps
  | maps, simId :: rest => recInfo_loop cfg geom c (recInfo_simHit cfg geom c maps simId) rest

/-- `recInfo`: its effect on the five maps. -/
def recInfo (cfg : Thresholds) (geom : CSCGeometry) (maps : Maps) (c : Collections) : Maps :=
  recInfo_loop cfg geom c maps c.simHits

/-- Successive calls of `recInfo`, one per event. -/
def recInfo_all (cfg : Thresholds) (geom : CSCGeometry) : Maps → List Collections → Maps
  | maps, [] => maps
  | maps, c :: rest => recInfo_all cfg geom (recInfo cfg geom maps c) rest

/-- The division of the first loop of the destructor for the key `k`:
`(float) segMap1[k] / (float) chaMap1[k]`, as numerator and denominator;
`none` when `k` is not a key of `segMap1`. -/
def destructor_heff0 (maps : Maps) (k : String) : Option (Int × Int) :=
  (maps.segMap1 k).map (fun second => (second, maps.chaMap1.value k))

/-- The division of the second loop of the destructor: `segMap2[k] / chaMap2[k]`. -/
def destructor_heff1 (maps : Maps) (k : String) : Option (Int × Int) :=
  (maps.segMap2 k).map (fun second => (second, maps.chaMap2.value k))

/-- The division of the third loop of the destructor: `segMap3[k] / chaMap1[k]`. -/
def destructor_heff2 (maps : Maps) (k : String) : Option (Int × Int) :=
  (maps.segMap3 k).map (fun second => (second, maps.chaMap1.value k))

/-- The division of the fourth loop of the destructor: `segMap3[k] / chaMap2[k]`. -/
def destructor_heff3 (maps : Maps) (k : String) : Option (Int × Int) :=
  (maps.segMap3 k).map (fun second => (second, maps.chaMap2.value k))

/-- The ordering of the five maps at every key, with every count stored in a
`segMap` at least 1. -/
def Maps.Ordered (maps : Maps) : Prop :=
  ∀ k : String,
    0 ≤ maps.segMap3.value k ∧
    maps.segMap3.value k ≤ maps.segMap2.value k ∧
    maps.segMap2.value k ≤ maps.segMap1.value k ∧
    maps.segMap1.value k ≤ maps.chaMap1.value k ∧
    maps.segMap2.value k ≤ maps.chaMap2.value k ∧
    maps.chaMap2.value k ≤ maps.chaMap1.value k ∧
    (∀ n, maps.segMap1 k = some n → 1 ≤ n) ∧
    (∀ n, maps.segMap2 k = some n → 1 ≤ n) ∧
    (∀ n, maps.segMap3 k = some n → 1 ≤ n)

/-- The layers of the chamber of `simId` that hold at least one simulated hit,
each listed once. -/
def layersWithSimhits (simId : CSCDetId) (simHits : List CSCDetId) : List Int :=
  ((simHits.filter (fun simId2 => decide (simId2.chamber = simId.chamber ∧
    simId2.station = simId.station ∧ simId2.ring = simId.ring ∧
    simId2.endcap = simId.endcap))).map CSCDetId.layer).dedup

end CSCSegmentReader

/-! ## Theorems -/

namespace Phase2TrackerMonitorDigi

/-! ### Auxiliary facts about the digi loops -/

theorem ot_step_eq_it_step (f : Bool) (st : DigiLoop) (d : Phase2TrackerDigi) :
    fillOTDigiHistos_step f st d = fillITPixelDigiHistos_step f st (asPixelDigi d) := rfl

theorem ot_loop_eq_it_loop (f : Bool) (st : DigiLoop) (ds : List Phase2TrackerDigi) :
    fillOTDigiHistos_loop f st ds = fillITPixelDigiHistos_loop f st (ds.map asPixelDigi) := by
  induction ds generalizing st with
  | nil => rfl
  | cons d rest ih =>
    simp only [fillOTDigiHistos_loop, List.map_cons, fillITPixelDigiHistos_loop,
      ot_step_eq_it_step]
    cases fillITPixelDigiHistos_step f st (asPixelDigi d) with
    | none => rfl
    | some st' => exact ih st'

theorem ot_eq_it (f : Bool) (ds : List Phase2TrackerDigi) :
    fillOTDigiHistos f ds = fillITPixelDigiHistos f (ds.map asPixelDigi) := by
  simp [fillOTDigiHistos, fillITPixelDigiHistos, ot_loop_eq_it_loop]

theorem it_loop_append (f : Bool) (st : DigiLoop) (xs ys : List PixelDigi) :
    fillITPixelDigiHistos_loop f st (xs ++ ys) =
      (fillITPixelDigiHistos_loop f st xs).bind (fun s => fillITPixelDigiHistos_loop f s ys) := by
  induction xs generalizing st with
  | nil => rfl
  | cons d rest ih =>
    simp only [List.cons_append, fillITPixelDigiHistos_loop]
    cases fillITPixelDigiHistos_step f st d with
    | none => rfl
    | some st' => exact ih st'

theorem it_loop_single (f : Bool) (st : DigiLoop) (d : PixelDigi) :
    fillITPixelDigiHistos_loop f st [d] = fillITPixelDigiHistos_step f st d := by
  simp only [fillITPixelDigiHistos_loop]
  cases fillITPixelDigiHistos_step f st d <;> rfl

/-- The start branch of the clusteriser block. -/
theorem it_step_start (st : DigiLoop) (di : PixelDigi)
    (h : st.row_last = -1 ∨ (di.row - st.row_last).natAbs ≠ 1 ∨ di.column ≠ st.col_last) :
    fillITPixelDigiHistos_step true st di =
      some { row_last := di.row, col_last := di.column,
             digiClusters := st.digiClusters ++
               [{ charge := 255, position := di.row + 1, width := 1, column := di.column }] } := by
  simp only [fillITPixelDigiHistos_step, if_true, if_pos h]

/-- The merge branch of the clusteriser block, on a non-empty cluster vector. -/
theorem it_step_merge (st : DigiLoop) (di : PixelDigi) (front : List Ph2DigiCluster)
    (back : Ph2DigiCluster)
    (h : ¬ (st.row_last = -1 ∨ (di.row - st.row_last).natAbs ≠ 1 ∨ di.column ≠ st.col_last))
    (hcl : st.digiClusters = front ++ [back]) (hw : back.width + 1 ≠ 0) :
    fillITPixelDigiHistos_step true st di =
      some { row_last := di.row, col_last := di.column,
             digiClusters := front ++
               [{ charge := back.charge,
                  position := Int.tdiv (back.position + di.row + 1) (back.width + 1),
                  width := back.width + 1, column := back.column }] } := by
  simp only [fillITPixelDigiHistos_step, if_true, if_neg h, hcl, List.getLast?_concat,
    if_neg hw, List.dropLast_concat]

/-- With rows that are never negative, the loop over any digi list ends in a
state that tracks the list, and every cluster has `width ≥ 1`, `position ≥ 0`. -/
theorem it_reach (digis : List PixelDigi) (h : ∀ d ∈ digis, 0 ≤ d.row) :
    ∃ st, fillITPixelDigiHistos_loop true DigiLoop.start digis = some st ∧ Tracks digis st ∧
      ∀ c ∈ st.digiClusters, 1 ≤ c.width ∧ 0 ≤ c.position := by
  induction digis using List.reverseRecOn with
  | nil => exact ⟨DigiLoop.start, rfl, rfl, by simp [DigiLoop.start]⟩
  | append_singleton pre di ih =>
    have hpre : ∀ d ∈ pre, 0 ≤ d.row := fun d hd => h d (List.mem_append_left _ hd)
    have hdi : 0 ≤ di.row := h di (by simp)
    obtain ⟨st, hst, htr, hcl⟩ := ih hpre
    rw [it_loop_append, hst, Option.some_bind, it_loop_single]
    by_cases hc : st.row_last = -1 ∨ (di.row - st.row_last).natAbs ≠ 1 ∨ di.column ≠ st.col_last
    · refine ⟨_, it_step_start st di hc, ?_, ?_⟩
      · simp [Tracks, List.getLast?_concat]
      · intro c hcmem
        rcases List.mem_append.1 hcmem with hm | hm
        · exact hcl c hm
        · have : c = { charge := 255, position := di.row + 1, width := 1, column := di.column } := by
            simpa using hm
          subst this
          exact ⟨le_refl _, by show (0:Int) ≤ di.row + 1; omega⟩
    · have hne : st.digiClusters ≠ [] := by
        unfold Tracks at htr
        cases hl : pre.getLast? with
        | none =>
          rw [hl] at htr
          exact absurd (Or.inl (by rw [htr]; rfl)) hc
        | some p =>
          rw [hl] at htr
          exact htr.2.2
      obtain ⟨front, back, hfb⟩ : ∃ front back, st.digiClusters = front ++ [back] :=
        ⟨st.digiClusters.dropLast, st.digiClusters.getLast hne,
          (List.dropLast_append_getLast hne).symm⟩
      have hback := hcl back (by rw [hfb]; simp)
      have hw : back.width + 1 ≠ 0 := by omega
      refine ⟨_, it_step_merge st di front back hc hfb hw, ?_, ?_⟩
      · simp [Tracks, List.getLast?_concat]
      · intro c hcmem
        rcases List.mem_append.1 hcmem with hm | hm
        · exact hcl c (by rw [hfb]; exact List.mem_append_left _ hm)
        · have : c = { charge := back.charge,
                       position := Int.tdiv (back.position + di.row + 1) (back.width + 1),
                       width := back.width + 1, column := back.column } := by
            simpa using hm
          subst this
          refine ⟨by show (1:Int) ≤ back.width + 1; omega, ?_⟩
          show (0:Int) ≤ Int.tdiv (back.position + di.row + 1) (back.width + 1)
          rw [Int.tdiv_eq_ediv (by omega) (by omega)]
          exact Int.ediv_nonneg (by omega) (by omega)

/-- Rows exactly one apart, stated both ways. -/
theorem natAbs_sub_eq_one (a b : Int) (h : a = b + 1 ∨ a = b - 1) : (a - b).natAbs = 1 := by
  omega

/-- For a non-negative numerator and a positive divisor, the truncating C++
division is the floor of the exact quotient. -/
theorem tdiv_eq_floor (a b : Int) (ha : 0 ≤ a) (hb : 0 < b) :
    Int.tdiv a b = ⌊(a : ℚ) / (b : ℚ)⌋ := by
  obtain ⟨n, rfl⟩ := Int.eq_ofNat_of_zero_le (le_of_lt hb)
  rw [Int.tdiv_eq_ediv ha (le_of_lt hb)]
  have := Rat.floor_intCast_div_natCast a n
  simpa using this.symm

/-- In a state that tracks a stream with non-negative rows, the test of the
clusteriser block reads: first hit, or rows not exactly one apart, or columns
different. -/
theorem it_cond_iff (pre : List PixelDigi) (st : DigiLoop) (di : PixelDigi)
    (h : ∀ d ∈ pre, 0 ≤ d.row) (htr : Tracks pre st) :
    (st.row_last = -1 ∨ (di.row - st.row_last).natAbs ≠ 1 ∨ di.column ≠ st.col_last) ↔
      (pre = [] ∨ ∃ p, pre.getLast? = some p ∧
        ((di.row - p.row).natAbs ≠ 1 ∨ di.column ≠ p.column)) := by
  unfold Tracks at htr
  cases hl : pre.getLast? with
  | none =>
    rw [hl] at htr
    have hnil : pre = [] := List.getLast?_eq_none_iff.1 hl
    constructor
    · intro _; exact Or.inl hnil
    · intro _; exact Or.inl (by rw [htr]; rfl)
  | some p =>
    rw [hl] at htr
    obtain ⟨hr, hc, _⟩ := htr
    have hp : 0 ≤ p.row := h p (List.mem_of_mem_getLast? (by rw [hl]; exact rfl))
    have hpre : pre ≠ [] := by
      intro hnil; rw [hnil] at hl; exact absurd hl (by simp)
    rw [hr, hc]
    constructor
    · rintro (h1 | h2)
      · omega
      · exact Or.inr ⟨p, rfl, h2⟩
    · rintro (h1 | ⟨q, hq, h2⟩)
      · exact absurd h1 hpre
      · cases hq; exact Or.inr h2

/-- Everything the loop does with the digi `di` that follows the digis `pre`
(rows non-negative): the states before and after, and the branch taken. -/
theorem it_snoc (pre : List PixelDigi) (di : PixelDigi) (h : ∀ d ∈ pre, 0 ≤ d.row) :
    ∃ st st', fillITPixelDigiHistos_loop true DigiLoop.start pre = some st ∧
      fillITPixelDigiHistos_step true st di = some st' ∧
      (∀ post, fillITPixelDigiHistos_loop true DigiLoop.start (pre ++ di :: post) =
        fillITPixelDigiHistos_loop true st' post) ∧
      ((pre = [] ∨ ∃ p, pre.getLast? = some p ∧
          ((di.row - p.row).natAbs ≠ 1 ∨ di.column ≠ p.column)) →
        st'.digiClusters = st.digiClusters ++
          [{ charge := 255, position := di.row + 1, width := 1, column := di.column }]) ∧
      (¬ (pre = [] ∨ ∃ p, pre.getLast? = some p ∧
          ((di.row - p.row).natAbs ≠ 1 ∨ di.column ≠ p.column)) →
        ∃ front back, st.digiClusters = front ++ [back] ∧ 1 ≤ back.width ∧
          0 ≤ back.position ∧
          st'.digiClusters = front ++
            [{ charge := back.charge,
               position := Int.tdiv (back.position + di.row + 1) (back.width + 1),
               width := back.width + 1, column := back.column }]) := by
  obtain ⟨st, hst, htr, hcl⟩ := it_reach pre h
  have hiff := it_cond_iff pre st di h htr
  have hpost : ∀ st', fillITPixelDigiHistos_step true st di = some st' →
      ∀ post, fillITPixelDigiHistos_loop true DigiLoop.start (pre ++ di :: post) =
        fillITPixelDigiHistos_loop true st' post := by
    intro st' hstep post
    rw [it_loop_append, hst, Option.some_bind]
    simp only [fillITPixelDigiHistos_loop, hstep]
  by_cases hc : st.row_last = -1 ∨ (di.row - st.row_last).natAbs ≠ 1 ∨ di.column ≠ st.col_last
  · have hstep := it_step_start st di hc
    exact ⟨st, _, hst, hstep, hpost _ hstep, fun _ => rfl, fun hn => absurd (hiff.1 hc) hn⟩
  · have hne : st.digiClusters ≠ [] := by
      unfold Tracks at htr
      cases hl : pre.getLast? with
      | none =>
        rw [hl] at htr
        exact absurd (Or.inl (by rw [htr]; rfl)) hc
      | some p =>
        rw [hl] at htr
        exact htr.2.2
    obtain ⟨front, back, hfb⟩ : ∃ front back, st.digiClusters = front ++ [back] :=
      ⟨st.digiClusters.dropLast, st.digiClusters.getLast hne,
        (List.dropLast_append_getLast hne).symm⟩
    have hback := hcl back (by rw [hfb]; simp)
    have hw : back.width + 1 ≠ 0 := by omega
    have hstep := it_step_merge st di front back hc hfb hw
    exact ⟨st, _, hst, hstep, hpost _ hstep, fun hy => absurd (hiff.2 hy) hc,
      fun _ => ⟨front, back, hfb, hback.1, hback.2, rfl⟩⟩

theorem ot_cond_iff (pre : List Phase2TrackerDigi) (di : Phase2TrackerDigi) :
    (pre.map asPixelDigi = [] ∨ ∃ p, (pre.map asPixelDigi).getLast? = some p ∧
        (((asPixelDigi di).row - p.row).natAbs ≠ 1 ∨ (asPixelDigi di).column ≠ p.column)) ↔
      (pre = [] ∨ ∃ p, pre.getLast? = some p ∧
        ((di.row - p.row).natAbs ≠ 1 ∨ di.column ≠ p.column)) := by
  rw [List.getLast?_map, List.map_eq_nil_iff]
  constructor
  · rintro (h | ⟨p, hp, hc⟩)
    · exact Or.inl h
    · cases hl : pre.getLast? with
      | none => rw [hl] at hp; exact absurd hp (by simp)
      | some q =>
        rw [hl] at hp
        have : asPixelDigi q = p := by simpa using hp
        subst this
        exact Or.inr ⟨q, rfl, hc⟩
  · rintro (h | ⟨q, hq, hc⟩)
    · exact Or.inl h
    · exact Or.inr ⟨asPixelDigi q, by rw [hq]; rfl, hc⟩

/-- The outer-tracker counterpart of `it_snoc`. -/
theorem ot_snoc (pre : List Phase2TrackerDigi) (di : Phase2TrackerDigi)
    (h : ∀ d ∈ pre, 0 ≤ d.row) :
    ∃ st st', fillOTDigiHistos_loop true DigiLoop.start pre = some st ∧
      fillOTDigiHistos_step true st di = some st' ∧
      (∀ post, fillOTDigiHistos_loop true DigiLoop.start (pre ++ di :: post) =
        fillOTDigiHistos_loop true st' post) ∧
      ((pre = [] ∨ ∃ p, pre.getLast? = some p ∧
          ((di.row - p.row).natAbs ≠ 1 ∨ di.column ≠ p.column)) →
        st'.digiClusters = st.digiClusters ++
          [{ charge := 255, position := di.row + 1, width := 1, column := di.column }]) ∧
      (¬ (pre = [] ∨ ∃ p, pre.getLast? = some p ∧
          ((di.row - p.row).natAbs ≠ 1 ∨ di.column ≠ p.column)) →
        ∃ front back, st.digiClusters = front ++ [back] ∧ 1 ≤ back.width ∧
          0 ≤ back.position ∧
          st'.digiClusters = front ++
            [{ charge := back.charge,
               position := Int.tdiv (back.position + di.row + 1) (back.width + 1),
               width := back.width + 1, column := back.column }]) := by
  have hmap : ∀ d ∈ pre.map asPixelDigi, 0 ≤ d.row := by
    intro d hd
    obtain ⟨e, he, rfl⟩ := List.mem_map.1 hd
    exact h e he
  obtain ⟨st, st', h1, h2, h3, h4, h5⟩ := it_snoc (pre.map asPixelDigi) (asPixelDigi di) hmap
  refine ⟨st, st', ?_, ?_, ?_, ?_, ?_⟩
  · rw [ot_loop_eq_it_loop]; exact h1
  · rw [ot_step_eq_it_step]; exact h2
  · intro post
    rw [ot_loop_eq_it_loop, ot_loop_eq_it_loop, List.map_append, List.map_cons]
    exact h3 _
  · intro hc; exact h4 ((ot_cond_iff pre di).2 hc)
  · intro hc; exact h5 (fun hx => hc ((ot_cond_iff pre di).1 hx))

/-! ### The start rule and the merge rule -/

/-- C1 (start rule).  In both digi loops, with non-negative rows and columns and
the clusteriser switched on, the hit `di` that follows the hits `pre` of a
stream starts a new cluster exactly when it is the first hit, or its row is
not exactly one away from the previous hit's row, or its column differs from
the previous hit's column; the new cluster is appended at the end of
`digiClusters` with `position = row + 1`, `column = column`, `width = 1`,
`charge = 255`, and otherwise the number of clusters does not change. -/
theorem start_rule (pre : List PixelDigi) (di : PixelDigi)
    (pre' : List Phase2TrackerDigi) (di' : Phase2TrackerDigi)
    (h : ∀ d ∈ pre ++ [di], 0 ≤ d.row ∧ 0 ≤ d.column)
    (h' : ∀ d ∈ pre' ++ [di'], 0 ≤ d.row ∧ 0 ≤ d.column) :
    (∃ st st', fillITPixelDigiHistos_loop true DigiLoop.start pre = some st ∧
      fillITPixelDigiHistos_step true st di = some st' ∧
      (∀ post, fillITPixelDigiHistos_loop true DigiLoop.start (pre ++ di :: post) =
        fillITPixelDigiHistos_loop true st' post) ∧
      ((pre = [] ∨ ∃ p, pre.getLast? = some p ∧
          ((di.row - p.row).natAbs ≠ 1 ∨ di.column ≠ p.column)) ↔
        st'.digiClusters = st.digiClusters ++
          [{ charge := 255, position := di.row + 1, width := 1, column := di.column }]) ∧
      (¬ (pre = [] ∨ ∃ p, pre.getLast? = some p ∧
          ((di.row - p.row).natAbs ≠ 1 ∨ di.column ≠ p.column)) →
        st'.digiClusters.length = st.digiClusters.length)) ∧
    (∃ st st', fillOTDigiHistos_loop true DigiLoop.start pre' = some st ∧
      fillOTDigiHistos_step true st di' = some st' ∧
      (∀ post, fillOTDigiHistos_loop true DigiLoop.start (pre' ++ di' :: post) =
        fillOTDigiHistos_loop true st' post) ∧
      ((pre' = [] ∨ ∃ p, pre'.getLast? = some p ∧
          ((di'.row - p.row).natAbs ≠ 1 ∨ di'.column ≠ p.column)) ↔
        st'.digiClusters = st.digiClusters ++
          [{ charge := 255, position := di'.row + 1, width := 1, column := di'.column }]) ∧
      (¬ (pre' = [] ∨ ∃ p, pre'.getLast? = some p ∧
          ((di'.row - p.row).natAbs ≠ 1 ∨ di'.column ≠ p.column)) →
        st'.digiClusters.length = st.digiClusters.length)) := by
  constructor
  · obtain ⟨st, st', h1, h2, h3, h4, h5⟩ :=
      it_snoc pre di (fun d hd => (h d (List.mem_append_left _ hd)).1)
    refine ⟨st, st', h1, h2, h3, ⟨h4, ?_⟩, ?_⟩
    · intro heq
      by_contra hn
      obtain ⟨front, back, hfb, _, _, hm⟩ := h5 hn
      have := congrArg List.length heq
      rw [hm, hfb] at this
      simp at this
    · intro hn
      obtain ⟨front, back, hfb, _, _, hm⟩ := h5 hn
      rw [hm, hfb]; simp
  · obtain ⟨st, st', h1, h2, h3, h4, h5⟩ :=
      ot_snoc pre' di' (fun d hd => (h' d (List.mem_append_left _ hd)).1)
    refine ⟨st, st', h1, h2, h3, ⟨h4, ?_⟩, ?_⟩
    · intro heq
      by_contra hn
      obtain ⟨front, back, hfb, _, _, hm⟩ := h5 hn
      have := congrArg List.length heq
      rw [hm, hfb] at this
      simp at this
    · intro hn
      obtain ⟨front, back, hfb, _, _, hm⟩ := h5 hn
      rw [hm, hfb]; simp

/-- The start rule at a concrete pair of streams: hits `(5,0)` then `(7,0)` in
the pixel loop, hits `(5,0)` then `(6,0)` in the outer-tracker loop. -/
theorem start_rule_witness :
    (∀ d ∈ ([⟨5, 0, 3⟩] : List PixelDigi) ++ [⟨7, 0, 4⟩], 0 ≤ d.row ∧ 0 ≤ d.column) ∧
    (∀ d ∈ ([⟨5, 0, true⟩] : List Phase2TrackerDigi) ++ [⟨6, 0, false⟩],
      0 ≤ d.row ∧ 0 ≤ d.column) ∧
    (∃ st st', fillITPixelDigiHistos_loop true DigiLoop.start ([⟨5, 0, 3⟩] : List PixelDigi) = some st ∧
      fillITPixelDigiHistos_step true st (⟨7, 0, 4⟩ : PixelDigi) = some st' ∧
      (∀ post, fillITPixelDigiHistos_loop true DigiLoop.start (([⟨5, 0, 3⟩] : List PixelDigi) ++ (⟨7, 0, 4⟩ : PixelDigi) :: post) =
        fillITPixelDigiHistos_loop true st' post) ∧
      ((([⟨5, 0, 3⟩] : List PixelDigi) = [] ∨ ∃ p, ([⟨5, 0, 3⟩] : List PixelDigi).getLast? = some p ∧
          (((⟨7, 0, 4⟩ : PixelDigi).row - p.row).natAbs ≠ 1 ∨ (⟨7, 0, 4⟩ : PixelDigi).column ≠ p.column)) ↔
        st'.digiClusters = st.digiClusters ++
          [{ charge := 255, position := (⟨7, 0, 4⟩ : PixelDigi).row + 1, width := 1, column := (⟨7, 0, 4⟩ : PixelDigi).column }]) ∧
      (¬ (([⟨5, 0, 3⟩] : List PixelDigi) = [] ∨ ∃ p, ([⟨5, 0, 3⟩] : List PixelDigi).getLast? = some p ∧
          (((⟨7, 0, 4⟩ : PixelDigi).row - p.row).natAbs ≠ 1 ∨ (⟨7, 0, 4⟩ : PixelDigi).column ≠ p.column)) →
        st'.digiClusters.length = st.digiClusters.length)) ∧
    (∃ st st', fillOTDigiHistos_loop true DigiLoop.start ([⟨5, 0, true⟩] : List Phase2TrackerDigi) = some st ∧
      fillOTDigiHistos_step true st (⟨6, 0, false⟩ : Phase2TrackerDigi) = some st' ∧
      (∀ post, fillOTDigiHistos_loop true DigiLoop.start (([⟨5, 0, true⟩] : List Phase2TrackerDigi) ++ (⟨6, 0, false⟩ : Phase2TrackerDigi) :: post) =
        fillOTDigiHistos_loop true st' post) ∧
      ((([⟨5, 0, true⟩] : List Phase2TrackerDigi) = [] ∨ ∃ p, ([⟨5, 0, true⟩] : List Phase2TrackerDigi).getLast? = some p ∧
          (((⟨6, 0, false⟩ : Phase2TrackerDigi).row - p.row).natAbs ≠ 1 ∨ (⟨6, 0, false⟩ : Phase2TrackerDigi).column ≠ p.column)) ↔
        st'.digiClusters = st.digiClusters ++
          [{ charge := 255, position := (⟨6, 0, false⟩ : Phase2TrackerDigi).row + 1, width := 1, column := (⟨6, 0, false⟩ : Phase2TrackerDigi).column }]) ∧
      (¬ (([⟨5, 0, true⟩] : List Phase2TrackerDigi) = [] ∨ ∃ p, ([⟨5, 0, true⟩] : List Phase2TrackerDigi).getLast? = some p ∧
          (((⟨6, 0, false⟩ : Phase2TrackerDigi).row - p.row).natAbs ≠ 1 ∨ (⟨6, 0, false⟩ : Phase2TrackerDigi).column ≠ p.column)) →
        st'.digiClusters.length = st.digiClusters.length)) :=
  ⟨by decide, by decide,
    start_rule [⟨5, 0, 3⟩] ⟨7, 0, 4⟩ [⟨5, 0, true⟩] ⟨6, 0, false⟩ (by decide) (by decide)⟩

/-- C2 (merge rule).  In both digi loops, with non-negative rows and the
clusteriser switched on, a hit `di` that follows a hit `p` of the same column
whose row is exactly one below or above leaves the number of clusters
unchanged and rewrites only the last cluster `back`: its width becomes
`width + 1` and its position `floor ((position + row + 1) / (width + 1))`,
computed from the old position and width; charge, column and all earlier
clusters (`front`) stay as they were. -/
theorem merge_rule (pre : List PixelDigi) (di p : PixelDigi)
    (pre' : List Phase2TrackerDigi) (di' p' : Phase2TrackerDigi)
    (h : ∀ d ∈ pre ++ [di], 0 ≤ d.row) (hl : pre.getLast? = some p)
    (hcol : di.column = p.column) (hrow : di.row = p.row + 1 ∨ di.row = p.row - 1)
    (h' : ∀ d ∈ pre' ++ [di'], 0 ≤ d.row) (hl' : pre'.getLast? = some p')
    (hcol' : di'.column = p'.column) (hrow' : di'.row = p'.row + 1 ∨ di'.row = p'.row - 1) :
    (∃ st st' front back, fillITPixelDigiHistos_loop true DigiLoop.start pre = some st ∧
      fillITPixelDigiHistos_step true st di = some st' ∧
      (∀ post, fillITPixelDigiHistos_loop true DigiLoop.start (pre ++ di :: post) =
        fillITPixelDigiHistos_loop true st' post) ∧
      st.digiClusters = front ++ [back] ∧
      st'.digiClusters = front ++
        [{ charge := back.charge,
           position := ⌊((back.position + di.row + 1 : ℤ) : ℚ) / ((back.width + 1 : ℤ) : ℚ)⌋,
           width := back.width + 1, column := back.column }]) ∧
    (∃ st st' front back, fillOTDigiHistos_loop true DigiLoop.start pre' = some st ∧
      fillOTDigiHistos_step true st di' = some st' ∧
      (∀ post, fillOTDigiHistos_loop true DigiLoop.start (pre' ++ di' :: post) =
        fillOTDigiHistos_loop true st' post) ∧
      st.digiClusters = front ++ [back] ∧
      st'.digiClusters = front ++
        [{ charge := back.charge,
           position := ⌊((back.position + di'.row + 1 : ℤ) : ℚ) / ((back.width + 1 : ℤ) : ℚ)⌋,
           width := back.width + 1, column := back.column }]) := by
  constructor
  · have hdi := h di (by simp)
    obtain ⟨st, st', h1, h2, h3, _, h5⟩ :=
      it_snoc pre di (fun d hd => h d (List.mem_append_left _ hd))
    have hn : ¬ (pre = [] ∨ ∃ q, pre.getLast? = some q ∧
        ((di.row - q.row).natAbs ≠ 1 ∨ di.column ≠ q.column)) := by
      rintro (hnil | ⟨q, hq, hc⟩)
      · rw [hnil] at hl; exact absurd hl (by simp)
      · rw [hl] at hq; cases hq
        rcases hc with hc | hc
        · exact hc (natAbs_sub_eq_one _ _ hrow)
        · exact hc hcol
    obtain ⟨front, back, hfb, hw, hp, hm⟩ := h5 hn
    refine ⟨st, st', front, back, h1, h2, h3, hfb, ?_⟩
    rw [hm, tdiv_eq_floor _ _ (by omega) (by omega)]
  · have hdi := h' di' (by simp)
    obtain ⟨st, st', h1, h2, h3, _, h5⟩ :=
      ot_snoc pre' di' (fun d hd => h' d (List.mem_append_left _ hd))
    have hn : ¬ (pre' = [] ∨ ∃ q, pre'.getLast? = some q ∧
        ((di'.row - q.row).natAbs ≠ 1 ∨ di'.column ≠ q.column)) := by
      rintro (hnil | ⟨q, hq, hc⟩)
      · rw [hnil] at hl'; exact absurd hl' (by simp)
      · rw [hl'] at hq; cases hq
        rcases hc with hc | hc
        · exact hc (natAbs_sub_eq_one _ _ hrow')
        · exact hc hcol'
    obtain ⟨front, back, hfb, hw, hp, hm⟩ := h5 hn
    refine ⟨st, st', front, back, h1, h2, h3, hfb, ?_⟩
    rw [hm, tdiv_eq_floor _ _ (by omega) (by omega)]

/-- The merge rule at concrete streams: `(5,0)` then `(6,0)` in the pixel loop,
`(3,1), (9,1)` then `(8,1)` in the outer-tracker loop. -/
theorem merge_rule_witness :
    (∃ st st' front back, fillITPixelDigiHistos_loop true DigiLoop.start ([⟨5, 0, 3⟩] : List PixelDigi) = some st ∧
      fillITPixelDigiHistos_step true st (⟨6, 0, 4⟩ : PixelDigi) = some st' ∧
      (∀ post, fillITPixelDigiHistos_loop true DigiLoop.start (([⟨5, 0, 3⟩] : List PixelDigi) ++ (⟨6, 0, 4⟩ : PixelDigi) :: post) =
        fillITPixelDigiHistos_loop true st' post) ∧
      st.digiClusters = front ++ [back] ∧
      st'.digiClusters = front ++
        [{ charge := back.charge,
           position := ⌊((back.position + (⟨6, 0, 4⟩ : PixelDigi).row + 1 : ℤ) : ℚ) / ((back.width + 1 : ℤ) : ℚ)⌋,
           width := back.width + 1, column := back.column }]) ∧
    (∃ st st' front back, fillOTDigiHistos_loop true DigiLoop.start ([⟨3, 1, true⟩, ⟨9, 1, true⟩] : List Phase2TrackerDigi) = some st ∧
      fillOTDigiHistos_step true st (⟨8, 1, false⟩ : Phase2TrackerDigi) = some st' ∧
      (∀ post, fillOTDigiHistos_loop true DigiLoop.start (([⟨3, 1, true⟩, ⟨9, 1, true⟩] : List Phase2TrackerDigi) ++ (⟨8, 1, false⟩ : Phase2TrackerDigi) :: post) =
        fillOTDigiHistos_loop true st' post) ∧
      st.digiClusters = front ++ [back] ∧
      st'.digiClusters = front ++
        [{ charge := back.charge,
           position := ⌊((back.position + (⟨8, 1, false⟩ : Phase2TrackerDigi).row + 1 : ℤ) : ℚ) / ((back.width + 1 : ℤ) : ℚ)⌋,
           width := back.width + 1, column := back.column }]) :=
  merge_rule [⟨5, 0, 3⟩] ⟨6, 0, 4⟩ ⟨5, 0, 3⟩ [⟨3, 1, true⟩, ⟨9, 1, true⟩] ⟨8, 1, false⟩ ⟨9, 1, true⟩
    (by decide) rfl rfl (by decide) (by decide) rfl rfl (by decide)

/-! ### Number of clusters -/

/-- The pixel loop never builds more clusters than it has seen digis, and builds
as many exactly when no digi is adjacent to its predecessor. -/
theorem it_count (digis : List PixelDigi) (h : ∀ d ∈ digis, 0 ≤ d.row) :
    ∃ st, fillITPixelDigiHistos_loop true DigiLoop.start digis = some st ∧
      st.digiClusters.length ≤ digis.length ∧
      (st.digiClusters.length = digis.length ↔
        List.Chain' (fun p d => ¬ (d.column = p.column ∧ (d.row - p.row).natAbs = 1)) digis) := by
  induction digis using List.reverseRecOn with
  | nil => exact ⟨DigiLoop.start, rfl, by simp [DigiLoop.start], by simp [DigiLoop.start]⟩
  | append_singleton pre di ih =>
    have hpre : ∀ d ∈ pre, 0 ≤ d.row := fun d hd => h d (List.mem_append_left _ hd)
    obtain ⟨st0, hst0, hle, hiff⟩ := ih hpre
    obtain ⟨st, st', h1, _, h3, h4, h5⟩ := it_snoc pre di hpre
    have hst : st = st0 := Option.some.inj (h1.symm.trans hst0)
    subst hst
    have hloop : fillITPixelDigiHistos_loop true DigiLoop.start (pre ++ [di]) = some st' := by
      rw [h3 []]; rfl
    refine ⟨st', hloop, ?_⟩
    rw [List.chain'_append]
    by_cases hc : pre = [] ∨ ∃ p, pre.getLast? = some p ∧
        ((di.row - p.row).natAbs ≠ 1 ∨ di.column ≠ p.column)
    · have hlen : st'.digiClusters.length = st.digiClusters.length + 1 := by
        rw [h4 hc]; simp
      have hlast : ∀ x ∈ pre.getLast?, ∀ y ∈ [di].head?,
          ¬ (y.column = x.column ∧ (y.row - x.row).natAbs = 1) := by
        intro x hx y hy
        have hy' : y = di := by simpa using hy.symm
        subst hy'
        rcases hc with hnil | ⟨q, hq, hcq⟩
        · rw [hnil] at hx; exact absurd hx (by simp)
        · have hxq : x = q := by
            have : pre.getLast? = some x := hx
            rw [hq] at this; exact (Option.some.inj this).symm
          subst hxq
          rintro ⟨e1, e2⟩
          rcases hcq with hcq | hcq
          · exact hcq e2
          · exact hcq e1
      refine ⟨by rw [hlen, List.length_append]; simpa using hle, ?_⟩
      rw [hlen, List.length_append]
      constructor
      · intro heq
        exact ⟨hiff.1 (by simpa using heq), List.chain'_singleton _, hlast⟩
      · rintro ⟨hch, _, _⟩
        have := hiff.2 hch
        simp [this]
    · obtain ⟨front, back, hfb, _, _, hm⟩ := h5 hc
      have hlen : st'.digiClusters.length = st.digiClusters.length := by
        rw [hm, hfb]; simp
      refine ⟨by rw [hlen, List.length_append]; omega, ?_⟩
      rw [hlen, List.length_append]
      constructor
      · intro heq
        simp at heq
        omega
      · rintro ⟨_, _, hlast⟩
        exfalso
        apply hc
        cases hl : pre.getLast? with
        | none => exact Or.inl (List.getLast?_eq_none_iff.1 hl)
        | some q =>
          right
          refine ⟨q, rfl, ?_⟩
          have := hlast q hl di rfl
          by_contra hcon
          push_neg at hcon
          exact this ⟨hcon.2, hcon.1⟩

/-- C7.  For every digi stream with non-negative rows and columns, in both
loops the number of clusters built is at most the number of hits, and the two
are equal if and only if no two consecutive hits are adjacent (same column and
rows exactly one apart). -/
theorem cluster_count (digis : List PixelDigi) (digis' : List Phase2TrackerDigi)
    (h : ∀ d ∈ digis, 0 ≤ d.row ∧ 0 ≤ d.column)
    (h' : ∀ d ∈ digis', 0 ≤ d.row ∧ 0 ≤ d.column) :
    (∃ clusters, fillITPixelDigiHistos true digis = some clusters ∧
      clusters.length ≤ digis.length ∧
      (clusters.length = digis.length ↔
        List.Chain' (fun p d => ¬ (d.column = p.column ∧ (d.row - p.row).natAbs = 1)) digis)) ∧
    (∃ clusters, fillOTDigiHistos true digis' = some clusters ∧
      clusters.length ≤ digis'.length ∧
      (clusters.length = digis'.length ↔
        List.Chain' (fun p d => ¬ (d.column = p.column ∧ (d.row - p.row).natAbs = 1)) digis')) := by
  constructor
  · obtain ⟨st, hst, hle, hiff⟩ := it_count digis (fun d hd => (h d hd).1)
    exact ⟨st.digiClusters, by simp [fillITPixelDigiHistos, hst], hle, hiff⟩
  · have hmap : ∀ d ∈ digis'.map asPixelDigi, 0 ≤ d.row := by
      intro d hd
      obtain ⟨e, he, rfl⟩ := List.mem_map.1 hd
      exact (h' e he).1
    obtain ⟨st, hst, hle, hiff⟩ := it_count (digis'.map asPixelDigi) hmap
    refine ⟨st.digiClusters, by simp [ot_eq_it, fillITPixelDigiHistos, hst], ?_, ?_⟩
    · simpa using hle
    · rw [List.chain'_map, List.length_map] at hiff
      exact hiff

/-- The count property at concrete streams: three pixel hits with one adjacent
pair, two outer-tracker hits with none. -/
theorem cluster_count_witness :
    (∀ d ∈ ([⟨5, 0, 3⟩, ⟨6, 0, 3⟩, ⟨8, 0, 3⟩] : List PixelDigi), 0 ≤ d.row ∧ 0 ≤ d.column) ∧
    (∀ d ∈ ([⟨2, 1, true⟩, ⟨2, 2, true⟩] : List Phase2TrackerDigi),
      0 ≤ d.row ∧ 0 ≤ d.column) ∧
    (∃ clusters, fillITPixelDigiHistos true ([⟨5, 0, 3⟩, ⟨6, 0, 3⟩, ⟨8, 0, 3⟩] : List PixelDigi) = some clusters ∧
      clusters.length ≤ ([⟨5, 0, 3⟩, ⟨6, 0, 3⟩, ⟨8, 0, 3⟩] : List PixelDigi).length ∧
      (clusters.length = ([⟨5, 0, 3⟩, ⟨6, 0, 3⟩, ⟨8, 0, 3⟩] : List PixelDigi).length ↔
        List.Chain' (fun p d => ¬ (d.column = p.column ∧ (d.row - p.row).natAbs = 1)) ([⟨5, 0, 3⟩, ⟨6, 0, 3⟩, ⟨8, 0, 3⟩] : List PixelDigi))) ∧
    (∃ clusters, fillOTDigiHistos true ([⟨2, 1, true⟩, ⟨2, 2, true⟩] : List Phase2TrackerDigi) = some clusters ∧
      clusters.length ≤ ([⟨2, 1, true⟩, ⟨2, 2, true⟩] : List Phase2TrackerDigi).length ∧
      (clusters.length = ([⟨2, 1, true⟩, ⟨2, 2, true⟩] : List Phase2TrackerDigi).length ↔
        List.Chain' (fun p d => ¬ (d.column = p.column ∧ (d.row - p.row).natAbs = 1)) ([⟨2, 1, true⟩, ⟨2, 2, true⟩] : List Phase2TrackerDigi))) :=
  ⟨by decide, by decide,
    cluster_count [⟨5, 0, 3⟩, ⟨6, 0, 3⟩, ⟨8, 0, 3⟩] [⟨2, 1, true⟩, ⟨2, 2, true⟩]
      (by decide) (by decide)⟩

/-! ### Worked examples of the clusteriser -/

/-- C8, as the code behaves.  On the four hits `(0,0), (1,0), (2,0), (3,0)`
(any charges, any threshold bits) both loops build exactly one cluster, of
width 4, column 0, charge 255 and position 1: the folding is
`1`, `(1 + 2) / 2 = 1`, `(1 + 3) / 3 = 1`, `(1 + 4) / 4 = 1`. -/
theorem four_hit_stream (a b c d : Int) (t u v w : Bool) :
    fillITPixelDigiHistos true [⟨0, 0, a⟩, ⟨1, 0, b⟩, ⟨2, 0, c⟩, ⟨3, 0, d⟩] =
      some [{ charge := 255, position := 1, width := 4, column := 0 }] ∧
    fillOTDigiHistos true [⟨0, 0, t⟩, ⟨1, 0, u⟩, ⟨2, 0, v⟩, ⟨3, 0, w⟩] =
      some [{ charge := 255, position := 1, width := 4, column := 0 }] :=
  ⟨rfl, rfl⟩

/-- C8, as stated, fails: on the four-hit stream neither loop ends with a single
cluster of width 4 at position 2. -/
theorem four_hit_stream_position_not_two :
    (¬ ∃ cl, fillITPixelDigiHistos true [⟨0, 0, 0⟩, ⟨1, 0, 0⟩, ⟨2, 0, 0⟩, ⟨3, 0, 0⟩] = some [cl] ∧
        cl.width = 4 ∧ cl.position = 2) ∧
    (¬ ∃ cl, fillOTDigiHistos true [⟨0, 0, true⟩, ⟨1, 0, true⟩, ⟨2, 0, true⟩, ⟨3, 0, true⟩] =
        some [cl] ∧ cl.width = 4 ∧ cl.position = 2) := by
  constructor
  · rintro ⟨cl, hcl, _, hpos⟩
    have hrun : fillITPixelDigiHistos true [⟨0, 0, 0⟩, ⟨1, 0, 0⟩, ⟨2, 0, 0⟩, ⟨3, 0, 0⟩] =
        some [{ charge := 255, position := 1, width := 4, column := 0 }] := rfl
    rw [hrun] at hcl
    have hcl' : ({ charge := 255, position := 1, width := 4, column := 0 } : Ph2DigiCluster) = cl := by
      simpa using hcl
    rw [← hcl'] at hpos
    exact absurd hpos (by decide)
  · rintro ⟨cl, hcl, _, hpos⟩
    have hrun : fillOTDigiHistos true [⟨0, 0, true⟩, ⟨1, 0, true⟩, ⟨2, 0, true⟩, ⟨3, 0, true⟩] =
        some [{ charge := 255, position := 1, width := 4, column := 0 }] := rfl
    rw [hrun] at hcl
    have hcl' : ({ charge := 255, position := 1, width := 4, column := 0 } : Ph2DigiCluster) = cl := by
      simpa using hcl
    rw [← hcl'] at hpos
    exact absurd hpos (by decide)

/-- C9.  On the three hits `(5,0), (6,0), (8,0)` (any charges, any threshold
bits) both loops build exactly two clusters, in this order: width 2 at
position 6, then width 1 at position 9, both in column 0 with charge 255. -/
theorem three_hit_stream (a b c : Int) (t u v : Bool) :
    fillITPixelDigiHistos true [⟨5, 0, a⟩, ⟨6, 0, b⟩, ⟨8, 0, c⟩] =
      some [{ charge := 255, position := 6, width := 2, column := 0 },
            { charge := 255, position := 9, width := 1, column := 0 }] ∧
    fillOTDigiHistos true [⟨5, 0, t⟩, ⟨6, 0, u⟩, ⟨8, 0, v⟩] =
      some [{ charge := 255, position := 6, width := 2, column := 0 },
            { charge := 255, position := 9, width := 1, column := 0 }] :=
  ⟨rfl, rfl⟩

end Phase2TrackerMonitorDigi

namespace HLTBtagLifetimeAnalyzer

/-! ### Auxiliary facts about the level loop -/

theorem incrementAt_eq (m_events : List Nat) (l : Nat) (h : l < m_events.length) :
    incrementAt m_events l = some (m_events.set l ((m_events[l] + 1) % 2 ^ 32)) := by
  simp [incrementAt, h]

/-- The level loop started at index `l` on enough counters: it ends, keeps the
number of counters, and increments (modulo `2 ^ 32`) exactly the counters of
the leading passed levels. -/
theorem analyze_levels_spec (status : PathStatus) (levels : List InputData) (l : Nat)
    (m_events : List Nat) (h : l + levels.length ≤ m_events.length) :
    ∃ res, analyze_levels status levels l m_events = some res ∧
      res.length = m_events.length ∧
      ∀ j, res[j]? =
        if l ≤ j ∧ j < l + (levels.takeWhile (passed status)).length
        then m_events[j]?.map (fun c => (c + 1) % 2 ^ 32) else m_events[j]? := by
  induction levels generalizing l m_events with
  | nil =>
    refine ⟨m_events, rfl, rfl, fun j => ?_⟩
    rw [if_neg]
    simp
  | cons level rest ih =>
    have hl : l < m_events.length := by simp at h; omega
    by_cases hp : passed status level = true
    · obtain ⟨res, hres, hlen, hget⟩ :=
        ih (l + 1) (m_events.set l ((m_events[l] + 1) % 2 ^ 32))
          (by simp at h ⊢; omega)
      refine ⟨res, ?_, by simpa using hlen, fun j => ?_⟩
      · simp only [analyze_levels, hp, if_true, incrementAt_eq m_events l hl]
        exact hres
      · rw [hget j, List.takeWhile_cons_of_pos hp, List.length_cons, List.getElem?_set]
        by_cases hjl : l = j
        · subst hjl
          simp [hl]
        · simp only [hjl, if_false]
          have e : (l + 1 ≤ j ∧ j < l + 1 + (rest.takeWhile (passed status)).length) ↔
              (l ≤ j ∧ j < l + ((rest.takeWhile (passed status)).length + 1)) := by
            omega
          simp only [e]
    · refine ⟨m_events, ?_, rfl, fun j => ?_⟩
      · simp only [analyze_levels, hp]
        rfl
      · rw [List.takeWhile_cons_of_neg hp, if_neg]
        simp

/-- The update of one event, counter by counter (counters as many as levels). -/
theorem analyze_spec (m_levels : List InputData) (m_events : List Nat) (status : PathStatus)
    (hlen : m_events.length = m_levels.length) :
    ∃ res, analyze m_levels m_events status = some res ∧ res.length = m_events.length ∧
      ∀ j c, m_events[j]? = some c →
        res[j]? = some (if j < (m_levels.takeWhile (passed status)).length
          then (c + 1) % 2 ^ 32 else c) := by
  obtain ⟨res, hres, hl, hget⟩ := analyze_levels_spec status m_levels 0 m_events (by omega)
  refine ⟨res, hres, hl, fun j c hc => ?_⟩
  rw [hget j, hc]
  by_cases hj : j < (m_levels.takeWhile (passed status)).length
  · simp [hj]
  · simp [hj]

theorem analyze_all_append (m_levels : List InputData) (m_events : List Nat)
    (xs ys : List PathStatus) :
    analyze_all m_levels m_events (xs ++ ys) =
      (analyze_all m_levels m_events xs).bind (fun ev => analyze_all m_levels ev ys) := by
  induction xs generalizing m_events with
  | nil => rfl
  | cons x rest ih =>
    simp only [List.cons_append, analyze_all]
    cases analyze m_levels m_events x with
    | none => rfl
    | some ev => exact ih ev

/-- An accepted event increments every counter (modulo `2 ^ 32`). -/
theorem analyze_accepted (m_levels : List InputData) (m_events : List Nat) (latest : Nat)
    (hlen : m_events.length = m_levels.length) :
    analyze m_levels m_events ⟨true, latest⟩ =
      some (m_events.map (fun c => (c + 1) % 2 ^ 32)) := by
  obtain ⟨res, hres, hl, hget⟩ := analyze_spec m_levels m_events ⟨true, latest⟩ hlen
  rw [hres]
  congr 1
  apply List.ext_getElem?
  intro j
  have hall : m_levels.takeWhile (passed ⟨true, latest⟩) = m_levels :=
    List.takeWhile_eq_self_iff.2 (fun x _ => by simp [passed])
  rw [hall] at hget
  rw [List.getElem?_map]
  by_cases hj : j < m_events.length
  · rw [hget j _ (List.getElem?_eq_getElem hj), List.getElem?_eq_getElem hj]
    simp [hlen ▸ hj]
  · rw [List.getElem?_eq_none (by omega), List.getElem?_eq_none (by omega)]
    rfl

/-- After `n` accepted events every counter that started at `a` modulo `2 ^ 32`
holds `a + n` modulo `2 ^ 32`. -/
theorem analyze_all_accepted (m_levels : List InputData) (latest n a : Nat) :
    analyze_all m_levels (List.replicate m_levels.length (a % 2 ^ 32))
        (List.replicate n ⟨true, latest⟩) =
      some (List.replicate m_levels.length ((a + n) % 2 ^ 32)) := by
  induction n generalizing a with
  | zero => rfl
  | succ n ih =>
    rw [List.replicate_succ]
    simp only [analyze_all]
    rw [analyze_accepted _ _ _ (by simp)]
    simp only [List.map_replicate]
    have e : (a % 2 ^ 32 + 1) % 2 ^ 32 = (a + 1) % 2 ^ 32 := by omega
    rw [e, ih (a + 1)]
    congr 3
    omega

theorem beginJob_nil (m_levels : List InputData) :
    beginJob m_levels [] = List.replicate m_levels.length 0 := by
  simp [beginJob, resize]

/-- The length of the longest prefix of passed elements: everything before it
is passed, the element at it (if any) is not. -/
theorem takeWhile_length_spec {α : Type} (p : α → Bool) (l : List α) :
    (∀ i x, l[i]? = some x → i < (l.takeWhile p).length → p x = true) ∧
    (∀ x, l[(l.takeWhile p).length]? = some x → p x = false) := by
  induction l with
  | nil => exact ⟨fun i x h => by simp at h, fun x h => by simp at h⟩
  | cons a rest ih =>
    by_cases hp : p a = true
    · rw [List.takeWhile_cons_of_pos hp]
      constructor
      · intro i x hx hi
        cases i with
        | zero => simp at hx; rw [← hx]; exact hp
        | succ i =>
          simp at hx hi
          exact ih.1 i x hx hi
      · intro x hx
        simp at hx
        exact ih.2 x hx
    · rw [List.takeWhile_cons_of_neg hp]
      constructor
      · intro i x _ hi
        simp at hi
      · intro x hx
        simp at hx
        rw [← hx]
        simpa using hp

/-! ### The per-event update -/

/-- C3, as the code behaves.  For every list of levels, every event reaching
the level loop and counters as many as levels: with
`passed level = accepted or (latest > level.m_filterIndex)` and `k` the number
of levels before the first level that is not passed (all levels if every level
is passed), the event leaves the number of counters unchanged, replaces the
counter `c` of each of the first `k` levels by `(c + 1) mod 2 ^ 32` and leaves
every other counter unchanged.  A counter below `2 ^ 32 - 1` therefore goes up
by exactly 1 or stays, and does not decrease. -/
theorem analyze_update (m_levels : List InputData) (m_events : List Nat) (status : PathStatus)
    (hlen : m_events.length = m_levels.length) :
    ∃ res, analyze m_levels m_events status = some res ∧
      res.length = m_events.length ∧
      (∀ (i : Nat) (level : InputData), m_levels[i]? = some level →
        i < (m_levels.takeWhile (passed status)).length → passed status level = true) ∧
      (∀ level, m_levels[(m_levels.takeWhile (passed status)).length]? = some level →
        passed status level = false) ∧
      (∀ j c, m_events[j]? = some c →
        res[j]? = some (if j < (m_levels.takeWhile (passed status)).length
          then (c + 1) % 2 ^ 32 else c)) ∧
      (∀ j c, m_events[j]? = some c → c < 2 ^ 32 - 1 →
        res[j]? = some (if j < (m_levels.takeWhile (passed status)).length then c + 1 else c) ∧
        ∃ c', res[j]? = some c' ∧ c ≤ c' ∧ c' ≤ c + 1) := by
  obtain ⟨res, hres, hl, hget⟩ := analyze_spec m_levels m_events status hlen
  have hk := takeWhile_length_spec (passed status) m_levels
  refine ⟨res, hres, hl, hk.1, hk.2, hget, fun j c hc hlt => ?_⟩
  have hmod : (c + 1) % 2 ^ 32 = c + 1 := Nat.mod_eq_of_lt (by omega)
  have hj := hget j c hc
  rw [hmod] at hj
  refine ⟨hj, ?_⟩
  by_cases hjk : j < (m_levels.takeWhile (passed status)).length
  · exact ⟨c + 1, by rw [hj, if_pos hjk], by omega, le_refl _⟩
  · exact ⟨c, by rw [hj, if_neg hjk], le_refl _, by omega⟩

/-- The per-event update at a concrete input: levels with filter indices
`0, 1, 2`, counters `[1, 1, 1]`, an event rejected at index 1. -/
theorem analyze_update_witness :
    ([1, 1, 1] : List Nat).length = ([⟨"A", "A", "fA", 0⟩, ⟨"B", "B", "fB", 1⟩, ⟨"C", "C", "fC", 2⟩] : List InputData).length ∧
    (∃ res, analyze ([⟨"A", "A", "fA", 0⟩, ⟨"B", "B", "fB", 1⟩, ⟨"C", "C", "fC", 2⟩] : List InputData) ([1, 1, 1] : List Nat) (⟨false, 1⟩ : PathStatus) = some res ∧
      res.length = ([1, 1, 1] : List Nat).length ∧
      (∀ (i : Nat) (level : InputData), ([⟨"A", "A", "fA", 0⟩, ⟨"B", "B", "fB", 1⟩, ⟨"C", "C", "fC", 2⟩] : List InputData)[i]? = some level →
        i < (([⟨"A", "A", "fA", 0⟩, ⟨"B", "B", "fB", 1⟩, ⟨"C", "C", "fC", 2⟩] : List InputData).takeWhile (passed (⟨false, 1⟩ : PathStatus))).length → passed (⟨false, 1⟩ : PathStatus) level = true) ∧
      (∀ level, ([⟨"A", "A", "fA", 0⟩, ⟨"B", "B", "fB", 1⟩, ⟨"C", "C", "fC", 2⟩] : List InputData)[(([⟨"A", "A", "fA", 0⟩, ⟨"B", "B", "fB", 1⟩, ⟨"C", "C", "fC", 2⟩] : List InputData).takeWhile (passed (⟨false, 1⟩ : PathStatus))).length]? = some level →
        passed (⟨false, 1⟩ : PathStatus) level = false) ∧
      (∀ j c, ([1, 1, 1] : List Nat)[j]? = some c →
        res[j]? = some (if j < (([⟨"A", "A", "fA", 0⟩, ⟨"B", "B", "fB", 1⟩, ⟨"C", "C", "fC", 2⟩] : List InputData).takeWhile (passed (⟨false, 1⟩ : PathStatus))).length
          then (c + 1) % 2 ^ 32 else c)) ∧
      (∀ j c, ([1, 1, 1] : List Nat)[j]? = some c → c < 2 ^ 32 - 1 →
        res[j]? = some (if j < (([⟨"A", "A", "fA", 0⟩, ⟨"B", "B", "fB", 1⟩, ⟨"C", "C", "fC", 2⟩] : List InputData).takeWhile (passed (⟨false, 1⟩ : PathStatus))).length then c + 1 else c) ∧
        ∃ c', res[j]? = some c' ∧ c ≤ c' ∧ c' ≤ c + 1)) :=
  ⟨rfl, analyze_update [⟨"A", "A", "fA", 0⟩, ⟨"B", "B", "fB", 1⟩, ⟨"C", "C", "fC", 2⟩]
    [1, 1, 1] ⟨false, 1⟩ rfl⟩

/-- C3, as stated, fails at a full counter.  The counters `[4294967295]` are
reached from `beginJob` by `2 ^ 32 - 1` accepted events; one more accepted
event passes the level, yet its counter becomes 0: it is not incremented by 1
and it decreases. -/
theorem analyze_wraps_counter :
    analyze_all [⟨"A", "A", "fA", 0⟩] (beginJob [⟨"A", "A", "fA", 0⟩] [])
        (List.replicate 4294967295 ⟨true, 0⟩) = some [4294967295] ∧
    passed ⟨true, 0⟩ ⟨"A", "A", "fA", 0⟩ = true ∧
    analyze [⟨"A", "A", "fA", 0⟩] [4294967295] ⟨true, 0⟩ = some [0] ∧
    (0 : Nat) ≠ 4294967295 + 1 ∧ (0 : Nat) < 4294967295 := by
  refine ⟨?_, rfl, by decide, by decide, by decide⟩
  exact analyze_all_accepted [⟨"A", "A", "fA", 0⟩] 0 4294967295 0

/-! ### The ordering of the counters -/

/-- One event keeps the counters ordered and raises their common bound by one,
as long as the bound stays below `2 ^ 32`. -/
theorem analyze_ordered (m_levels : List InputData) (m_events : List Nat) (status : PathStatus)
    (n : Nat) (hn : n + 1 < 2 ^ 32) (hlen : m_events.length = m_levels.length)
    (hb : ∀ (i : Nat) a, m_events[i]? = some a → a ≤ n)
    (ho : ∀ i a b, m_events[i]? = some a → m_events[i + 1]? = some b → b ≤ a) :
    ∃ res, analyze m_levels m_events status = some res ∧ res.length = m_levels.length ∧
      (∀ (i : Nat) a, res[i]? = some a → a ≤ n + 1) ∧
      (∀ i a b, res[i]? = some a → res[i + 1]? = some b → b ≤ a) := by
  obtain ⟨res, hres, hl, hget⟩ := analyze_spec m_levels m_events status hlen
  have hval : ∀ i a, res[i]? = some a → ∃ c, m_events[i]? = some c ∧ c ≤ n ∧
      a = if i < (m_levels.takeWhile (passed status)).length then c + 1 else c := by
    intro i a ha
    have hi : i < m_events.length := by
      obtain ⟨h, _⟩ := List.getElem?_eq_some.1 ha
      omega
    have hc := List.getElem?_eq_getElem hi
    have hcn := hb i _ hc
    have := hget i _ hc
    rw [ha, Nat.mod_eq_of_lt (by omega)] at this
    exact ⟨_, hc, hcn, Option.some.inj this⟩
  refine ⟨res, hres, by omega, ?_, ?_⟩
  · intro i a ha
    obtain ⟨c, _, hcn, rfl⟩ := hval i a ha
    split_ifs <;> omega
  · intro i a b ha hb'
    obtain ⟨c, hc, _, rfl⟩ := hval i a ha
    obtain ⟨d, hd, _, rfl⟩ := hval (i + 1) b hb'
    have := ho i c d hc hd
    split_ifs <;> omega

/-- Any run of events keeps the counters ordered while the number of events
processed stays below `2 ^ 32`. -/
theorem analyze_all_ordered (m_levels : List InputData) (events : List PathStatus)
    (m_events : List Nat) (n : Nat) (hn : n + events.length < 2 ^ 32)
    (hlen : m_events.length = m_levels.length)
    (hb : ∀ (i : Nat) a, m_events[i]? = some a → a ≤ n)
    (ho : ∀ i a b, m_events[i]? = some a → m_events[i + 1]? = some b → b ≤ a) :
    ∃ res, analyze_all m_levels m_events events = some res ∧ res.length = m_levels.length ∧
      (∀ (i : Nat) a, res[i]? = some a → a ≤ n + events.length) ∧
      (∀ i a b, res[i]? = some a → res[i + 1]? = some b → b ≤ a) := by
  induction events generalizing m_events n with
  | nil => exact ⟨m_events, rfl, hlen, by simpa using hb, ho⟩
  | cons status rest ih =>
    simp only [List.length_cons] at hn
    obtain ⟨ev, hev, hl1, hb1, ho1⟩ :=
      analyze_ordered m_levels m_events status n (by omega) hlen hb ho
    obtain ⟨res, hres, hl2, hb2, ho2⟩ := ih ev (n + 1) (by omega) hl1 hb1 ho1
    refine ⟨res, ?_, hl2, ?_, ho2⟩
    · simp only [analyze_all, hev]
      exact hres
    · intro i a ha
      have := hb2 i a ha
      simp only [List.length_cons]
      omega

/-- C4, as the code behaves.  Starting from the all-zero counters of `beginJob`,
after any sequence of fewer than `2 ^ 32` events processed by `analyze`,
`passCount[i] ≥ passCount[i+1]` holds for every pair of consecutive levels,
whatever the filter indices and the outcomes of the events. -/
theorem counters_ordered (m_levels : List InputData) (events : List PathStatus)
    (hn : events.length < 2 ^ 32) :
    ∃ res, analyze_all m_levels (beginJob m_levels []) events = some res ∧
      res.length = m_levels.length ∧
      ∀ i a b, res[i]? = some a → res[i + 1]? = some b → a ≥ b := by
  obtain ⟨res, hres, hl, _, ho⟩ :=
    analyze_all_ordered m_levels events (beginJob m_levels []) 0 (by omega)
      (by simp [beginJob_nil])
      (by
        intro i a ha
        rw [beginJob_nil, List.getElem?_replicate] at ha
        split_ifs at ha
        · cases ha; exact le_refl _)
      (by
        intro i a b ha hb
        rw [beginJob_nil, List.getElem?_replicate] at ha hb
        split_ifs at ha hb
        · cases ha; cases hb; exact le_refl _)
  exact ⟨res, hres, hl, ho⟩

/-- The ordering of the counters after two concrete events on three levels. -/
theorem counters_ordered_witness :
    ([⟨true, 0⟩, ⟨false, 1⟩] : List PathStatus).length < 2 ^ 32 ∧
    (∃ res, analyze_all ([⟨"A", "A", "fA", 0⟩, ⟨"B", "B", "fB", 1⟩, ⟨"C", "C", "fC", 2⟩] : List InputData) (beginJob ([⟨"A", "A", "fA", 0⟩, ⟨"B", "B", "fB", 1⟩, ⟨"C", "C", "fC", 2⟩] : List InputData) []) ([⟨true, 0⟩, ⟨false, 1⟩] : List PathStatus) = some res ∧
      res.length = ([⟨"A", "A", "fA", 0⟩, ⟨"B", "B", "fB", 1⟩, ⟨"C", "C", "fC", 2⟩] : List InputData).length ∧
      ∀ i a b, res[i]? = some a → res[i + 1]? = some b → a ≥ b) :=
  ⟨by decide, counters_ordered [⟨"A", "A", "fA", 0⟩, ⟨"B", "B", "fB", 1⟩, ⟨"C", "C", "fC", 2⟩]
    [⟨true, 0⟩, ⟨false, 1⟩] (by decide)⟩

/-- C4, as stated, fails after `2 ^ 32` events.  On two levels with filter
indices 0 and 1, `2 ^ 32 - 1` accepted events followed by one event rejected at
index 1 leave the counters `[0, 4294967295]`: the first counter has wrapped and
is smaller than the second. -/
theorem counters_unordered_after_wrap :
    analyze_all [⟨"A", "A", "fA", 0⟩, ⟨"B", "B", "fB", 1⟩]
        (beginJob [⟨"A", "A", "fA", 0⟩, ⟨"B", "B", "fB", 1⟩] [])
        (List.replicate 4294967295 ⟨true, 0⟩ ++ [⟨false, 1⟩]) = some [0, 4294967295] ∧
    ¬ ((0 : Nat) ≥ 4294967295) := by
  refine ⟨?_, by decide⟩
  rw [analyze_all_append]
  have h : analyze_all [⟨"A", "A", "fA", 0⟩, ⟨"B", "B", "fB", 1⟩]
      (beginJob [⟨"A", "A", "fA", 0⟩, ⟨"B", "B", "fB", 1⟩] [])
      (List.replicate 4294967295 ⟨true, 0⟩) = some [4294967295, 4294967295] :=
    analyze_all_accepted [⟨"A", "A", "fA", 0⟩, ⟨"B", "B", "fB", 1⟩] 0 4294967295 0
  rw [h]
  decide

/-! ### The efficiency lines of `endJob` -/

theorem mem_lines_iff {β : Type} (f : Nat → β) (n i : Nat) (o : β) :
    (i, o) ∈ (List.range' 1 (n - 1)).map (fun j => (j, f j)) ↔ (1 ≤ i ∧ i < n) ∧ o = f i := by
  simp only [List.mem_map, List.mem_range'_1, Prod.mk.injEq]
  constructor
  · rintro ⟨j, ⟨h1, h2⟩, rfl, rfl⟩
    exact ⟨⟨h1, by omega⟩, rfl⟩
  · rintro ⟨⟨h1, h2⟩, rfl⟩
    exact ⟨i, ⟨h1, by omega⟩, rfl, rfl⟩

theorem map_fst_lines {β : Type} (f : Nat → β) (l : List Nat) :
    (l.map (fun j => (j, f j))).map Prod.fst = l := by
  induction l with
  | nil => rfl
  | cons a rest ih => simp only [List.map_cons, ih]

/-- C5.  For every final counter array (as many counters as levels), `endJob`
prints one step-efficiency line for each level `i = 1 .. size - 1` and none for
level 0; the line of level `i` is the ratio `passCount[i] / passCount[i-1]`
(as a percentage) when `passCount[i-1] > 0`, and it is `NaN` exactly when
`passCount[i-1] = 0`. -/
theorem step_efficiency (m_levels : List InputData) (m_events : List Nat)
    (hlen : m_events.length = m_levels.length) :
    (((endJob m_levels m_events).step.map Prod.fst = List.range' 1 (m_levels.length - 1)) ∧
    (∀ o, (0, o) ∉ (endJob m_levels m_events).step) ∧
    (∀ i prev cur, 1 ≤ i → m_events[i - 1]? = some prev → m_events[i]? = some cur →
      ∃ e, (∀ o, (i, o) ∈ (endJob m_levels m_events).step ↔ o = some e) ∧
        (0 < prev → e = Efficiency.percent cur prev ∧
          Efficiency.ratio e = some ((cur : ℚ) / (prev : ℚ))) ∧
        (e = Efficiency.NaN ↔ prev = 0))) := by
  refine ⟨map_fst_lines _ _, ?_, ?_⟩
  · intro o ho
    have := (mem_lines_iff (endJob_stepLine m_events) m_levels.length 0 o).1 ho
    omega
  · intro i prev cur hi hprev hcur
    have hin : i < m_levels.length := by
      obtain ⟨h, _⟩ := List.getElem?_eq_some.1 hcur
      omega
    by_cases hp : 0 < prev
    · refine ⟨Efficiency.percent cur prev, fun o => ?_, fun _ => ⟨rfl, rfl⟩, ?_⟩
      · show (i, o) ∈ (List.range' 1 (m_levels.length - 1)).map
            (fun j => (j, endJob_stepLine m_events j)) ↔ _
        rw [mem_lines_iff]
        simp [endJob_stepLine, hprev, hcur, hp, hi, hin]
      · constructor
        · intro h; cases h
        · intro h; omega
    · have h0 : prev = 0 := by omega
      refine ⟨Efficiency.NaN, fun o => ?_, fun h => absurd h hp, ?_⟩
      · show (i, o) ∈ (List.range' 1 (m_levels.length - 1)).map
            (fun j => (j, endJob_stepLine m_events j)) ↔ _
        rw [mem_lines_iff]
        simp [endJob_stepLine, hprev, h0, hi, hin]
      · exact ⟨fun _ => h0, fun _ => rfl⟩

/-- The step-efficiency lines for three levels with counters `[2, 1, 1]`. -/
theorem step_efficiency_witness :
    ([2, 1, 1] : List Nat).length = ([⟨"A", "A", "fA", 0⟩, ⟨"B", "B", "fB", 1⟩, ⟨"C", "C", "fC", 2⟩] : List InputData).length ∧
    (((endJob ([⟨"A", "A", "fA", 0⟩, ⟨"B", "B", "fB", 1⟩, ⟨"C", "C", "fC", 2⟩] : List InputData) ([2, 1, 1] : List Nat)).step.map Prod.fst = List.range' 1 (([⟨"A", "A", "fA", 0⟩, ⟨"B", "B", "fB", 1⟩, ⟨"C", "C", "fC", 2⟩] : List InputData).length - 1)) ∧
    (∀ o, (0, o) ∉ (endJob ([⟨"A", "A", "fA", 0⟩, ⟨"B", "B", "fB", 1⟩, ⟨"C", "C", "fC", 2⟩] : List InputData) ([2, 1, 1] : List Nat)).step) ∧
    (∀ i prev cur, 1 ≤ i → ([2, 1, 1] : List Nat)[i - 1]? = some prev → ([2, 1, 1] : List Nat)[i]? = some cur →
      ∃ e, (∀ o, (i, o) ∈ (endJob ([⟨"A", "A", "fA", 0⟩, ⟨"B", "B", "fB", 1⟩, ⟨"C", "C", "fC", 2⟩] : List InputData) ([2, 1, 1] : List Nat)).step ↔ o = some e) ∧
        (0 < prev → e = Efficiency.percent cur prev ∧
          Efficiency.ratio e = some ((cur : ℚ) / (prev : ℚ))) ∧
        (e = Efficiency.NaN ↔ prev = 0))) :=
  ⟨rfl, step_efficiency [⟨"A", "A", "fA", 0⟩, ⟨"B", "B", "fB", 1⟩, ⟨"C", "C", "fC", 2⟩]
    [2, 1, 1] rfl⟩

/-- C6.  For every final counter array (as many counters as levels), `endJob`
prints one cumulative-efficiency line for each level `i = 1 .. size - 1`; the
line of level `i` is the ratio `passCount[i] / passCount[0]` (as a percentage)
when `passCount[0] > 0`, and it is `NaN` exactly when `passCount[0] = 0`.  Only
`passCount[0]` and `passCount[i]` enter the line. -/
theorem cumulative_efficiency (m_levels : List InputData) (m_events : List Nat)
    (hlen : m_events.length = m_levels.length) :
    (((endJob m_levels m_events).cumulative.map Prod.fst = List.range' 1 (m_levels.length - 1)) ∧
    (∀ o, (0, o) ∉ (endJob m_levels m_events).cumulative) ∧
    (∀ i first cur, 1 ≤ i → m_events[0]? = some first → m_events[i]? = some cur →
      ∃ e, (∀ o, (i, o) ∈ (endJob m_levels m_events).cumulative ↔ o = some e) ∧
        (0 < first → e = Efficiency.percent cur first ∧
          Efficiency.ratio e = some ((cur : ℚ) / (first : ℚ))) ∧
        (e = Efficiency.NaN ↔ first = 0))) := by
  refine ⟨map_fst_lines _ _, ?_, ?_⟩
  · intro o ho
    have := (mem_lines_iff (endJob_cumulativeLine m_events) m_levels.length 0 o).1 ho
    omega
  · intro i first cur hi hfirst hcur
    have hin : i < m_levels.length := by
      obtain ⟨h, _⟩ := List.getElem?_eq_some.1 hcur
      omega
    by_cases hp : 0 < first
    · refine ⟨Efficiency.percent cur first, fun o => ?_, fun _ => ⟨rfl, rfl⟩, ?_⟩
      · show (i, o) ∈ (List.range' 1 (m_levels.length - 1)).map
            (fun j => (j, endJob_cumulativeLine m_events j)) ↔ _
        rw [mem_lines_iff]
        simp [endJob_cumulativeLine, hfirst, hcur, hp, hi, hin]
      · constructor
        · intro h; cases h
        · intro h; omega
    · have h0 : first = 0 := by omega
      refine ⟨Efficiency.NaN, fun o => ?_, fun h => absurd h hp, ?_⟩
      · show (i, o) ∈ (List.range' 1 (m_levels.length - 1)).map
            (fun j => (j, endJob_cumulativeLine m_events j)) ↔ _
        rw [mem_lines_iff]
        simp [endJob_cumulativeLine, hfirst, h0, hi, hin]
      · exact ⟨fun _ => h0, fun _ => rfl⟩

/-- The cumulative-efficiency lines for three levels with counters `[2, 1, 1]`. -/
theorem cumulative_efficiency_witness :
    ([2, 1, 1] : List Nat).length = ([⟨"A", "A", "fA", 0⟩, ⟨"B", "B", "fB", 1⟩, ⟨"C", "C", "fC", 2⟩] : List InputData).length ∧
    (((endJob ([⟨"A", "A", "fA", 0⟩, ⟨"B", "B", "fB", 1⟩, ⟨"C", "C", "fC", 2⟩] : List InputData) ([2, 1, 1] : List Nat)).cumulative.map Prod.fst = List.range' 1 (([⟨"A", "A", "fA", 0⟩, ⟨"B", "B", "fB", 1⟩, ⟨"C", "C", "fC", 2⟩] : List InputData).length - 1)) ∧
    (∀ o, (0, o) ∉ (endJob ([⟨"A", "A", "fA", 0⟩, ⟨"B", "B", "fB", 1⟩, ⟨"C", "C", "fC", 2⟩] : List InputData) ([2, 1, 1] : List Nat)).cumulative) ∧
    (∀ i first cur, 1 ≤ i → ([2, 1, 1] : List Nat)[0]? = some first → ([2, 1, 1] : List Nat)[i]? = some cur →
      ∃ e, (∀ o, (i, o) ∈ (endJob ([⟨"A", "A", "fA", 0⟩, ⟨"B", "B", "fB", 1⟩, ⟨"C", "C", "fC", 2⟩] : List InputData) ([2, 1, 1] : List Nat)).cumulative ↔ o = some e) ∧
        (0 < first → e = Efficiency.percent cur first ∧
          Efficiency.ratio e = some ((cur : ℚ) / (first : ℚ))) ∧
        (e = Efficiency.NaN ↔ first = 0))) :=
  ⟨rfl, cumulative_efficiency [⟨"A", "A", "fA", 0⟩, ⟨"B", "B", "fB", 1⟩, ⟨"C", "C", "fC", 2⟩]
    [2, 1, 1] rfl⟩

/-! ### Worked example of the counters -/

/-- C10, as the code behaves.  With levels `A`, `B`, `C` of filter indices
`0, 1, 2` and counters starting at zero, an accepted event (whatever its stop
index) followed by an event rejected at index 1 leaves `passCount = [2, 1, 1]`:
the accepted event has also counted for `C`.  The step efficiency at `B` is
`1/2` and the cumulative efficiency at `C` is `1/2`. -/
theorem worked_example (latest : Nat) :
    analyze_all [⟨"A", "A", "fA", 0⟩, ⟨"B", "B", "fB", 1⟩, ⟨"C", "C", "fC", 2⟩] (beginJob [⟨"A", "A", "fA", 0⟩, ⟨"B", "B", "fB", 1⟩, ⟨"C", "C", "fC", 2⟩] [])
        [⟨true, latest⟩, ⟨false, 1⟩] = some [2, 1, 1] ∧
    (endJob [⟨"A", "A", "fA", 0⟩, ⟨"B", "B", "fB", 1⟩, ⟨"C", "C", "fC", 2⟩] [2, 1, 1]).events = [(0, some 2), (1, some 1), (2, some 1)] ∧
    (endJob [⟨"A", "A", "fA", 0⟩, ⟨"B", "B", "fB", 1⟩, ⟨"C", "C", "fC", 2⟩] [2, 1, 1]).step =
      [(1, some (Efficiency.percent 1 2)), (2, some (Efficiency.percent 1 1))] ∧
    (endJob [⟨"A", "A", "fA", 0⟩, ⟨"B", "B", "fB", 1⟩, ⟨"C", "C", "fC", 2⟩] [2, 1, 1]).cumulative =
      [(1, some (Efficiency.percent 1 2)), (2, some (Efficiency.percent 1 2))] ∧
    Efficiency.ratio (Efficiency.percent 1 2) = some (1 / 2) := by
  refine ⟨rfl, by decide, by decide, by decide, ?_⟩
  simp [Efficiency.ratio]

/-- C10, as stated, fails: the two events do not leave `passCount = [2, 1, 0]`,
and the cumulative line printed for `C` is not `0 / 2`. -/
theorem worked_example_not_as_stated :
    analyze_all [⟨"A", "A", "fA", 0⟩, ⟨"B", "B", "fB", 1⟩, ⟨"C", "C", "fC", 2⟩] (beginJob [⟨"A", "A", "fA", 0⟩, ⟨"B", "B", "fB", 1⟩, ⟨"C", "C", "fC", 2⟩] [])
        [⟨true, 0⟩, ⟨false, 1⟩] ≠ some [2, 1, 0] ∧
    (∀ m_events, analyze_all [⟨"A", "A", "fA", 0⟩, ⟨"B", "B", "fB", 1⟩, ⟨"C", "C", "fC", 2⟩] (beginJob [⟨"A", "A", "fA", 0⟩, ⟨"B", "B", "fB", 1⟩, ⟨"C", "C", "fC", 2⟩] [])
        [⟨true, 0⟩, ⟨false, 1⟩] = some m_events →
      (2, some (Efficiency.percent 0 2)) ∉ (endJob [⟨"A", "A", "fA", 0⟩, ⟨"B", "B", "fB", 1⟩, ⟨"C", "C", "fC", 2⟩] m_events).cumulative) := by
  constructor
  · decide
  · intro m_events h
    have hrun : analyze_all [⟨"A", "A", "fA", 0⟩, ⟨"B", "B", "fB", 1⟩, ⟨"C", "C", "fC", 2⟩] (beginJob [⟨"A", "A", "fA", 0⟩, ⟨"B", "B", "fB", 1⟩, ⟨"C", "C", "fC", 2⟩] [])
        [⟨true, 0⟩, ⟨false, 1⟩] = some [2, 1, 1] := rfl
    rw [hrun] at h
    cases h
    decide

end HLTBtagLifetimeAnalyzer

namespace Phase2TrackerMonitorDigi

/-! ### The clusteriser on arbitrary streams -/

/-- One iteration from a state whose cluster vector is non-empty unless
`row_last = -1` and whose clusters have `width ≥ 1`, `charge = 255`: the
iteration has a defined outcome, keeps these facts, leaves a non-empty vector
and raises the total width by one. -/
theorem it_step_total (st : DigiLoop) (di : PixelDigi)
    (hne : st.row_last ≠ -1 → st.digiClusters ≠ [])
    (hw : ∀ c ∈ st.digiClusters, 1 ≤ c.width ∧ c.charge = 255) :
    ∃ st', fillITPixelDigiHistos_step true st di = some st' ∧ st'.digiClusters ≠ [] ∧
      (∀ c ∈ st'.digiClusters, 1 ≤ c.width ∧ c.charge = 255) ∧
      (st'.digiClusters.map Ph2DigiCluster.width).sum =
        (st.digiClusters.map Ph2DigiCluster.width).sum + 1 := by
  by_cases hc : st.row_last = -1 ∨ (di.row - st.row_last).natAbs ≠ 1 ∨ di.column ≠ st.col_last
  · refine ⟨_, it_step_start st di hc, by simp, ?_, by simp⟩
    intro c hcmem
    rcases List.mem_append.1 hcmem with hm | hm
    · exact hw c hm
    · have : c = { charge := 255, position := di.row + 1, width := 1, column := di.column } := by
        simpa using hm
      subst this
      exact ⟨le_refl _, rfl⟩
  · have hrl : st.row_last ≠ -1 := fun h => hc (Or.inl h)
    have hnil := hne hrl
    obtain ⟨front, back, hfb⟩ : ∃ front back, st.digiClusters = front ++ [back] :=
      ⟨st.digiClusters.dropLast, st.digiClusters.getLast hnil,
        (List.dropLast_append_getLast hnil).symm⟩
    have hback := hw back (by rw [hfb]; simp)
    have hw1 : back.width + 1 ≠ 0 := by omega
    refine ⟨_, it_step_merge st di front back hc hfb hw1, by simp, ?_, ?_⟩
    · intro c hcmem
      rcases List.mem_append.1 hcmem with hm | hm
      · exact hw c (by rw [hfb]; exact List.mem_append_left _ hm)
      · have : c = { charge := back.charge,
                     position := Int.tdiv (back.position + di.row + 1) (back.width + 1),
                     width := back.width + 1, column := back.column } := by
          simpa using hm
        subst this
        exact ⟨by show (1 : Int) ≤ back.width + 1; omega, hback.2⟩
    · rw [hfb]
      simp only [List.map_append, List.sum_append, List.map_cons, List.map_nil, List.sum_cons,
        List.sum_nil]
      omega

/-- The loop from such a state over any digi list: it has a defined outcome,
keeps the facts and raises the total width by the number of digis. -/
theorem it_loop_total (digis : List PixelDigi) (st : DigiLoop)
    (hne : st.row_last ≠ -1 → st.digiClusters ≠ [])
    (hw : ∀ c ∈ st.digiClusters, 1 ≤ c.width ∧ c.charge = 255) :
    ∃ st', fillITPixelDigiHistos_loop true st digis = some st' ∧
      (st'.row_last ≠ -1 → st'.digiClusters ≠ []) ∧
      (∀ c ∈ st'.digiClusters, 1 ≤ c.width ∧ c.charge = 255) ∧
      (st'.digiClusters.map Ph2DigiCluster.width).sum =
        (st.digiClusters.map Ph2DigiCluster.width).sum + digis.length := by
  induction digis generalizing st with
  | nil => exact ⟨st, rfl, hne, hw, by simp⟩
  | cons di rest ih =>
    obtain ⟨st1, hst1, hne1, hw1, hs1⟩ := it_step_total st di hne hw
    obtain ⟨st2, hst2, hne2, hw2, hs2⟩ := ih st1 (fun _ => hne1) hw1
    refine ⟨st2, ?_, hne2, hw2, ?_⟩
    · simp only [fillITPixelDigiHistos_loop, hst1]
      exact hst2
    · rw [hs2, hs1, List.length_cons]
      push_cast
      omega

/-- With the clusteriser switched off the loop leaves its locals untouched. -/
theorem it_loop_off (digis : List PixelDigi) (st : DigiLoop) :
    fillITPixelDigiHistos_loop false st digis = some st := by
  induction digis with
  | nil => rfl
  | cons di rest ih =>
    simp only [fillITPixelDigiHistos_loop, fillITPixelDigiHistos_step]
    exact ih

/-- From the declared locals the loop over any digi list has a defined outcome. -/
theorem it_loop_start_total (digis : List PixelDigi) :
    ∃ st, fillITPixelDigiHistos_loop true DigiLoop.start digis = some st ∧
      (st.row_last ≠ -1 → st.digiClusters ≠ []) ∧
      (∀ c ∈ st.digiClusters, 1 ≤ c.width ∧ c.charge = 255) ∧
      (st.digiClusters.map Ph2DigiCluster.width).sum = digis.length := by
  obtain ⟨st, h1, h2, h3, h4⟩ := it_loop_total digis DigiLoop.start
    (fun h => absurd rfl h) (by simp [DigiLoop.start])
  exact ⟨st, h1, h2, h3, by simpa [DigiLoop.start] using h4⟩

/-- The state in which the loop meets the digi `di` after the digis `pre`: the
iteration has a defined outcome, and if it takes the merge branch the last
cluster exists and the divisor `width + 1` is at least 2. -/
theorem it_merge_safe (pre : List PixelDigi) (di : PixelDigi) :
    ∃ st st', fillITPixelDigiHistos_loop true DigiLoop.start pre = some st ∧
      fillITPixelDigiHistos_step true st di = some st' ∧
      (¬ (st.row_last = -1 ∨ (di.row - st.row_last).natAbs ≠ 1 ∨ di.column ≠ st.col_last) →
        ∃ back, st.digiClusters.getLast? = some back ∧ 2 ≤ back.width + 1) := by
  obtain ⟨st, hst, hne, hw, _⟩ := it_loop_start_total pre
  obtain ⟨st', hst', _⟩ := it_step_total st di hne hw
  refine ⟨st, st', hst, hst', fun hc => ?_⟩
  have hnil := hne (fun h => hc (Or.inl h))
  refine ⟨st.digiClusters.getLast hnil, List.getLast?_eq_getLast _ hnil, ?_⟩
  have := (hw _ (List.getLast_mem hnil)).1
  omega

/-! ### Edge cases, totality, charge, width -/

/-- C11.  In both digi loops the empty hit stream yields the empty cluster
list, and a stream of one hit `(row, col)` (any row, in particular `row ≥ 0`)
yields exactly one cluster, with `width = 1`, `position = row + 1`,
`column = col` and `charge = 255`. -/
theorem edge_cases (row col adc : Int) (overThreshold : Bool) :
    fillITPixelDigiHistos true [] = some [] ∧
    fillOTDigiHistos true [] = some [] ∧
    fillITPixelDigiHistos true [⟨row, col, adc⟩] =
      some [{ charge := 255, position := row + 1, width := 1, column := col }] ∧
    fillOTDigiHistos true [⟨row, col, overThreshold⟩] =
      some [{ charge := 255, position := row + 1, width := 1, column := col }] := by
  refine ⟨rfl, rfl, ?_, ?_⟩
  · simp [fillITPixelDigiHistos, fillITPixelDigiHistos_loop, fillITPixelDigiHistos_step,
      DigiLoop.start]
  · simp [fillOTDigiHistos, fillOTDigiHistos_loop, fillOTDigiHistos_step, DigiLoop.start]

/-- C12.  For every finite hit sequence, negative rows and columns included,
both digi loops have a defined outcome (no `back()` on an empty vector, no
division by zero), whether the clusteriser is on or off; and whenever a hit of
the sequence takes the merge branch, the cluster vector has a last element and
the divisor `width + 1` is at least 2. -/
theorem clusterer_total (digis : List PixelDigi) (digis' : List Phase2TrackerDigi) :
    ((∀ f, ∃ clusters, fillITPixelDigiHistos f digis = some clusters) ∧
      (∀ pre di post, digis = pre ++ di :: post →
        ∃ st st', fillITPixelDigiHistos_loop true DigiLoop.start pre = some st ∧
          fillITPixelDigiHistos_step true st di = some st' ∧
          (¬ (st.row_last = -1 ∨ (di.row - st.row_last).natAbs ≠ 1 ∨
              di.column ≠ st.col_last) →
            ∃ back, st.digiClusters.getLast? = some back ∧ 2 ≤ back.width + 1))) ∧
    ((∀ f, ∃ clusters, fillOTDigiHistos f digis' = some clusters) ∧
      (∀ pre di post, digis' = pre ++ di :: post →
        ∃ st st', fillOTDigiHistos_loop true DigiLoop.start pre = some st ∧
          fillOTDigiHistos_step true st di = some st' ∧
          (¬ (st.row_last = -1 ∨ (di.row - st.row_last).natAbs ≠ 1 ∨
              di.column ≠ st.col_last) →
            ∃ back, st.digiClusters.getLast? = some back ∧ 2 ≤ back.width + 1))) := by
  have hit : ∀ ds : List PixelDigi, ∀ f, ∃ clusters, fillITPixelDigiHistos f ds = some clusters := by
    intro ds f
    cases f with
    | false => exact ⟨DigiLoop.start.digiClusters, by simp [fillITPixelDigiHistos, it_loop_off]⟩
    | true =>
      obtain ⟨st, hst, _⟩ := it_loop_start_total ds
      exact ⟨st.digiClusters, by simp [fillITPixelDigiHistos, hst]⟩
  refine ⟨⟨hit digis, fun pre di post _ => it_merge_safe pre di⟩, ⟨?_, ?_⟩⟩
  · intro f
    rw [ot_eq_it]
    exact hit _ f
  · intro pre di post _
    obtain ⟨st, st', h1, h2, h3⟩ := it_merge_safe (pre.map asPixelDigi) (asPixelDigi di)
    exact ⟨st, st', by rw [ot_loop_eq_it_loop]; exact h1, by rw [ot_step_eq_it_step]; exact h2, h3⟩

/-- The pixel loop reads only the row and the column of each digi. -/
theorem it_loop_ignores_adc (f : Bool) (st : DigiLoop) (ds : List PixelDigi) :
    fillITPixelDigiHistos_loop f st ds =
      fillITPixelDigiHistos_loop f st
        ((ds.map (fun d => (d.row, d.column))).map (fun rc => ⟨rc.1, rc.2, 0⟩)) := by
  induction ds generalizing st with
  | nil => rfl
  | cons d rest ih =>
    simp only [List.map_cons, fillITPixelDigiHistos_loop]
    have hstep : fillITPixelDigiHistos_step f st ⟨d.row, d.column, 0⟩ =
        fillITPixelDigiHistos_step f st d := rfl
    rw [hstep]
    cases fillITPixelDigiHistos_step f st d with
    | none => rfl
    | some st' => exact ih st'

/-- C13.  For every hit stream, every cluster built by either digi loop has
`charge = 255`; and in the pixel loop two streams that agree on the row and the
column of every hit, whatever their `adc` values, give the same cluster
list. -/
theorem charge_constant (digis other : List PixelDigi) (digis' : List Phase2TrackerDigi)
    (h : other.map (fun d => (d.row, d.column)) = digis.map (fun d => (d.row, d.column))) :
    (∃ clusters, fillITPixelDigiHistos true digis = some clusters ∧
      ∀ c ∈ clusters, c.charge = 255) ∧
    (∃ clusters, fillOTDigiHistos true digis' = some clusters ∧
      ∀ c ∈ clusters, c.charge = 255) ∧
    (∀ f, fillITPixelDigiHistos f other = fillITPixelDigiHistos f digis) := by
  refine ⟨?_, ?_, ?_⟩
  · obtain ⟨st, hst, _, hw, _⟩ := it_loop_start_total digis
    exact ⟨st.digiClusters, by simp [fillITPixelDigiHistos, hst], fun c hc => (hw c hc).2⟩
  · obtain ⟨st, hst, _, hw, _⟩ := it_loop_start_total (digis'.map asPixelDigi)
    exact ⟨st.digiClusters, by simp [ot_eq_it, fillITPixelDigiHistos, hst],
      fun c hc => (hw c hc).2⟩
  · intro f
    unfold fillITPixelDigiHistos
    rw [it_loop_ignores_adc f _ other, it_loop_ignores_adc f _ digis, h]

/-- The charge property on concrete streams: the same three pixel hits with
different `adc` values. -/
theorem charge_constant_witness :
    (([⟨5, 0, 17⟩, ⟨6, 0, 200⟩, ⟨8, 1, 3⟩] : List PixelDigi).map (fun d => (d.row, d.column)) =
      ([⟨5, 0, 1⟩, ⟨6, 0, 2⟩, ⟨8, 1, 90⟩] : List PixelDigi).map (fun d => (d.row, d.column))) ∧
    (∃ clusters, fillITPixelDigiHistos true [⟨5, 0, 1⟩, ⟨6, 0, 2⟩, ⟨8, 1, 90⟩] = some clusters ∧
      ∀ c ∈ clusters, c.charge = 255) ∧
    (∃ clusters, fillOTDigiHistos true [⟨5, 0, true⟩, ⟨6, 0, false⟩] = some clusters ∧
      ∀ c ∈ clusters, c.charge = 255) ∧
    (∀ f, fillITPixelDigiHistos f [⟨5, 0, 17⟩, ⟨6, 0, 200⟩, ⟨8, 1, 3⟩] =
      fillITPixelDigiHistos f [⟨5, 0, 1⟩, ⟨6, 0, 2⟩, ⟨8, 1, 90⟩]) :=
  ⟨rfl, charge_constant [⟨5, 0, 1⟩, ⟨6, 0, 2⟩, ⟨8, 1, 90⟩] [⟨5, 0, 17⟩, ⟨6, 0, 200⟩, ⟨8, 1, 3⟩]
    [⟨5, 0, true⟩, ⟨6, 0, false⟩] rfl⟩

/-- C14 at a failing input.  On the hits `(10,0), (11,0), (12,0)` both loops
build one cluster of width 3 whose position is 8, below `row + 1` of every
merged hit (11, 12, 13): the second merge computes `(11 + 13) / 3`, adding the
new row to the previous position without weighting it by the previous width. -/
theorem position_below_rows (a b c : Int) (t u v : Bool) :
    fillITPixelDigiHistos true [⟨10, 0, a⟩, ⟨11, 0, b⟩, ⟨12, 0, c⟩] =
      some [{ charge := 255, position := 8, width := 3, column := 0 }] ∧
    fillOTDigiHistos true [⟨10, 0, t⟩, ⟨11, 0, u⟩, ⟨12, 0, v⟩] =
      some [{ charge := 255, position := 8, width := 3, column := 0 }] ∧
    (8 : Int) < 10 + 1 :=
  ⟨rfl, rfl, by decide⟩

/-- C15.  For every hit stream, in both digi loops every cluster has
`width ≥ 1` and the widths of the clusters built for the module add up to the
number of hits of the stream. -/
theorem width_counts_hits (digis : List PixelDigi) (digis' : List Phase2TrackerDigi) :
    (∃ clusters, fillITPixelDigiHistos true digis = some clusters ∧
      (∀ c ∈ clusters, 1 ≤ c.width) ∧
      (clusters.map Ph2DigiCluster.width).sum = digis.length) ∧
    (∃ clusters, fillOTDigiHistos true digis' = some clusters ∧
      (∀ c ∈ clusters, 1 ≤ c.width) ∧
      (clusters.map Ph2DigiCluster.width).sum = digis'.length) := by
  constructor
  · obtain ⟨st, hst, _, hw, hs⟩ := it_loop_start_total digis
    exact ⟨st.digiClusters, by simp [fillITPixelDigiHistos, hst], fun c hc => (hw c hc).1, hs⟩
  · obtain ⟨st, hst, _, hw, hs⟩ := it_loop_start_total (digis'.map asPixelDigi)
    exact ⟨st.digiClusters, by simp [ot_eq_it, fillITPixelDigiHistos, hst],
      fun c hc => (hw c hc).1, by simpa using hs⟩

end Phase2TrackerMonitorDigi

namespace Phase2TrackerMonitorDigi

/-! ### Reporting of the clusters -/

theorem loop_counts (p : Bool) (mes : DigiMEs) (cl : List Ph2DigiCluster) :
    Fill.counts (fillDigiClusters_loop p mes cl) = [] := by
  induction cl with
  | nil => rfl
  | cons c rest ih =>
    unfold Fill.counts at ih ⊢
    simp only [fillDigiClusters_loop, List.filterMap_append, ih, List.append_nil]
    simp only [fillDigiClusters_cluster, List.filterMap_append]
    split_ifs <;> simp

theorem loop_widths (p : Bool) (mes : DigiMEs) (cl : List Ph2DigiCluster) :
    Fill.widths (fillDigiClusters_loop p mes cl) =
      if mes.ClusterWidth then cl.map Ph2DigiCluster.width else [] := by
  induction cl with
  | nil => simp [fillDigiClusters_loop, Fill.widths]
  | cons c rest ih =>
    unfold Fill.widths at ih ⊢
    simp only [fillDigiClusters_loop, List.filterMap_append, ih]
    simp only [fillDigiClusters_cluster, List.filterMap_append]
    split_ifs <;> simp

theorem loop_positionsP (p : Bool) (mes : DigiMEs) (cl : List Ph2DigiCluster) :
    Fill.positionsP (fillDigiClusters_loop p mes cl) =
      if mes.ClusterPositionP then cl.map (fun c => (c.position, c.column + 1)) else [] := by
  induction cl with
  | nil => simp [fillDigiClusters_loop, Fill.positionsP]
  | cons c rest ih =>
    unfold Fill.positionsP at ih ⊢
    simp only [fillDigiClusters_loop, List.filterMap_append, ih]
    simp only [fillDigiClusters_cluster, List.filterMap_append]
    split_ifs <;> simp

theorem loop_positionsS (p : Bool) (mes : DigiMEs) (cl : List Ph2DigiCluster) :
    Fill.positionsS (fillDigiClusters_loop p mes cl) =
      if !p && mes.ClusterPositionS then
        (cl.filter (fun c => decide (c.column ≤ 2))).map (fun c => (c.position, c.column + 1))
      else [] := by
  induction cl with
  | nil => simp [fillDigiClusters_loop, Fill.positionsS]
  | cons c rest ih =>
    unfold Fill.positionsS at ih ⊢
    simp only [fillDigiClusters_loop, List.filterMap_append, ih]
    simp only [fillDigiClusters_cluster, List.filterMap_append]
    by_cases hcol : c.column ≤ 2
    · rw [List.filter_cons_of_pos (by simpa using hcol)]
      split_ifs <;> simp_all
    · rw [List.filter_cons_of_neg (by simpa using hcol)]
      split_ifs <;> simp_all <;> omega

theorem fills_head (p : Bool) (mes : DigiMEs) (cl : List Ph2DigiCluster) :
    (fillDigiClusters p mes cl).1 =
      (if mes.NumberOfClustersPerDet then [Fill.NumberOfClustersPerDet (cl.length : Int)]
        else []) ++ fillDigiClusters_loop p mes cl := rfl

/-- C20.  For every cluster list handed to `fillDigiClusters` with the
histograms `NumberOfClustersPerDet`, `ClusterWidth` and `ClusterPositionP`
booked: exactly one cluster count is filled and it is the length of the list
(0 for the empty list); one width is filled per cluster, in list order, equal
to the width of that cluster; and every position filled, into
`ClusterPositionP` or `ClusterPositionS`, is the pair `(position, column + 1)`
of a cluster of the list (into `ClusterPositionP` one per cluster, in list
order). -/
theorem cluster_reporting (pixelFlag_ : Bool) (mes : DigiMEs)
    (digi_clusters : List Ph2DigiCluster)
    (hN : mes.NumberOfClustersPerDet = true) (hW : mes.ClusterWidth = true)
    (hP : mes.ClusterPositionP = true) :
    Fill.counts (fillDigiClusters pixelFlag_ mes digi_clusters).1 = [(digi_clusters.length : Int)] ∧
    Fill.widths (fillDigiClusters pixelFlag_ mes digi_clusters).1 =
      digi_clusters.map Ph2DigiCluster.width ∧
    Fill.positionsP (fillDigiClusters pixelFlag_ mes digi_clusters).1 =
      digi_clusters.map (fun c => (c.position, c.column + 1)) ∧
    (∀ xy ∈ Fill.positionsS (fillDigiClusters pixelFlag_ mes digi_clusters).1,
      ∃ c ∈ digi_clusters, xy = (c.position, c.column + 1)) := by
  refine ⟨?_, ?_, ?_, ?_⟩
  · have h := loop_counts pixelFlag_ mes digi_clusters
    unfold Fill.counts at h ⊢
    rw [fills_head, List.filterMap_append, h, hN]
    simp
  · have h := loop_widths pixelFlag_ mes digi_clusters
    unfold Fill.widths at h ⊢
    rw [fills_head, List.filterMap_append, h, hW, hN]
    simp
  · have h := loop_positionsP pixelFlag_ mes digi_clusters
    unfold Fill.positionsP at h ⊢
    rw [fills_head, List.filterMap_append, h, hP, hN]
    simp
  · intro xy hxy
    have h := loop_positionsS pixelFlag_ mes digi_clusters
    unfold Fill.positionsS at h hxy
    rw [fills_head, List.filterMap_append, h] at hxy
    have hhead : List.filterMap (fun x => match x with
        | Fill.ClusterPositionS a b => some (a, b)
        | _ => none)
        (if mes.NumberOfClustersPerDet then
          [Fill.NumberOfClustersPerDet (digi_clusters.length : Int)] else []) = [] := by
      simp [hN]
    rw [hhead, List.nil_append] at hxy
    split_ifs at hxy
    · obtain ⟨c, hc, rfl⟩ := List.mem_map.1 hxy
      exact ⟨c, (List.mem_filter.1 hc).1, rfl⟩
    · simp at hxy

/-- The reporting of two concrete clusters with every histogram booked, for a
strip-type module. -/
theorem cluster_reporting_witness :
    Fill.counts (fillDigiClusters false (⟨true, true, true, true, true⟩ : DigiMEs) ([⟨255, 6, 2, 0⟩, ⟨255, 9, 1, 3⟩] : List Ph2DigiCluster)).1 = [(([⟨255, 6, 2, 0⟩, ⟨255, 9, 1, 3⟩] : List Ph2DigiCluster).length : Int)] ∧
    Fill.widths (fillDigiClusters false (⟨true, true, true, true, true⟩ : DigiMEs) ([⟨255, 6, 2, 0⟩, ⟨255, 9, 1, 3⟩] : List Ph2DigiCluster)).1 =
      ([⟨255, 6, 2, 0⟩, ⟨255, 9, 1, 3⟩] : List Ph2DigiCluster).map Ph2DigiCluster.width ∧
    Fill.positionsP (fillDigiClusters false (⟨true, true, true, true, true⟩ : DigiMEs) ([⟨255, 6, 2, 0⟩, ⟨255, 9, 1, 3⟩] : List Ph2DigiCluster)).1 =
      ([⟨255, 6, 2, 0⟩, ⟨255, 9, 1, 3⟩] : List Ph2DigiCluster).map (fun c => (c.position, c.column + 1)) ∧
    (∀ xy ∈ Fill.positionsS (fillDigiClusters false (⟨true, true, true, true, true⟩ : DigiMEs) ([⟨255, 6, 2, 0⟩, ⟨255, 9, 1, 3⟩] : List Ph2DigiCluster)).1,
      ∃ c ∈ ([⟨255, 6, 2, 0⟩, ⟨255, 9, 1, 3⟩] : List Ph2DigiCluster), xy = (c.position, c.column + 1)) :=
  cluster_reporting false ⟨true, true, true, true, true⟩ [⟨255, 6, 2, 0⟩, ⟨255, 9, 1, 3⟩]
    rfl rfl rfl

end Phase2TrackerMonitorDigi

namespace HLTBtagLifetimeAnalyzer

/-! ### The early returns of `analyze` -/

/-- `cachePathDescription` never touches the counters. -/
theorem cachePathDescription_m_events (a : Analyzer) (x y : Option (List String)) :
    (cachePathDescription a x y).2.m_events = a.m_events := by
  unfold cachePathDescription
  split_ifs
  · rfl
  · cases x with
    | none => rfl
    | some paths =>
      cases y with
      | none => rfl
      | some modules =>
        simp only
        split_ifs <;> rfl

/-- On an analyzer that has no cached description, `cachePathDescription` fails
when either parameter set is not in the registry or the configured path is not
among the trigger paths. -/
theorem cachePathDescription_fails (a : Analyzer) (x y : Option (List String))
    (hc : a.m_pathCached = false)
    (h : x = none ∨ y = none ∨ ∃ paths, x = some paths ∧ a.m_triggerPath ∉ paths) :
    (cachePathDescription a x y).1 = false := by
  unfold cachePathDescription
  rw [if_neg (by simp [hc])]
  cases x with
  | none => rfl
  | some paths =>
    cases y with
    | none => rfl
    | some modules =>
      simp only
      rcases h with h | h | ⟨ps, hps, hnot⟩
      · cases h
      · cases h
      · cases hps
        rw [if_pos (List.indexOf_eq_length.2 hnot)]

/-- C18.  Whenever the path description cannot be obtained (no cached
description and the trigger parameter set or the process parameter set is not
in the registry, or the trigger path is not among the trigger paths; more
generally whenever `cachePathDescription` returns false), or the reported stop
index is at or past the number of modules of the path, `analyze` returns with
every pass counter equal to its value before the call. -/
theorem analyze_early_return (a : Analyzer) (ev : Event)
    (h : (a.m_pathCached = false ∧
        (ev.trigger_paths = none ∨ ev.pathModules = none ∨
          ∃ paths, ev.trigger_paths = some paths ∧ a.m_triggerPath ∉ paths)) ∨
      (cachePathDescription a ev.trigger_paths ev.pathModules).1 = false ∨
      (ev.status (cachePathDescription a ev.trigger_paths ev.pathModules).2.m_pathIndex).latest ≥
        (cachePathDescription a ev.trigger_paths ev.pathModules).2.m_pathModules.length) :
    ∃ a', analyzeEvent a ev = some a' ∧ a'.m_events = a.m_events := by
  have hme := cachePathDescription_m_events a ev.trigger_paths ev.pathModules
  unfold analyzeEvent
  by_cases h1 : ev.triggerResultsValid = true
  swap
  · exact ⟨a, by simp [h1], rfl⟩
  by_cases h2 : ev.triggerEventValid = true
  swap
  · exact ⟨a, by simp [h1, h2], rfl⟩
  have hfail : (cachePathDescription a ev.trigger_paths ev.pathModules).1 = false ∨
      (ev.status (cachePathDescription a ev.trigger_paths ev.pathModules).2.m_pathIndex).latest ≥
        (cachePathDescription a ev.trigger_paths ev.pathModules).2.m_pathModules.length := by
    rcases h with ⟨hc, hreg⟩ | h | h
    · exact Or.inl (cachePathDescription_fails a _ _ hc hreg)
    · exact Or.inl h
    · exact Or.inr h
  by_cases h3 : (cachePathDescription a ev.trigger_paths ev.pathModules).1 = true
  swap
  · exact ⟨(cachePathDescription a ev.trigger_paths ev.pathModules).2, by simp [h1, h2, h3], hme⟩
  rcases hfail with hf | hf
  · rw [hf] at h3; cases h3
  · exact ⟨(cachePathDescription a ev.trigger_paths ev.pathModules).2,
      by simp [h1, h2, h3, hf], hme⟩

/-- An event whose configured path `HLT_b` is not among the trigger paths: the
counter stays at 3. -/
theorem analyze_early_return_witness :
    (((⟨"HLT_b", [⟨"L1", "L1", "modA", 0⟩], [3], [], 4294967295, false⟩ : Analyzer).m_pathCached = false ∧
        ((⟨true, true, some ["HLT_a"], some ["modA"], fun _ => ⟨true, 0⟩⟩ : Event).trigger_paths = none ∨ (⟨true, true, some ["HLT_a"], some ["modA"], fun _ => ⟨true, 0⟩⟩ : Event).pathModules = none ∨
          ∃ paths, (⟨true, true, some ["HLT_a"], some ["modA"], fun _ => ⟨true, 0⟩⟩ : Event).trigger_paths = some paths ∧ (⟨"HLT_b", [⟨"L1", "L1", "modA", 0⟩], [3], [], 4294967295, false⟩ : Analyzer).m_triggerPath ∉ paths)) ∨
      (cachePathDescription (⟨"HLT_b", [⟨"L1", "L1", "modA", 0⟩], [3], [], 4294967295, false⟩ : Analyzer) (⟨true, true, some ["HLT_a"], some ["modA"], fun _ => ⟨true, 0⟩⟩ : Event).trigger_paths (⟨true, true, some ["HLT_a"], some ["modA"], fun _ => ⟨true, 0⟩⟩ : Event).pathModules).1 = false ∨
      ((⟨true, true, some ["HLT_a"], some ["modA"], fun _ => ⟨true, 0⟩⟩ : Event).status (cachePathDescription (⟨"HLT_b", [⟨"L1", "L1", "modA", 0⟩], [3], [], 4294967295, false⟩ : Analyzer) (⟨true, true, some ["HLT_a"], some ["modA"], fun _ => ⟨true, 0⟩⟩ : Event).trigger_paths (⟨true, true, some ["HLT_a"], some ["modA"], fun _ => ⟨true, 0⟩⟩ : Event).pathModules).2.m_pathIndex).latest ≥
        (cachePathDescription (⟨"HLT_b", [⟨"L1", "L1", "modA", 0⟩], [3], [], 4294967295, false⟩ : Analyzer) (⟨true, true, some ["HLT_a"], some ["modA"], fun _ => ⟨true, 0⟩⟩ : Event).trigger_paths (⟨true, true, some ["HLT_a"], some ["modA"], fun _ => ⟨true, 0⟩⟩ : Event).pathModules).2.m_pathModules.length) ∧
    (∃ a', analyzeEvent (⟨"HLT_b", [⟨"L1", "L1", "modA", 0⟩], [3], [], 4294967295, false⟩ : Analyzer) (⟨true, true, some ["HLT_a"], some ["modA"], fun _ => ⟨true, 0⟩⟩ : Event) = some a' ∧ a'.m_events = (⟨"HLT_b", [⟨"L1", "L1", "modA", 0⟩], [3], [], 4294967295, false⟩ : Analyzer).m_events) :=
  ⟨Or.inl ⟨rfl, Or.inr (Or.inr ⟨["HLT_a"], rfl, by decide⟩)⟩,
    analyze_early_return
      ⟨"HLT_b", [⟨"L1", "L1", "modA", 0⟩], [3], [], 4294967295, false⟩
      ⟨true, true, some ["HLT_a"], some ["modA"], fun _ => ⟨true, 0⟩⟩
      (Or.inl ⟨rfl, Or.inr (Or.inr ⟨["HLT_a"], rfl, by decide⟩)⟩)⟩

/-! ### A level whose filter is not in the path -/

/-- C17, as the code behaves.  On an analyzer without cached description, with
valid handles, both parameter sets in the registry and the configured path
among the trigger paths: `cachePathDescription` succeeds even if the filter
label of a level is not among the modules of the path; such a level gets the
filter index 0, and, the stop index being below the number of modules,
`analyze` runs the level loop on the counters with these levels. -/
theorem unresolved_filter_index (a : Analyzer) (ev : Event) (paths modules : List String)
    (h1 : ev.triggerResultsValid = true) (h2 : ev.triggerEventValid = true)
    (hc : a.m_pathCached = false)
    (hp : ev.trigger_paths = some paths) (hm : ev.pathModules = some modules)
    (hpath : a.m_triggerPath ∈ paths)
    (hlat : (ev.status (paths.indexOf a.m_triggerPath)).latest < modules.length) :
    ∃ a1, cachePathDescription a ev.trigger_paths ev.pathModules = (true, a1) ∧
      a1.m_pathIndex = paths.indexOf a.m_triggerPath ∧
      a1.m_pathModules = modules ∧
      a1.m_events = a.m_events ∧
      a1.m_levels.length = a.m_levels.length ∧
      (∀ (i : Nat) (level : InputData), a.m_levels[i]? = some level → level.m_filter ∉ modules →
        a1.m_levels[i]? = some { level with m_filterIndex := 0 }) ∧
      analyzeEvent a ev =
        (analyze a1.m_levels a.m_events (ev.status a1.m_pathIndex)).map
          (fun m_events => { a1 with m_events := m_events }) := by
  have hidx : paths.indexOf a.m_triggerPath ≠ paths.length :=
    Nat.ne_of_lt (List.indexOf_lt_length.2 hpath)
  have hcache : cachePathDescription a ev.trigger_paths ev.pathModules =
      (true, { m_triggerPath := a.m_triggerPath,
               m_levels := a.m_levels.map (fun level =>
                 if modules.indexOf level.m_filter ≠ modules.length then
                   { level with m_filterIndex := modules.indexOf level.m_filter }
                 else { level with m_filterIndex := 0 }),
               m_events := a.m_events, m_pathModules := modules,
               m_pathIndex := paths.indexOf a.m_triggerPath, m_pathCached := true }) := by
    unfold cachePathDescription
    rw [if_neg (by simp [hc]), hp, hm]
    simp only
    rw [if_neg hidx]
  refine ⟨_, hcache, rfl, rfl, rfl, by simp, ?_, ?_⟩
  · intro i level hl hnot
    simp only [List.getElem?_map, hl, Option.map_some']
    rw [if_neg (by simpa using List.indexOf_eq_length.2 hnot)]
  · unfold analyzeEvent
    rw [hcache]
    simp only [h1, h2, Bool.not_true, Bool.false_eq_true, if_false]
    rw [if_neg (by simpa using hlat)]
    cases analyze (a.m_levels.map (fun level =>
        if modules.indexOf level.m_filter ≠ modules.length then
          { level with m_filterIndex := modules.indexOf level.m_filter }
        else { level with m_filterIndex := 0 })) a.m_events
        (ev.status (paths.indexOf a.m_triggerPath)) <;> rfl

/-- The unresolved level at a concrete input: path `HLT_b` with modules
`modA, modB`, one level whose filter `missing` is not among them. -/
theorem unresolved_filter_index_witness :
    ∃ a1, cachePathDescription (⟨"HLT_b", [⟨"L1", "L1", "missing", 7⟩], [0], [], 4294967295, false⟩ : Analyzer) (⟨true, true, some ["HLT_a", "HLT_b"], some ["modA", "modB"], fun _ => ⟨false, 1⟩⟩ : Event).trigger_paths (⟨true, true, some ["HLT_a", "HLT_b"], some ["modA", "modB"], fun _ => ⟨false, 1⟩⟩ : Event).pathModules = (true, a1) ∧
      a1.m_pathIndex = (["HLT_a", "HLT_b"] : List String).indexOf (⟨"HLT_b", [⟨"L1", "L1", "missing", 7⟩], [0], [], 4294967295, false⟩ : Analyzer).m_triggerPath ∧
      a1.m_pathModules = (["modA", "modB"] : List String) ∧
      a1.m_events = (⟨"HLT_b", [⟨"L1", "L1", "missing", 7⟩], [0], [], 4294967295, false⟩ : Analyzer).m_events ∧
      a1.m_levels.length = (⟨"HLT_b", [⟨"L1", "L1", "missing", 7⟩], [0], [], 4294967295, false⟩ : Analyzer).m_levels.length ∧
      (∀ (i : Nat) (level : InputData), (⟨"HLT_b", [⟨"L1", "L1", "missing", 7⟩], [0], [], 4294967295, false⟩ : Analyzer).m_levels[i]? = some level → level.m_filter ∉ (["modA", "modB"] : List String) →
        a1.m_levels[i]? = some { level with m_filterIndex := 0 }) ∧
      analyzeEvent (⟨"HLT_b", [⟨"L1", "L1", "missing", 7⟩], [0], [], 4294967295, false⟩ : Analyzer) (⟨true, true, some ["HLT_a", "HLT_b"], some ["modA", "modB"], fun _ => ⟨false, 1⟩⟩ : Event) =
        (analyze a1.m_levels (⟨"HLT_b", [⟨"L1", "L1", "missing", 7⟩], [0], [], 4294967295, false⟩ : Analyzer).m_events ((⟨true, true, some ["HLT_a", "HLT_b"], some ["modA", "modB"], fun _ => ⟨false, 1⟩⟩ : Event).status a1.m_pathIndex)).map
          (fun m_events => { a1 with m_events := m_events }) :=
  unresolved_filter_index
    ⟨"HLT_b", [⟨"L1", "L1", "missing", 7⟩], [0], [], 4294967295, false⟩
    ⟨true, true, some ["HLT_a", "HLT_b"], some ["modA", "modB"], fun _ => ⟨false, 1⟩⟩
    ["HLT_a", "HLT_b"] ["modA", "modB"] rfl rfl rfl rfl rfl (by decide) (by decide)

/-- C17, as stated, fails.  The filter `missing` of the only level is not among
the modules `modA, modB` of the path, yet `analyze` runs the level loop: the
level has received the filter index 0, the event stopped at index 1, and the
counter goes from 0 to 1. -/
theorem unresolved_filter_still_counts :
    "missing" ∉ ["modA", "modB"] ∧
    (analyzeEvent ⟨"HLT_b", [⟨"L1", "L1", "missing", 7⟩], [0], [], 4294967295, false⟩
        ⟨true, true, some ["HLT_a", "HLT_b"], some ["modA", "modB"], fun _ => ⟨false, 1⟩⟩).map
      (fun a => (a.m_events, a.m_levels.map InputData.m_filterIndex)) = some ([1], [0]) ∧
    ([1] : List Nat) ≠ [0] := by
  refine ⟨by decide, by decide, by decide⟩

/-! ### Accepted events -/

/-- C19, as the code behaves.  For an accepted event that reaches the level
loop (counters as many as levels), every level's counter `c` becomes
`(c + 1) mod 2 ^ 32`, that is `c + 1` for every counter below `2 ^ 32 - 1`; the
resulting counters are the same for every stop index and for every other list
of as many levels, in particular for every assignment of filter indices. -/
theorem accepted_event (m_levels other_levels : List InputData) (m_events : List Nat)
    (latest other_latest : Nat)
    (hlen : m_events.length = m_levels.length)
    (hother : other_levels.length = m_levels.length) :
    analyze m_levels m_events ⟨true, latest⟩ =
      some (m_events.map (fun c => (c + 1) % 2 ^ 32)) ∧
    analyze other_levels m_events ⟨true, other_latest⟩ =
      analyze m_levels m_events ⟨true, latest⟩ ∧
    ((∀ c ∈ m_events, c < 2 ^ 32 - 1) →
      analyze m_levels m_events ⟨true, latest⟩ = some (m_events.map (fun c => c + 1))) := by
  have h := analyze_accepted m_levels m_events latest hlen
  refine ⟨h, ?_, ?_⟩
  · rw [h, analyze_accepted other_levels m_events other_latest (by omega)]
  · intro hb
    rw [h]
    congr 1
    apply List.map_congr_left
    intro c hc
    exact Nat.mod_eq_of_lt (by have := hb c hc; omega)

/-- An accepted event on three levels with counters `[2, 1, 1]`, compared with
the same levels carrying other filter indices and another stop index. -/
theorem accepted_event_witness :
    analyze [⟨"A", "A", "fA", 0⟩, ⟨"B", "B", "fB", 1⟩, ⟨"C", "C", "fC", 2⟩] [2, 1, 1] ⟨true, 0⟩ =
      some (([2, 1, 1] : List Nat).map (fun c => (c + 1) % 2 ^ 32)) ∧
    analyze [⟨"A", "A", "fA", 9⟩, ⟨"B", "B", "fB", 4⟩, ⟨"C", "C", "fC", 4⟩] [2, 1, 1] ⟨true, 5⟩ =
      analyze [⟨"A", "A", "fA", 0⟩, ⟨"B", "B", "fB", 1⟩, ⟨"C", "C", "fC", 2⟩] [2, 1, 1]
        ⟨true, 0⟩ ∧
    ((∀ c ∈ ([2, 1, 1] : List Nat), c < 2 ^ 32 - 1) →
      analyze [⟨"A", "A", "fA", 0⟩, ⟨"B", "B", "fB", 1⟩, ⟨"C", "C", "fC", 2⟩] [2, 1, 1]
        ⟨true, 0⟩ = some (([2, 1, 1] : List Nat).map (fun c => c + 1))) :=
  accepted_event [⟨"A", "A", "fA", 0⟩, ⟨"B", "B", "fB", 1⟩, ⟨"C", "C", "fC", 2⟩]
    [⟨"A", "A", "fA", 9⟩, ⟨"B", "B", "fB", 4⟩, ⟨"C", "C", "fC", 4⟩] [2, 1, 1] 0 5 rfl rfl

/-- C19, as stated, fails at full counters.  The counters
`[4294967295, 4294967295]` are reached from `beginJob` by `2 ^ 32 - 1` accepted
events; the next accepted event leaves `[0, 0]`: no counter has been
incremented by 1. -/
theorem accepted_event_wraps :
    analyze_all [⟨"A", "A", "fA", 5⟩, ⟨"B", "B", "fB", 3⟩]
        (beginJob [⟨"A", "A", "fA", 5⟩, ⟨"B", "B", "fB", 3⟩] [])
        (List.replicate 4294967295 ⟨true, 9⟩) = some [4294967295, 4294967295] ∧
    analyze [⟨"A", "A", "fA", 5⟩, ⟨"B", "B", "fB", 3⟩] [4294967295, 4294967295] ⟨true, 9⟩ =
      some [0, 0] ∧
    (0 : Nat) ≠ 4294967295 + 1 := by
  refine ⟨?_, by decide, by decide⟩
  exact analyze_all_accepted [⟨"A", "A", "fA", 5⟩, ⟨"B", "B", "fB", 3⟩] 9 4294967295 0

/-! ### No event processed -/

/-- C16.  On the counters as `beginJob` leaves them when no event has been
processed, `endJob` prints the count 0 for every level and `NaN` for the step
efficiency and for the cumulative efficiency of every level `i ≥ 1`. -/
theorem zero_events (m_levels : List InputData) :
    (∀ c ∈ beginJob m_levels [], c = 0) ∧
    (endJob m_levels (beginJob m_levels [])).events =
      (List.range m_levels.length).map (fun i => (i, some 0)) ∧
    (endJob m_levels (beginJob m_levels [])).step =
      (List.range' 1 (m_levels.length - 1)).map (fun i => (i, some Efficiency.NaN)) ∧
    (endJob m_levels (beginJob m_levels [])).cumulative =
      (List.range' 1 (m_levels.length - 1)).map (fun i => (i, some Efficiency.NaN)) := by
  rw [beginJob_nil]
  refine ⟨fun c hc => (List.mem_replicate.1 hc).2, ?_, ?_, ?_⟩
  · apply List.map_congr_left
    intro i hi
    have hi' : i < m_levels.length := List.mem_range.1 hi
    simp [List.getElem?_replicate, hi']
  · apply List.map_congr_left
    intro i hi
    obtain ⟨h1, h2⟩ := List.mem_range'_1.1 hi
    have hi' : i - 1 < m_levels.length := by omega
    simp [endJob_stepLine, List.getElem?_replicate, hi']
  · apply List.map_congr_left
    intro i hi
    obtain ⟨h1, h2⟩ := List.mem_range'_1.1 hi
    have h0 : 0 < m_levels.length := by omega
    simp [endJob_cumulativeLine, List.getElem?_replicate, h0]

end HLTBtagLifetimeAnalyzer

namespace Phase2TrackerMonitorDigi

/-! ### The gates of the reporting -/

theorem loop_chargeWidths (p : Bool) (mes : DigiMEs) (cl : List Ph2DigiCluster) :
    Fill.chargeWidths (fillDigiClusters_loop p mes cl) =
      if p && mes.ChargeOfDigisVsWidth then cl.map (fun c => (c.charge, c.width)) else [] := by
  induction cl with
  | nil => simp [fillDigiClusters_loop, Fill.chargeWidths]
  | cons c rest ih =>
    unfold Fill.chargeWidths at ih ⊢
    simp only [fillDigiClusters_loop, List.filterMap_append, ih]
    simp only [fillDigiClusters_cluster, List.filterMap_append]
    split_ifs <;> simp_all

/-- C21.  In `fillDigiClusters` with every histogram booked: the pair
`(charge, width)` of a cluster is filled if and only if the pixel flag is set;
the pair `(position, column + 1)` of a cluster is filled into `ClusterPositionS`
if and only if the pixel flag is not set and the column of the cluster is at
most 2; and the cluster vector leaves the function as it entered it. -/
theorem reporting_gates (pixelFlag_ : Bool) (mes : DigiMEs)
    (digi_clusters : List Ph2DigiCluster)
    (hN : mes.NumberOfClustersPerDet = true) (hW : mes.ClusterWidth = true)
    (hC : mes.ChargeOfDigisVsWidth = true) (hP : mes.ClusterPositionP = true)
    (hS : mes.ClusterPositionS = true) :
    (fillDigiClusters pixelFlag_ mes digi_clusters).2 = digi_clusters ∧
    Fill.chargeWidths (fillDigiClusters pixelFlag_ mes digi_clusters).1 =
      (if pixelFlag_ then digi_clusters.map (fun c => (c.charge, c.width)) else []) ∧
    Fill.positionsS (fillDigiClusters pixelFlag_ mes digi_clusters).1 =
      (if !pixelFlag_ then
        (digi_clusters.filter (fun c => decide (c.column ≤ 2))).map
          (fun c => (c.position, c.column + 1))
      else []) ∧
    (∀ c, Fill.chargeWidths (fillDigiClusters_cluster pixelFlag_ mes c) =
      if pixelFlag_ = true then [(c.charge, c.width)] else []) ∧
    (∀ c, Fill.positionsS (fillDigiClusters_cluster pixelFlag_ mes c) =
      if pixelFlag_ = false ∧ c.column ≤ 2 then [(c.position, c.column + 1)] else []) := by
  refine ⟨rfl, ?_, ?_, ?_, ?_⟩
  · have h := loop_chargeWidths pixelFlag_ mes digi_clusters
    unfold Fill.chargeWidths at h ⊢
    rw [fills_head, List.filterMap_append, h, hN, hC]
    simp
  · have h := loop_positionsS pixelFlag_ mes digi_clusters
    unfold Fill.positionsS at h ⊢
    rw [fills_head, List.filterMap_append, h, hN, hS]
    simp
  · intro c
    unfold Fill.chargeWidths
    simp only [fillDigiClusters_cluster, List.filterMap_append, hW, hC, hP, hS]
    cases pixelFlag_ <;> by_cases hcol : c.column ≤ 2 <;> simp [hcol]
  · intro c
    unfold Fill.positionsS
    simp only [fillDigiClusters_cluster, List.filterMap_append, hW, hC, hP, hS]
    cases pixelFlag_ <;> by_cases hcol : c.column ≤ 2 <;> simp [hcol]

/-- The gates on two concrete clusters of a strip-type module, one in column 0
and one in column 3. -/
theorem reporting_gates_witness :
    (fillDigiClusters false (⟨true, true, true, true, true⟩ : DigiMEs) ([⟨255, 6, 2, 0⟩, ⟨255, 9, 1, 3⟩] : List Ph2DigiCluster)).2 = ([⟨255, 6, 2, 0⟩, ⟨255, 9, 1, 3⟩] : List Ph2DigiCluster) ∧
    Fill.chargeWidths (fillDigiClusters false (⟨true, true, true, true, true⟩ : DigiMEs) ([⟨255, 6, 2, 0⟩, ⟨255, 9, 1, 3⟩] : List Ph2DigiCluster)).1 =
      (if false then ([⟨255, 6, 2, 0⟩, ⟨255, 9, 1, 3⟩] : List Ph2DigiCluster).map (fun c => (c.charge, c.width)) else []) ∧
    Fill.positionsS (fillDigiClusters false (⟨true, true, true, true, true⟩ : DigiMEs) ([⟨255, 6, 2, 0⟩, ⟨255, 9, 1, 3⟩] : List Ph2DigiCluster)).1 =
      (if !false then
        (([⟨255, 6, 2, 0⟩, ⟨255, 9, 1, 3⟩] : List Ph2DigiCluster).filter (fun c => decide (c.column ≤ 2))).map
          (fun c => (c.position, c.column + 1))
      else []) ∧
    (∀ c, Fill.chargeWidths (fillDigiClusters_cluster false (⟨true, true, true, true, true⟩ : DigiMEs) c) =
      if false = true then [(c.charge, c.width)] else []) ∧
    (∀ c, Fill.positionsS (fillDigiClusters_cluster false (⟨true, true, true, true, true⟩ : DigiMEs) c) =
      if false = false ∧ c.column ≤ 2 then [(c.position, c.column + 1)] else []) :=
  reporting_gates false ⟨true, true, true, true, true⟩ [⟨255, 6, 2, 0⟩, ⟨255, 9, 1, 3⟩]
    rfl rfl rfl rfl rfl

/-! ### The two copies of the clusteriser -/

/-- C27.  For every sequence of `(row, column)` pairs, the cluster list built by
the pixel loop of `fillITPixelDigiHistos`, whatever the `adc` values, is equal
to the cluster list built by the loop of `fillOTDigiHistos` on the same
sequence (whatever the threshold bits), be the clusteriser on or off. -/
theorem loops_agree (digis : List PixelDigi) (digis' : List Phase2TrackerDigi)
    (h : digis.map (fun d => (d.row, d.column)) = digis'.map (fun d => (d.row, d.column))) :
    ∀ f, fillITPixelDigiHistos f digis = fillOTDigiHistos f digis' := by
  intro f
  rw [ot_eq_it]
  unfold fillITPixelDigiHistos
  rw [it_loop_ignores_adc f _ digis, it_loop_ignores_adc f _ (digis'.map asPixelDigi), h]
  simp [asPixelDigi, Function.comp_def]

/-- The agreement of the two loops on a concrete sequence of three hits. -/
theorem loops_agree_witness :
    (([⟨5, 0, 17⟩, ⟨6, 0, 200⟩, ⟨8, 1, 3⟩] : List PixelDigi).map (fun d => (d.row, d.column)) =
      ([⟨5, 0, true⟩, ⟨6, 0, false⟩, ⟨8, 1, true⟩] : List Phase2TrackerDigi).map
        (fun d => (d.row, d.column))) ∧
    (∀ f, fillITPixelDigiHistos f [⟨5, 0, 17⟩, ⟨6, 0, 200⟩, ⟨8, 1, 3⟩] =
      fillOTDigiHistos f [⟨5, 0, true⟩, ⟨6, 0, false⟩, ⟨8, 1, true⟩]) :=
  ⟨rfl, loops_agree [⟨5, 0, 17⟩, ⟨6, 0, 200⟩, ⟨8, 1, 3⟩]
    [⟨5, 0, true⟩, ⟨6, 0, false⟩, ⟨8, 1, true⟩] rfl⟩

/-! ### Clustering of a concatenation -/

/-- Clusters in front of a non-empty cluster vector are not looked at by an
iteration of the loop. -/
theorem it_step_frame (f : Bool) (pre : List Ph2DigiCluster) (st : DigiLoop) (d : PixelDigi)
    (hne : st.digiClusters ≠ []) :
    fillITPixelDigiHistos_step f { st with digiClusters := pre ++ st.digiClusters } d =
      (fillITPixelDigiHistos_step f st d).map
        (fun s => { s with digiClusters := pre ++ s.digiClusters }) ∧
    ∀ s, fillITPixelDigiHistos_step f st d = some s → s.digiClusters ≠ [] := by
  obtain ⟨front, back, hfb⟩ : ∃ front back, st.digiClusters = front ++ [back] :=
    ⟨st.digiClusters.dropLast, st.digiClusters.getLast hne,
      (List.dropLast_append_getLast hne).symm⟩
  cases f with
  | false =>
    refine ⟨rfl, fun s hs => ?_⟩
    simp only [fillITPixelDigiHistos_step, Bool.false_eq_true, if_false] at hs
    cases hs
    exact hne
  | true =>
    by_cases hc : st.row_last = -1 ∨ (d.row - st.row_last).natAbs ≠ 1 ∨ d.column ≠ st.col_last
    · constructor
      · simp only [fillITPixelDigiHistos_step, if_true, if_pos hc, Option.map_some',
          List.append_assoc]
      · intro s hs
        rw [it_step_start st d hc] at hs
        cases hs
        simp
    · by_cases hw : back.width + 1 = 0
      · constructor
        · simp only [fillITPixelDigiHistos_step, if_true, if_neg hc, hfb, ← List.append_assoc,
            List.getLast?_concat, if_pos hw, Option.map_none']
        · intro s hs
          simp only [fillITPixelDigiHistos_step, if_true, if_neg hc, hfb, List.getLast?_concat,
            if_pos hw] at hs
          cases hs
      · constructor
        · simp only [fillITPixelDigiHistos_step, if_true, if_neg hc, hfb, ← List.append_assoc,
            List.getLast?_concat, if_neg hw, List.dropLast_concat, Option.map_some']
        · intro s hs
          rw [it_step_merge st d front back hc hfb hw] at hs
          cases hs
          simp

/-- Clusters in front of a non-empty cluster vector pass through the loop. -/
theorem it_loop_frame (f : Bool) (pre : List Ph2DigiCluster) (ds : List PixelDigi)
    (st : DigiLoop) (hne : st.digiClusters ≠ []) :
    fillITPixelDigiHistos_loop f { st with digiClusters := pre ++ st.digiClusters } ds =
      (fillITPixelDigiHistos_loop f st ds).map
        (fun s => { s with digiClusters := pre ++ s.digiClusters }) := by
  induction ds generalizing st with
  | nil => rfl
  | cons d rest ih =>
    obtain ⟨h1, h2⟩ := it_step_frame f pre st d hne
    simp only [fillITPixelDigiHistos_loop, h1]
    cases hs : fillITPixelDigiHistos_step f st d with
    | none => rfl
    | some s => exact ih s (h2 s hs)

/-- After an iteration the locals hold the coordinates of the digi just seen. -/
theorem it_step_last (st st' : DigiLoop) (d : PixelDigi)
    (h : fillITPixelDigiHistos_step true st d = some st') :
    st'.row_last = d.row ∧ st'.col_last = d.column := by
  simp only [fillITPixelDigiHistos_step, if_true] at h
  split_ifs at h with hc
  · cases h; exact ⟨rfl, rfl⟩
  · cases hl : st.digiClusters.getLast? with
    | none => rw [hl] at h; cases h
    | some back =>
      rw [hl] at h
      simp only at h
      split_ifs at h
      cases h
      exact ⟨rfl, rfl⟩

/-- The clusters of `xs ++ d :: ys` when `d` is not adjacent to the last digi of
`xs` (or `xs` is empty): those of `xs` followed by those of `d :: ys`. -/
theorem it_concat (xs ys : List PixelDigi) (d : PixelDigi)
    (h : ∀ p, xs.getLast? = some p → (d.column ≠ p.column ∨ (d.row - p.row).natAbs ≠ 1)) :
    ∃ cx cy, fillITPixelDigiHistos true xs = some cx ∧
      fillITPixelDigiHistos true (d :: ys) = some cy ∧
      fillITPixelDigiHistos true (xs ++ d :: ys) = some (cx ++ cy) := by
  obtain ⟨st, hst, hne, hw, _⟩ := it_loop_start_total xs
  have hcond : st.row_last = -1 ∨ (d.row - st.row_last).natAbs ≠ 1 ∨ d.column ≠ st.col_last := by
    induction xs using List.reverseRecOn with
    | nil =>
      left
      have : st = DigiLoop.start := Option.some.inj hst.symm
      rw [this]; rfl
    | append_singleton pre p _ =>
      rw [it_loop_append] at hst
      cases hpre : fillITPixelDigiHistos_loop true DigiLoop.start pre with
      | none => rw [hpre] at hst; cases hst
      | some s0 =>
        rw [hpre, Option.some_bind, it_loop_single] at hst
        obtain ⟨hr, hcl⟩ := it_step_last s0 st p hst
        rw [hr, hcl]
        right
        rcases h p (List.getLast?_concat pre) with hcol | hrow
        · exact Or.inr hcol
        · exact Or.inl hrow
  have hstart : (-1 : Int) = -1 ∨ (d.row - (-1)).natAbs ≠ 1 ∨ d.column ≠ (-1 : Int) :=
    Or.inl rfl
  obtain ⟨st2, hst2, _⟩ := it_loop_total ys
    { row_last := d.row, col_last := d.column,
      digiClusters := [{ charge := 255, position := d.row + 1, width := 1, column := d.column }] }
    (fun _ => by simp)
    (by
      intro c hc
      have : c = { charge := 255, position := d.row + 1, width := 1, column := d.column } := by
        simpa using hc
      subst this
      exact ⟨le_refl _, rfl⟩)
  refine ⟨st.digiClusters, st2.digiClusters, by simp [fillITPixelDigiHistos, hst], ?_, ?_⟩
  · unfold fillITPixelDigiHistos
    simp only [fillITPixelDigiHistos_loop]
    rw [it_step_start DigiLoop.start d hstart]
    simp only [DigiLoop.start, List.nil_append]
    rw [hst2]; rfl
  · unfold fillITPixelDigiHistos
    rw [it_loop_append, hst, Option.some_bind]
    simp only [fillITPixelDigiHistos_loop]
    rw [it_step_start st d hcond]
    have hframe := it_loop_frame true st.digiClusters ys
      { row_last := d.row, col_last := d.column,
        digiClusters :=
          [{ charge := 255, position := d.row + 1, width := 1, column := d.column }] }
      (by simp)
    simp only at hframe
    simp only [hframe, hst2, Option.map_some']

theorem it_concat_any (xs ys : List PixelDigi)
    (h : xs = [] ∨ ys = [] ∨ ∃ p d, xs.getLast? = some p ∧ ys.head? = some d ∧
        (d.column ≠ p.column ∨ (d.row - p.row).natAbs ≠ 1)) :
    (∃ cx cy, fillITPixelDigiHistos true xs = some cx ∧ fillITPixelDigiHistos true ys = some cy ∧
      fillITPixelDigiHistos true (xs ++ ys) = some (cx ++ cy)) := by
  have htot : ∀ zs : List PixelDigi, ∃ cz, fillITPixelDigiHistos true zs = some cz := by
    intro zs
    obtain ⟨st, hst, _⟩ := it_loop_start_total zs
    exact ⟨st.digiClusters, by simp [fillITPixelDigiHistos, hst]⟩
  rcases h with h | h | ⟨p, d, hp, hd, hna⟩
  · subst h
    obtain ⟨cy, hcy⟩ := htot ys
    exact ⟨[], cy, rfl, hcy, by simpa using hcy⟩
  · subst h
    obtain ⟨cx, hcx⟩ := htot xs
    exact ⟨cx, [], hcx, rfl, by simpa using hcx⟩
  · cases ys with
    | nil => simp at hd
    | cons y rest =>
      have hy : y = d := by simpa using hd
      subst hy
      exact it_concat xs rest y (fun q hq => by
        rw [hp] at hq
        cases hq
        exact hna)

/-- C26.  For all hit streams `xs` and `ys` (rows and columns of any sign) such
that `xs` is empty, or `ys` is empty, or the first hit of `ys` is not adjacent
to the last hit of `xs` (different column, or rows not exactly one apart), in
both digi loops the cluster list of `xs ++ ys` is the cluster list of `xs`
followed by the cluster list of `ys`. -/
theorem concat_clusters (xs ys : List PixelDigi) (xs' ys' : List Phase2TrackerDigi)
    (h : xs = [] ∨ ys = [] ∨ ∃ p d, xs.getLast? = some p ∧ ys.head? = some d ∧
        (d.column ≠ p.column ∨ (d.row - p.row).natAbs ≠ 1))
    (h' : xs' = [] ∨ ys' = [] ∨ ∃ p d, xs'.getLast? = some p ∧ ys'.head? = some d ∧
        (d.column ≠ p.column ∨ (d.row - p.row).natAbs ≠ 1)) :
    (∃ cx cy, fillITPixelDigiHistos true xs = some cx ∧ fillITPixelDigiHistos true ys = some cy ∧
      fillITPixelDigiHistos true (xs ++ ys) = some (cx ++ cy)) ∧
    (∃ cx cy, fillOTDigiHistos true xs' = some cx ∧ fillOTDigiHistos true ys' = some cy ∧
      fillOTDigiHistos true (xs' ++ ys') = some (cx ++ cy)) := by
  refine ⟨it_concat_any xs ys h, ?_⟩
  have hmap : (xs'.map asPixelDigi) = [] ∨ (ys'.map asPixelDigi) = [] ∨
      ∃ p d, (xs'.map asPixelDigi).getLast? = some p ∧ (ys'.map asPixelDigi).head? = some d ∧
        (d.column ≠ p.column ∨ (d.row - p.row).natAbs ≠ 1) := by
    rcases h' with h' | h' | ⟨p, d, hp, hd, hna⟩
    · exact Or.inl (by rw [h']; rfl)
    · exact Or.inr (Or.inl (by rw [h']; rfl))
    · exact Or.inr (Or.inr ⟨asPixelDigi p, asPixelDigi d,
        by rw [List.getLast?_map, hp]; rfl, by rw [List.head?_map, hd]; rfl, hna⟩)
  obtain ⟨cx, cy, h1, h2, h3⟩ := it_concat_any _ _ hmap
  refine ⟨cx, cy, by rw [ot_eq_it]; exact h1, by rw [ot_eq_it]; exact h2, ?_⟩
  rw [ot_eq_it, List.map_append]
  exact h3

/-- The concatenation property on concrete streams: pixel hits `(5,0), (6,0)`
followed by `(8,0), (9,0)`, and outer-tracker hits `(-3,1)` followed by `(-2,2)`. -/
theorem concat_clusters_witness :
    (([⟨5, 0, 1⟩, ⟨6, 0, 1⟩] : List PixelDigi) = [] ∨ ([⟨8, 0, 1⟩, ⟨9, 0, 1⟩] : List PixelDigi) = [] ∨ ∃ p d, ([⟨5, 0, 1⟩, ⟨6, 0, 1⟩] : List PixelDigi).getLast? = some p ∧ ([⟨8, 0, 1⟩, ⟨9, 0, 1⟩] : List PixelDigi).head? = some d ∧
        (d.column ≠ p.column ∨ (d.row - p.row).natAbs ≠ 1)) ∧
    (([⟨-3, 1, true⟩] : List Phase2TrackerDigi) = [] ∨ ([⟨-2, 2, true⟩] : List Phase2TrackerDigi) = [] ∨ ∃ p d, ([⟨-3, 1, true⟩] : List Phase2TrackerDigi).getLast? = some p ∧ ([⟨-2, 2, true⟩] : List Phase2TrackerDigi).head? = some d ∧
        (d.column ≠ p.column ∨ (d.row - p.row).natAbs ≠ 1)) ∧
    (∃ cx cy, fillITPixelDigiHistos true ([⟨5, 0, 1⟩, ⟨6, 0, 1⟩] : List PixelDigi) = some cx ∧ fillITPixelDigiHistos true ([⟨8, 0, 1⟩, ⟨9, 0, 1⟩] : List PixelDigi) = some cy ∧
      fillITPixelDigiHistos true (([⟨5, 0, 1⟩, ⟨6, 0, 1⟩] : List PixelDigi) ++ ([⟨8, 0, 1⟩, ⟨9, 0, 1⟩] : List PixelDigi)) = some (cx ++ cy)) ∧
    (∃ cx cy, fillOTDigiHistos true ([⟨-3, 1, true⟩] : List Phase2TrackerDigi) = some cx ∧ fillOTDigiHistos true ([⟨-2, 2, true⟩] : List Phase2TrackerDigi) = some cy ∧
      fillOTDigiHistos true (([⟨-3, 1, true⟩] : List Phase2TrackerDigi) ++ ([⟨-2, 2, true⟩] : List Phase2TrackerDigi)) = some (cx ++ cy)) :=
  ⟨Or.inr (Or.inr ⟨⟨6, 0, 1⟩, ⟨8, 0, 1⟩, rfl, rfl, Or.inr (by decide)⟩),
    Or.inr (Or.inr ⟨⟨-3, 1, true⟩, ⟨-2, 2, true⟩, rfl, rfl, Or.inl (by decide)⟩),
    concat_clusters [⟨5, 0, 1⟩, ⟨6, 0, 1⟩] [⟨8, 0, 1⟩, ⟨9, 0, 1⟩] [⟨-3, 1, true⟩] [⟨-2, 2, true⟩]
      (Or.inr (Or.inr ⟨⟨6, 0, 1⟩, ⟨8, 0, 1⟩, rfl, rfl, Or.inr (by decide)⟩))
      (Or.inr (Or.inr ⟨⟨-3, 1, true⟩, ⟨-2, 2, true⟩, rfl, rfl, Or.inl (by decide)⟩))⟩

/-! ### Clusters and maximal runs -/

theorem runs_ne_nil {α : Type} (r : α → α → Bool) (a : α) (l : List α) :
    runs r (a :: l) ≠ [] := by
  cases l with
  | nil => simp [runs]
  | cons b rest =>
    simp only [runs]
    cases runs r (b :: rest) with
    | nil => simp
    | cons first others => split_ifs <;> simp

theorem splitBy_loop_eq_runs {α : Type} (r : α → α → Bool) (l : List α) (a : α)
    (g : List α) (gs : List (List α)) :
    List.splitBy.loop r l a g gs =
      gs.reverse ++ (match runs r (a :: l) with
        | [] => []
        | first :: others => (g.reverse ++ first) :: others) := by
  induction l generalizing a g gs with
  | nil => simp [List.splitBy.loop, runs]
  | cons b rest ih =>
    have hne := runs_ne_nil r b rest
    cases hr : r a b with
    | true =>
      simp only [List.splitBy.loop, hr, runs]
      rw [ih]
      cases hruns : runs r (b :: rest) with
      | nil => exact absurd hruns hne
      | cons first others => simp
    | false =>
      simp only [List.splitBy.loop, hr, runs]
      rw [ih]
      cases hruns : runs r (b :: rest) with
      | nil => exact absurd hruns hne
      | cons first others => simp

/-- The runs computed from the right are the groups of `List.splitBy`. -/
theorem splitBy_eq_runs {α : Type} (r : α → α → Bool) (l : List α) :
    l.splitBy r = runs r l := by
  cases l with
  | nil => rfl
  | cons a rest =>
    simp only [List.splitBy]
    rw [splitBy_loop_eq_runs]
    cases hruns : runs r (a :: rest) with
    | nil => exact absurd hruns (runs_ne_nil r a rest)
    | cons first others => simp

theorem runs_map {α β : Type} (r : α → α → Bool) (r' : β → β → Bool) (f : β → α)
    (hr : ∀ a b, r (f a) (f b) = r' a b) (l : List β) :
    runs r (l.map f) = (runs r' l).map (List.map f) := by
  induction l with
  | nil => rfl
  | cons a rest ih =>
    cases rest with
    | nil => rfl
    | cons b rest' =>
      simp only [List.map_cons, runs] at ih ⊢
      rw [ih, hr]
      cases runs r' (b :: rest') with
      | nil => rfl
      | cons first others =>
        simp only [List.map_cons]
        split_ifs <;> rfl

/-- The loop from the state reached after a hit `p` (row not negative), whose
last cluster `back` is in the column of `p`: the last cluster absorbs the rest
of the run of `p`, and one cluster is then built per further run. -/
theorem it_runs (rest : List PixelDigi) (p : PixelDigi) (front : List Ph2DigiCluster)
    (back : Ph2DigiCluster) (hp : 0 ≤ p.row) (hrest : ∀ d ∈ rest, 0 ≤ d.row)
    (hw : 1 ≤ back.width) (hcol : back.column = p.column) :
    ∃ st' cl restcl first others,
      fillITPixelDigiHistos_loop true
        { row_last := p.row, col_last := p.column, digiClusters := front ++ [back] } rest =
          some st' ∧
      runs adjacentIT (p :: rest) = first :: others ∧
      st'.digiClusters = front ++ cl :: restcl ∧
      cl.width = back.width - 1 + (first.length : Int) ∧
      cl.column = p.column ∧
      (∀ h ∈ first, h.column = p.column) ∧
      List.Forall₂ (fun c run => c.width = (run.length : Int) ∧ ∀ h ∈ run, h.column = c.column)
        restcl others := by
  induction rest generalizing p front back with
  | nil =>
    refine ⟨_, back, [], [p], [], rfl, rfl, rfl, ?_, hcol, ?_, List.Forall₂.nil⟩
    · simp
    · intro h hh
      have : h = p := by simpa using hh
      rw [this]
  | cons y ys ih =>
    have hy : 0 ≤ y.row := hrest y (by simp)
    have hys : ∀ d ∈ ys, 0 ≤ d.row := fun d hd => hrest d (List.mem_cons_of_mem _ hd)
    by_cases hadj : y.column = p.column ∧ (y.row - p.row).natAbs = 1
    · have hc : ¬ (p.row = -1 ∨ (y.row - p.row).natAbs ≠ 1 ∨ y.column ≠ p.column) := by
        rintro (h1 | h2 | h3)
        · omega
        · exact h2 hadj.2
        · exact h3 hadj.1
      have hstep := it_step_merge
        { row_last := p.row, col_last := p.column, digiClusters := front ++ [back] }
        y front back hc rfl (by omega)
      obtain ⟨st', cl, restcl, first, others, h1, h2, h3, h4, h5, h6, h7⟩ :=
        ih y front
          { charge := back.charge,
            position := Int.tdiv (back.position + y.row + 1) (back.width + 1),
            width := back.width + 1, column := back.column }
          hy hys (by show (1 : Int) ≤ back.width + 1; omega)
          (by show back.column = y.column; rw [hcol, hadj.1])
      refine ⟨st', cl, restcl, p :: first, others, ?_, ?_, h3, ?_, ?_, ?_, h7⟩
      · simp only [fillITPixelDigiHistos_loop, hstep]
        exact h1
      · have hr : adjacentIT p y = true := by simp [adjacentIT, hadj]
        simp only [runs, h2, hr, if_true]
      · rw [h4]
        show back.width + 1 - 1 + (first.length : Int) = back.width - 1 + ((first.length + 1 : Nat) : Int)
        push_cast
        omega
      · rw [h5, hadj.1]
      · intro h hh
        rcases List.mem_cons.1 hh with rfl | hm
        · rfl
        · rw [h6 h hm, hadj.1]
    · have hc : p.row = -1 ∨ (y.row - p.row).natAbs ≠ 1 ∨ y.column ≠ p.column := by
        by_cases h1 : y.column = p.column
        · exact Or.inr (Or.inl (fun h2 => hadj ⟨h1, h2⟩))
        · exact Or.inr (Or.inr h1)
      have hstep := it_step_start
        { row_last := p.row, col_last := p.column, digiClusters := front ++ [back] } y hc
      obtain ⟨st', cl, restcl, first, others, h1, h2, h3, h4, h5, h6, h7⟩ :=
        ih y (front ++ [back])
          { charge := 255, position := y.row + 1, width := 1, column := y.column }
          hy hys (le_refl _) rfl
      refine ⟨st', back, cl :: restcl, [p], first :: others, ?_, ?_, ?_, ?_, hcol, ?_, ?_⟩
      · simp only [fillITPixelDigiHistos_loop, hstep]
        exact h1
      · have hr : adjacentIT p y = false := by simp [adjacentIT, hadj]
        simp only [runs, h2, hr, Bool.false_eq_true, if_false]
      · rw [h3]; simp
      · simp
      · intro h hh
        have : h = p := by simpa using hh
        rw [this]
      · refine List.Forall₂.cons ⟨?_, ?_⟩ h7
        · rw [h4]
          show (1 : Int) - 1 + (first.length : Int) = first.length
          omega
        · intro h hh
          rw [h6 h hh, h5]

/-- The clusters of the pixel loop are, run by run, the maximal runs of adjacent
hits (rows not negative). -/
theorem it_clusters_runs (digis : List PixelDigi) (h : ∀ d ∈ digis, 0 ≤ d.row) :
    ∃ clusters, fillITPixelDigiHistos true digis = some clusters ∧
      List.Forall₂ (fun c run => c.width = (run.length : Int) ∧ ∀ h ∈ run, h.column = c.column)
        clusters (runs adjacentIT digis) := by
  cases digis with
  | nil => exact ⟨[], rfl, List.Forall₂.nil⟩
  | cons x rest =>
    have hx : 0 ≤ x.row := h x (by simp)
    have hrest : ∀ d ∈ rest, 0 ≤ d.row := fun d hd => h d (List.mem_cons_of_mem _ hd)
    have hstep := it_step_start DigiLoop.start x (Or.inl rfl)
    obtain ⟨st', cl, restcl, first, others, h1, h2, h3, h4, h5, h6, h7⟩ :=
      it_runs rest x [] { charge := 255, position := x.row + 1, width := 1, column := x.column }
        hx hrest (le_refl _) rfl
    refine ⟨cl :: restcl, ?_, ?_⟩
    · unfold fillITPixelDigiHistos
      simp only [fillITPixelDigiHistos_loop, hstep]
      simp only [DigiLoop.start, List.nil_append] at h1 ⊢
      rw [h1, Option.map_some', h3]
      rfl
    · rw [h2]
      refine List.Forall₂.cons ⟨?_, ?_⟩ h7
      · rw [h4]
        show (1 : Int) - 1 + (first.length : Int) = first.length
        omega
      · intro d hd
        rw [h6 d hd, h5]

/-- C25.  For every hit stream with non-negative rows, in both digi loops the
clusters built correspond, one to one and in order, to the maximal runs of
consecutive hits in which each hit has the column of its predecessor and a row
exactly one away from it (`List.splitBy`): the width of the i-th cluster is the
length of the i-th run and its column is the column of every hit of that
run. -/
theorem clusters_are_runs (digis : List PixelDigi) (digis' : List Phase2TrackerDigi)
    (h : ∀ d ∈ digis, 0 ≤ d.row) (h' : ∀ d ∈ digis', 0 ≤ d.row) :
    (∃ clusters, fillITPixelDigiHistos true digis = some clusters ∧
      List.Forall₂
        (fun c run => c.width = (run.length : Int) ∧ ∀ hit ∈ run, hit.column = c.column)
        clusters
        (digis.splitBy
          (fun p d => decide (d.column = p.column ∧ (d.row - p.row).natAbs = 1)))) ∧
    (∃ clusters, fillOTDigiHistos true digis' = some clusters ∧
      List.Forall₂
        (fun c run => c.width = (run.length : Int) ∧ ∀ hit ∈ run, hit.column = c.column)
        clusters
        (digis'.splitBy
          (fun p d => decide (d.column = p.column ∧ (d.row - p.row).natAbs = 1)))) := by
  constructor
  · obtain ⟨clusters, h1, h2⟩ := it_clusters_runs digis h
    refine ⟨clusters, h1, ?_⟩
    have e : digis.splitBy
        (fun p d => decide (d.column = p.column ∧ (d.row - p.row).natAbs = 1)) =
        runs adjacentIT digis := splitBy_eq_runs adjacentIT digis
    rw [e]
    exact h2
  · have hmap : ∀ d ∈ digis'.map asPixelDigi, 0 ≤ d.row := by
      intro d hd
      obtain ⟨e, he, rfl⟩ := List.mem_map.1 hd
      exact h' e he
    obtain ⟨clusters, h1, h2⟩ := it_clusters_runs (digis'.map asPixelDigi) hmap
    refine ⟨clusters, by rw [ot_eq_it]; exact h1, ?_⟩
    have e : digis'.splitBy
        (fun p d => decide (d.column = p.column ∧ (d.row - p.row).natAbs = 1)) =
        runs adjacentOT digis' := splitBy_eq_runs adjacentOT digis'
    rw [e]
    rw [runs_map adjacentIT adjacentOT asPixelDigi (fun a b => rfl) digis',
      List.forall₂_map_right_iff] at h2
    refine List.Forall₂.imp ?_ h2
    intro c run hc
    refine ⟨by simpa using hc.1, fun hit hhit => ?_⟩
    exact hc.2 (asPixelDigi hit) (List.mem_map.2 ⟨hit, hhit, rfl⟩)

/-- The run property on concrete streams: four pixel hits forming the runs
`(5,0) (6,0) (5,0)` and `(5,1)`, three outer-tracker hits forming the runs
`(2,1)` and `(2,2) (1,2)`. -/
theorem clusters_are_runs_witness :
    (∀ d ∈ ([⟨5, 0, 3⟩, ⟨6, 0, 3⟩, ⟨5, 0, 3⟩, ⟨5, 1, 3⟩] : List PixelDigi), 0 ≤ d.row) ∧
    (∀ d ∈ ([⟨2, 1, true⟩, ⟨2, 2, true⟩, ⟨1, 2, false⟩] : List Phase2TrackerDigi), 0 ≤ d.row) ∧
    (∃ clusters, fillITPixelDigiHistos true ([⟨5, 0, 3⟩, ⟨6, 0, 3⟩, ⟨5, 0, 3⟩, ⟨5, 1, 3⟩] : List PixelDigi) = some clusters ∧
      List.Forall₂
        (fun c run => c.width = (run.length : Int) ∧ ∀ hit ∈ run, hit.column = c.column)
        clusters
        (([⟨5, 0, 3⟩, ⟨6, 0, 3⟩, ⟨5, 0, 3⟩, ⟨5, 1, 3⟩] : List PixelDigi).splitBy
          (fun p d => decide (d.column = p.column ∧ (d.row - p.row).natAbs = 1)))) ∧
    (∃ clusters, fillOTDigiHistos true ([⟨2, 1, true⟩, ⟨2, 2, true⟩, ⟨1, 2, false⟩] : List Phase2TrackerDigi) = some clusters ∧
      List.Forall₂
        (fun c run => c.width = (run.length : Int) ∧ ∀ hit ∈ run, hit.column = c.column)
        clusters
        (([⟨2, 1, true⟩, ⟨2, 2, true⟩, ⟨1, 2, false⟩] : List Phase2TrackerDigi).splitBy
          (fun p d => decide (d.column = p.column ∧ (d.row - p.row).natAbs = 1)))) :=
  ⟨by decide, by decide,
    clusters_are_runs [⟨5, 0, 3⟩, ⟨6, 0, 3⟩, ⟨5, 0, 3⟩, ⟨5, 1, 3⟩]
      [⟨2, 1, true⟩, ⟨2, 2, true⟩, ⟨1, 2, false⟩] (by decide) (by decide)⟩

end Phase2TrackerMonitorDigi

namespace HLTBtagLifetimeAnalyzer

/-! ### `closestJet` -/

/-- The loop of `closestJet`: without an entry below the current distance the
current answer stays; otherwise the answer is the first position of the
smallest entry. -/
theorem closestJet_loop_spec {α : Type} [LinearOrder α] (rest : List α) (i0 : Nat)
    (dist : α) (cl : Int) :
    ((∀ d ∈ rest, ¬ d < dist) → closestJet_loop rest i0 dist cl = cl) ∧
    ((∃ d ∈ rest, d < dist) → ∃ (k : Nat) (d : α),
      closestJet_loop rest i0 dist cl = ((i0 + k : Nat) : Int) ∧ rest[k]? = some d ∧ d < dist ∧
      (∀ (j : Nat) (e : α), rest[j]? = some e → d ≤ e) ∧
      (∀ (j : Nat), rest[j]? = some d → k ≤ j)) := by
  induction rest generalizing i0 dist cl with
  | nil =>
    refine ⟨fun _ => rfl, ?_⟩
    rintro ⟨d, hd, _⟩
    simp at hd
  | cons x rest ih =>
    by_cases hx : x < dist
    · have hloop : closestJet_loop (x :: rest) i0 dist cl =
          closestJet_loop rest (i0 + 1) x (i0 : Int) := by
        simp only [closestJet_loop, if_pos hx]
      refine ⟨fun h => absurd hx (h x (by simp)), fun _ => ?_⟩
      by_cases hex : ∃ d ∈ rest, d < x
      · obtain ⟨k, d, h1, h2, h3, h4, h5⟩ := (ih (i0 + 1) x (i0 : Int)).2 hex
        refine ⟨k + 1, d, ?_, by simpa using h2, lt_trans h3 hx, ?_, ?_⟩
        · rw [hloop, h1]
          have : i0 + 1 + k = i0 + (k + 1) := by omega
          rw [this]
        · intro j e he
          cases j with
          | zero =>
            have : x = e := by simpa using he
            rw [← this]
            exact le_of_lt h3
          | succ j => exact h4 j e (by simpa using he)
        · intro j hj
          cases j with
          | zero =>
            have : x = d := by simpa using hj
            rw [this] at h3
            exact absurd h3 (lt_irrefl _)
          | succ j =>
            have := h5 j (by simpa using hj)
            omega
      · have hnone : ∀ d ∈ rest, ¬ d < x := fun d hd hlt => hex ⟨d, hd, hlt⟩
        refine ⟨0, x, ?_, by simp, hx, ?_, fun j _ => Nat.zero_le j⟩
        · rw [hloop, (ih (i0 + 1) x (i0 : Int)).1 hnone]
          rfl
        · intro j e he
          cases j with
          | zero =>
            have : x = e := by simpa using he
            rw [this]
          | succ j =>
            have hmem : e ∈ rest := List.getElem?_mem (by simpa using he)
            exact not_lt.1 (hnone e hmem)
    · have hloop : closestJet_loop (x :: rest) i0 dist cl =
          closestJet_loop rest (i0 + 1) dist cl := by
        simp only [closestJet_loop, if_neg hx]
      constructor
      · intro h
        rw [hloop]
        exact (ih (i0 + 1) dist cl).1 (fun d hd => h d (List.mem_cons_of_mem _ hd))
      · rintro ⟨d0, hd0, hlt0⟩
        have hex : ∃ d ∈ rest, d < dist := by
          rcases List.mem_cons.1 hd0 with rfl | hm
          · exact absurd hlt0 hx
          · exact ⟨d0, hm, hlt0⟩
        obtain ⟨k, d, h1, h2, h3, h4, h5⟩ := (ih (i0 + 1) dist cl).2 hex
        refine ⟨k + 1, d, ?_, by simpa using h2, h3, ?_, ?_⟩
        · rw [hloop, h1]
          have : i0 + 1 + k = i0 + (k + 1) := by omega
          rw [this]
        · intro j e he
          cases j with
          | zero =>
            have : x = e := by simpa using he
            rw [← this]
            exact le_of_lt (lt_of_lt_of_le h3 (not_lt.1 hx))
          | succ j => exact h4 j e (by simpa using he)
        · intro j hj
          cases j with
          | zero =>
            have : x = d := by simpa using hj
            rw [this] at hx
            exact absurd h3 hx
          | succ j =>
            have := h5 j (by simpa using hj)
            omega

/-- C22.  For every list of distances taken in a linearly ordered type and every
threshold: `closestJet` returns `-1` if and only if no distance is below the
threshold; otherwise it returns an index `i` whose distance is below the
threshold and at most every other distance, and `i` is the smallest index
holding that minimal distance. -/
theorem closestJet_spec {α : Type} [LinearOrder α] (deltaR : List α) (distance : α) :
    (closestJet deltaR distance = -1 ↔ ∀ d ∈ deltaR, ¬ d < distance) ∧
    ((∃ d ∈ deltaR, d < distance) → ∃ (i : Nat) (d : α),
      closestJet deltaR distance = (i : Int) ∧ deltaR[i]? = some d ∧ d < distance ∧
      (∀ (j : Nat) (e : α), deltaR[j]? = some e → d ≤ e) ∧
      (∀ (j : Nat), deltaR[j]? = some d → i ≤ j)) := by
  have hspec := closestJet_loop_spec deltaR 0 distance (-1)
  have h2 : (∃ d ∈ deltaR, d < distance) → ∃ (i : Nat) (d : α),
      closestJet deltaR distance = (i : Int) ∧ deltaR[i]? = some d ∧ d < distance ∧
      (∀ (j : Nat) (e : α), deltaR[j]? = some e → d ≤ e) ∧
      (∀ (j : Nat), deltaR[j]? = some d → i ≤ j) := by
    intro hex
    obtain ⟨k, d, h1, hrest⟩ := hspec.2 hex
    refine ⟨k, d, ?_, hrest⟩
    unfold closestJet
    rw [h1, Nat.zero_add]
  refine ⟨⟨fun hm => ?_, fun hn => hspec.1 hn⟩, h2⟩
  intro d hd hlt
  obtain ⟨i, _, hi, _⟩ := h2 ⟨d, hd, hlt⟩
  rw [hi] at hm
  omega

/-! ### The path description -/

/-- `List.indexOf` of an element of the list is the first position holding it. -/
theorem indexOf_first {α : Type} [DecidableEq α] (a : α) (l : List α) (h : a ∈ l) :
    l[l.indexOf a]? = some a ∧ ∀ (j : Nat), j < l.indexOf a → l[j]? ≠ some a := by
  induction l with
  | nil => simp at h
  | cons b rest ih =>
    rw [List.indexOf_cons]
    by_cases hb : b = a
    · subst hb
      simp
    · have hmem : a ∈ rest := by
        rcases List.mem_cons.1 h with h1 | h1
        · exact absurd h1.symm hb
        · exact h1
      obtain ⟨h1, h2⟩ := ih hmem
      have hbeq : (b == a) = false := by simpa using hb
      rw [hbeq]
      simp only [cond_false]
      refine ⟨by simpa using h1, fun j hj => ?_⟩
      cases j with
      | zero => simpa using hb
      | succ j => simpa using h2 j (by omega)

/-- C24.  On an analyzer with a cached description `cachePathDescription`
returns true and changes nothing.  On an analyzer without one it succeeds
exactly when both parameter sets are in the registry and the configured path
is among the trigger paths; then `m_pathIndex` is the smallest index at which
the trigger paths hold the configured path name, `m_pathModules` is the module
list of the path, and every level whose filter label occurs among the modules
gets as `m_filterIndex` the smallest index at which the label occurs. -/
theorem path_resolution (a : Analyzer) (x y : Option (List String)) :
    (a.m_pathCached = true → cachePathDescription a x y = (true, a)) ∧
    (a.m_pathCached = false →
      ((cachePathDescription a x y).1 = true ↔
        ∃ paths modules, x = some paths ∧ y = some modules ∧ a.m_triggerPath ∈ paths) ∧
      ∀ a1, cachePathDescription a x y = (true, a1) →
        ∃ paths modules, x = some paths ∧ y = some modules ∧
          a1.m_pathModules = modules ∧
          paths[a1.m_pathIndex]? = some a.m_triggerPath ∧
          (∀ (j : Nat), j < a1.m_pathIndex → paths[j]? ≠ some a.m_triggerPath) ∧
          a1.m_levels.length = a.m_levels.length ∧
          ∀ (i : Nat) (level : InputData), a.m_levels[i]? = some level →
            level.m_filter ∈ modules →
            ∃ level1, a1.m_levels[i]? = some level1 ∧
              level1.m_filter = level.m_filter ∧
              modules[level1.m_filterIndex]? = some level.m_filter ∧
              ∀ (j : Nat), j < level1.m_filterIndex → modules[j]? ≠ some level.m_filter) := by
  refine ⟨fun hc => by simp [cachePathDescription, hc], fun hc => ⟨?_, ?_⟩⟩
  · constructor
    · intro hsucc
      cases x with
      | none => simp [cachePathDescription, hc] at hsucc
      | some paths =>
        cases y with
        | none => simp [cachePathDescription, hc] at hsucc
        | some modules =>
          refine ⟨paths, modules, rfl, rfl, ?_⟩
          by_contra hnot
          have := cachePathDescription_fails a (some paths) (some modules) hc
            (Or.inr (Or.inr ⟨paths, rfl, hnot⟩))
          rw [this] at hsucc
          cases hsucc
    · rintro ⟨paths, modules, rfl, rfl, hmem⟩
      unfold cachePathDescription
      rw [if_neg (by simp [hc])]
      simp only
      rw [if_neg (Nat.ne_of_lt (List.indexOf_lt_length.2 hmem))]
  · intro a1 ha1
    cases x with
    | none => simp [cachePathDescription, hc] at ha1
    | some paths =>
      cases y with
      | none => simp [cachePathDescription, hc] at ha1
      | some modules =>
        unfold cachePathDescription at ha1
        rw [if_neg (by simp [hc])] at ha1
        simp only at ha1
        by_cases hidx : paths.indexOf a.m_triggerPath = paths.length
        · rw [if_pos hidx] at ha1
          cases ha1
        · rw [if_neg hidx] at ha1
          have hmem : a.m_triggerPath ∈ paths := by
            by_contra hnot
            exact hidx (List.indexOf_eq_length.2 hnot)
          obtain ⟨hp1, hp2⟩ := indexOf_first a.m_triggerPath paths hmem
          have e := (Prod.mk.inj ha1).2
          subst e
          refine ⟨paths, modules, rfl, rfl, rfl, hp1, hp2, by simp, ?_⟩
          intro i level hl hin
          obtain ⟨hm1, hm2⟩ := indexOf_first level.m_filter modules hin
          refine ⟨{ level with m_filterIndex := modules.indexOf level.m_filter }, ?_, rfl,
            hm1, hm2⟩
          simp only [List.getElem?_map, hl, Option.map_some']
          rw [if_pos (Nat.ne_of_lt (List.indexOf_lt_length.2 hin))]

/-! ### Counting on an ordered path -/

/-- On levels whose filter indices do not decrease, a level is among the
leading passed levels exactly when it is passed. -/
theorem takeWhile_passed_iff (m_levels : List InputData) (status : PathStatus)
    (hord : List.Pairwise (fun a b => a.m_filterIndex ≤ b.m_filterIndex) m_levels)
    (j : Nat) (level : InputData) (hj : m_levels[j]? = some level) :
    j < (m_levels.takeWhile (passed status)).length ↔ passed status level = true := by
  obtain ⟨h1, h2⟩ := takeWhile_length_spec (passed status) m_levels
  refine ⟨fun h => h1 j level hj h, fun hp => ?_⟩
  by_contra hnot
  obtain ⟨hjl, hje⟩ := List.getElem?_eq_some.1 hj
  have hk : (m_levels.takeWhile (passed status)).length < m_levels.length := by omega
  have hfalse := h2 _ (List.getElem?_eq_getElem hk)
  by_cases hkj : (m_levels.takeWhile (passed status)).length = j
  · have e : m_levels[(m_levels.takeWhile (passed status)).length]? = some level := by
      rw [hkj]; exact hj
    rw [h2 level e] at hp
    cases hp
  · have hlt : (m_levels.takeWhile (passed status)).length < j := by omega
    have hrel := List.pairwise_iff_getElem.1 hord _ j hk hjl hlt
    rw [hje] at hrel
    simp only [passed, Bool.or_eq_true, decide_eq_true_eq, Bool.or_eq_false_iff,
      decide_eq_false_iff_not] at hp hfalse
    rcases hp with hp | hp
    · rw [hp] at hfalse
      exact absurd hfalse.1 (by simp)
    · omega

/-- On an ordered path the counters hold, modulo `2 ^ 32`, the number of events
passing each level. -/
theorem analyze_all_counts (m_levels : List InputData) (events : List PathStatus)
    (hord : List.Pairwise (fun a b => a.m_filterIndex ≤ b.m_filterIndex) m_levels) :
    ∃ res, analyze_all m_levels (beginJob m_levels []) events = some res ∧
      res.length = m_levels.length ∧
      ∀ (l : Nat) (level : InputData), m_levels[l]? = some level →
        res[l]? = some (events.countP (fun status => passed status level) % 2 ^ 32) := by
  induction events using List.reverseRecOn with
  | nil =>
    refine ⟨beginJob m_levels [], rfl, by simp [beginJob_nil], fun l level hl => ?_⟩
    obtain ⟨hll, _⟩ := List.getElem?_eq_some.1 hl
    rw [beginJob_nil, List.getElem?_replicate, if_pos hll]
    rfl
  | append_singleton es e ih =>
    obtain ⟨res, hres, hlen, hcount⟩ := ih
    obtain ⟨res', hres', hlen', hget⟩ := analyze_spec m_levels res e hlen
    refine ⟨res', ?_, by omega, fun l level hl => ?_⟩
    · rw [analyze_all_append, hres, Option.some_bind]
      simp only [analyze_all, hres']
    · rw [hget l _ (hcount l level hl), List.countP_append, List.countP_singleton]
      have hiff := takeWhile_passed_iff m_levels e hord l level hl
      by_cases hp : passed e level = true
      · rw [if_pos (hiff.2 hp), if_pos hp]
        congr 1
        omega
      · rw [if_neg (fun h => hp (hiff.1 h)), if_neg hp, Nat.add_zero]

/-- C23, as the code behaves.  If the filter indices of the levels do not
decrease in level order, then for every event a passed level has its
predecessor passed, and after any sequence of events each `passCount[l]`
equals, modulo `2 ^ 32`, the number of processed events with
`accepted or latest > filterIndex(l)`; it equals that number itself as long as
fewer than `2 ^ 32` events have been processed. -/
theorem ordered_path_counts (m_levels : List InputData) (events : List PathStatus)
    (hord : List.Chain' (fun a b => a.m_filterIndex ≤ b.m_filterIndex) m_levels) :
    (∀ (status : PathStatus) (l : Nat) (level next : InputData),
      m_levels[l]? = some level → m_levels[l + 1]? = some next →
      passed status next = true → passed status level = true) ∧
    (∃ res, analyze_all m_levels (beginJob m_levels []) events = some res ∧
      res.length = m_levels.length ∧
      (∀ (l : Nat) (level : InputData), m_levels[l]? = some level →
        res[l]? = some (events.countP (fun status => passed status level) % 2 ^ 32)) ∧
      (events.length < 2 ^ 32 →
        ∀ (l : Nat) (level : InputData), m_levels[l]? = some level →
          res[l]? = some (events.countP (fun status => passed status level)))) := by
  haveI : IsTrans InputData (fun a b => a.m_filterIndex ≤ b.m_filterIndex) :=
    ⟨fun _ _ _ h1 h2 => le_trans h1 h2⟩
  have hpw := List.chain'_iff_pairwise.1 hord
  constructor
  · intro status l level next hl hn hp
    obtain ⟨hll, hle⟩ := List.getElem?_eq_some.1 hl
    obtain ⟨hnl, hne⟩ := List.getElem?_eq_some.1 hn
    have hrel := List.pairwise_iff_getElem.1 hpw l (l + 1) hll hnl (by omega)
    rw [hle, hne] at hrel
    simp only [passed, Bool.or_eq_true, decide_eq_true_eq] at hp ⊢
    rcases hp with hp | hp
    · exact Or.inl hp
    · exact Or.inr (by omega)
  · obtain ⟨res, hres, hlen, hcount⟩ := analyze_all_counts m_levels events hpw
    refine ⟨res, hres, hlen, hcount, fun hn l level hl => ?_⟩
    rw [hcount l level hl]
    congr 1
    apply Nat.mod_eq_of_lt
    have := List.countP_le_length (fun status => passed status level) (l := events)
    omega

/-- The counts on the ordered path `A, B, C` after one accepted event and one
event rejected at index 1. -/
theorem ordered_path_counts_witness :
    List.Chain' (fun a b => a.m_filterIndex ≤ b.m_filterIndex) ([⟨"A", "A", "fA", 0⟩, ⟨"B", "B", "fB", 1⟩, ⟨"C", "C", "fC", 2⟩] : List InputData) ∧
    ((∀ (status : PathStatus) (l : Nat) (level next : InputData),
      ([⟨"A", "A", "fA", 0⟩, ⟨"B", "B", "fB", 1⟩, ⟨"C", "C", "fC", 2⟩] : List InputData)[l]? = some level → ([⟨"A", "A", "fA", 0⟩, ⟨"B", "B", "fB", 1⟩, ⟨"C", "C", "fC", 2⟩] : List InputData)[l + 1]? = some next →
      passed status next = true → passed status level = true) ∧
    (∃ res, analyze_all ([⟨"A", "A", "fA", 0⟩, ⟨"B", "B", "fB", 1⟩, ⟨"C", "C", "fC", 2⟩] : List InputData) (beginJob ([⟨"A", "A", "fA", 0⟩, ⟨"B", "B", "fB", 1⟩, ⟨"C", "C", "fC", 2⟩] : List InputData) []) ([⟨true, 0⟩, ⟨false, 1⟩] : List PathStatus) = some res ∧
      res.length = ([⟨"A", "A", "fA", 0⟩, ⟨"B", "B", "fB", 1⟩, ⟨"C", "C", "fC", 2⟩] : List InputData).length ∧
      (∀ (l : Nat) (level : InputData), ([⟨"A", "A", "fA", 0⟩, ⟨"B", "B", "fB", 1⟩, ⟨"C", "C", "fC", 2⟩] : List InputData)[l]? = some level →
        res[l]? = some (([⟨true, 0⟩, ⟨false, 1⟩] : List PathStatus).countP (fun status => passed status level) % 2 ^ 32)) ∧
      (([⟨true, 0⟩, ⟨false, 1⟩] : List PathStatus).length < 2 ^ 32 →
        ∀ (l : Nat) (level : InputData), ([⟨"A", "A", "fA", 0⟩, ⟨"B", "B", "fB", 1⟩, ⟨"C", "C", "fC", 2⟩] : List InputData)[l]? = some level →
          res[l]? = some (([⟨true, 0⟩, ⟨false, 1⟩] : List PathStatus).countP (fun status => passed status level))))) :=
  ⟨by simp, ordered_path_counts
    [⟨"A", "A", "fA", 0⟩, ⟨"B", "B", "fB", 1⟩, ⟨"C", "C", "fC", 2⟩]
    [⟨true, 0⟩, ⟨false, 1⟩] (by simp)⟩

/-- C23, as stated, fails after `2 ^ 32` events.  On one level, `2 ^ 32`
accepted events all pass the level, and the counter holds 0. -/
theorem ordered_path_count_wraps :
    analyze_all [⟨"A", "A", "fA", 0⟩] (beginJob [⟨"A", "A", "fA", 0⟩] [])
        (List.replicate 4294967296 ⟨true, 0⟩) = some [0] ∧
    (List.replicate 4294967296 (⟨true, 0⟩ : PathStatus)).countP
        (fun status => passed status ⟨"A", "A", "fA", 0⟩) = 4294967296 ∧
    (0 : Nat) ≠ 4294967296 := by
  refine ⟨?_, ?_, by decide⟩
  · exact analyze_all_accepted [⟨"A", "A", "fA", 0⟩] 0 4294967296 0
  · rw [List.countP_replicate]
    rfl

/-! ### The efficiencies as fractions -/

/-- Counters ordered between neighbours are ordered between any two levels. -/
theorem ordered_of_consecutive (res : List Nat)
    (ho : ∀ (i : Nat) (a b : Nat), res[i]? = some a → res[i + 1]? = some b → b ≤ a)
    (i n : Nat) (a b : Nat) (ha : res[i]? = some a) (hb : res[i + n]? = some b) : b ≤ a := by
  induction n generalizing b with
  | zero =>
    rw [Nat.add_zero, ha] at hb
    cases hb
    exact le_refl _
  | succ n ih =>
    have hlt : i + n < res.length := by
      obtain ⟨h, _⟩ := List.getElem?_eq_some.1 hb
      omega
    have hmid := List.getElem?_eq_getElem hlt
    exact le_trans (ho (i + n) _ b hmid hb) (ih _ hmid)

/-- A line printed as a number carries the two counters it divides. -/
theorem stepLine_percent (res : List Nat) (i : Nat) (e : Efficiency) (q : ℚ)
    (hline : endJob_stepLine res i = some e) (hq : Efficiency.ratio e = some q) :
    ∃ (prev cur : Nat), res[i - 1]? = some prev ∧ res[i]? = some cur ∧ 0 < prev ∧
      q = (cur : ℚ) / (prev : ℚ) := by
  unfold endJob_stepLine at hline
  cases hprev : res[i - 1]? with
  | none => rw [hprev] at hline; cases hline
  | some prev =>
    rw [hprev] at hline
    simp only at hline
    by_cases hp : prev > 0
    · rw [if_pos hp] at hline
      cases hcur : res[i]? with
      | none => rw [hcur] at hline; cases hline
      | some cur =>
        rw [hcur] at hline
        cases hline
        simp only [Efficiency.ratio, Option.some.injEq] at hq
        exact ⟨prev, cur, rfl, rfl, hp, hq.symm⟩
    · rw [if_neg hp] at hline
      cases hline
      cases hq

theorem cumulativeLine_percent (res : List Nat) (i : Nat) (e : Efficiency) (q : ℚ)
    (hline : endJob_cumulativeLine res i = some e) (hq : Efficiency.ratio e = some q) :
    ∃ (first cur : Nat), res[0]? = some first ∧ res[i]? = some cur ∧ 0 < first ∧
      q = (cur : ℚ) / (first : ℚ) := by
  unfold endJob_cumulativeLine at hline
  cases hfirst : res[0]? with
  | none => rw [hfirst] at hline; cases hline
  | some first =>
    rw [hfirst] at hline
    simp only at hline
    by_cases hp : first > 0
    · rw [if_pos hp] at hline
      cases hcur : res[i]? with
      | none => rw [hcur] at hline; cases hline
      | some cur =>
        rw [hcur] at hline
        cases hline
        simp only [Efficiency.ratio, Option.some.injEq] at hq
        exact ⟨first, cur, rfl, rfl, hp, hq.symm⟩
    · rw [if_neg hp] at hline
      cases hline
      cases hq

theorem ratio_bounds (cur den : Nat) (hd : 0 < den) (hle : cur ≤ den) :
    (0 : ℚ) ≤ (cur : ℚ) / (den : ℚ) ∧ (cur : ℚ) / (den : ℚ) ≤ 1 := by
  have hd' : (0 : ℚ) < (den : ℚ) := by exact_mod_cast hd
  constructor
  · exact div_nonneg (by exact_mod_cast Nat.zero_le cur) (le_of_lt hd')
  · rw [div_le_one hd']
    exact_mod_cast hle

/-- C28, as the code behaves.  For counters reached from zero by any sequence of
fewer than `2 ^ 32` events, every step efficiency and every cumulative
efficiency that `endJob` prints as a number lies between 0 and 1 inclusive,
and the cumulative efficiency does not increase with the level index. -/
theorem efficiencies_are_fractions (m_levels : List InputData) (events : List PathStatus)
    (hn : events.length < 2 ^ 32) :
    ∃ res, analyze_all m_levels (beginJob m_levels []) events = some res ∧
      (∀ (i : Nat) (e : Efficiency) (q : ℚ), (i, some e) ∈ (endJob m_levels res).step →
        Efficiency.ratio e = some q → 0 ≤ q ∧ q ≤ 1) ∧
      (∀ (i : Nat) (e : Efficiency) (q : ℚ), (i, some e) ∈ (endJob m_levels res).cumulative →
        Efficiency.ratio e = some q → 0 ≤ q ∧ q ≤ 1) ∧
      (∀ (i j : Nat) (e e' : Efficiency) (q q' : ℚ), i ≤ j →
        (i, some e) ∈ (endJob m_levels res).cumulative →
        (j, some e') ∈ (endJob m_levels res).cumulative →
        Efficiency.ratio e = some q → Efficiency.ratio e' = some q' → q' ≤ q) := by
  obtain ⟨res, hres, hlen, _, ho⟩ :=
    analyze_all_ordered m_levels events (beginJob m_levels []) 0 (by omega)
      (by simp [beginJob_nil])
      (by
        intro i a ha
        rw [beginJob_nil, List.getElem?_replicate] at ha
        split_ifs at ha
        · cases ha; exact le_refl _)
      (by
        intro i a b ha hb
        rw [beginJob_nil, List.getElem?_replicate] at ha hb
        split_ifs at ha hb
        · cases ha; cases hb; exact le_refl _)
  have hmono := ordered_of_consecutive res ho
  refine ⟨res, hres, ?_, ?_, ?_⟩
  · intro i e q hmem hq
    have hm := (mem_lines_iff (endJob_stepLine res) m_levels.length i (some e)).1 hmem
    obtain ⟨prev, cur, hprev, hcur, hpos, rfl⟩ := stepLine_percent res i e q hm.2.symm hq
    have hi : i - 1 + 1 = i := by omega
    have hle : cur ≤ prev := hmono (i - 1) 1 prev cur hprev (by rw [hi]; exact hcur)
    exact ratio_bounds cur prev hpos hle
  · intro i e q hmem hq
    have hm := (mem_lines_iff (endJob_cumulativeLine res) m_levels.length i (some e)).1 hmem
    obtain ⟨first, cur, hfirst, hcur, hpos, rfl⟩ :=
      cumulativeLine_percent res i e q hm.2.symm hq
    have hle : cur ≤ first := hmono 0 i first cur hfirst (by rw [Nat.zero_add]; exact hcur)
    exact ratio_bounds cur first hpos hle
  · intro i j e e' q q' hij hmem hmem' hq hq'
    have hm := (mem_lines_iff (endJob_cumulativeLine res) m_levels.length i (some e)).1 hmem
    have hm' := (mem_lines_iff (endJob_cumulativeLine res) m_levels.length j (some e')).1 hmem'
    obtain ⟨first, cur, hfirst, hcur, hpos, rfl⟩ :=
      cumulativeLine_percent res i e q hm.2.symm hq
    obtain ⟨first', cur', hfirst', hcur', _, rfl⟩ :=
      cumulativeLine_percent res j e' q' hm'.2.symm hq'
    rw [hfirst] at hfirst'
    cases hfirst'
    have hj : i + (j - i) = j := by omega
    have hle : cur' ≤ cur := hmono i (j - i) cur cur' hcur (by rw [hj]; exact hcur')
    have hd : (0 : ℚ) < (first : ℚ) := by exact_mod_cast hpos
    exact div_le_div_of_nonneg_right (by exact_mod_cast hle) (le_of_lt hd)

/-- The efficiencies after two concrete events on three levels. -/
theorem efficiencies_are_fractions_witness :
    ([⟨true, 0⟩, ⟨false, 1⟩] : List PathStatus).length < 2 ^ 32 ∧
    (∃ res, analyze_all ([⟨"A", "A", "fA", 0⟩, ⟨"B", "B", "fB", 1⟩, ⟨"C", "C", "fC", 2⟩] : List InputData) (beginJob ([⟨"A", "A", "fA", 0⟩, ⟨"B", "B", "fB", 1⟩, ⟨"C", "C", "fC", 2⟩] : List InputData) []) ([⟨true, 0⟩, ⟨false, 1⟩] : List PathStatus) = some res ∧
      (∀ (i : Nat) (e : Efficiency) (q : ℚ), (i, some e) ∈ (endJob ([⟨"A", "A", "fA", 0⟩, ⟨"B", "B", "fB", 1⟩, ⟨"C", "C", "fC", 2⟩] : List InputData) res).step →
        Efficiency.ratio e = some q → 0 ≤ q ∧ q ≤ 1) ∧
      (∀ (i : Nat) (e : Efficiency) (q : ℚ), (i, some e) ∈ (endJob ([⟨"A", "A", "fA", 0⟩, ⟨"B", "B", "fB", 1⟩, ⟨"C", "C", "fC", 2⟩] : List InputData) res).cumulative →
        Efficiency.ratio e = some q → 0 ≤ q ∧ q ≤ 1) ∧
      (∀ (i j : Nat) (e e' : Efficiency) (q q' : ℚ), i ≤ j →
        (i, some e) ∈ (endJob ([⟨"A", "A", "fA", 0⟩, ⟨"B", "B", "fB", 1⟩, ⟨"C", "C", "fC", 2⟩] : List InputData) res).cumulative →
        (j, some e') ∈ (endJob ([⟨"A", "A", "fA", 0⟩, ⟨"B", "B", "fB", 1⟩, ⟨"C", "C", "fC", 2⟩] : List InputData) res).cumulative →
        Efficiency.ratio e = some q → Efficiency.ratio e' = some q' → q' ≤ q)) :=
  ⟨by decide, efficiencies_are_fractions
    [⟨"A", "A", "fA", 0⟩, ⟨"B", "B", "fB", 1⟩, ⟨"C", "C", "fC", 2⟩]
    [⟨true, 0⟩, ⟨false, 1⟩] (by decide)⟩

/-- C28, as stated, fails after more than `2 ^ 32` events.  On two levels with
filter indices 0 and 1, `2 ^ 32 - 1` accepted events followed by two events
rejected at index 1 leave the counters `[1, 4294967295]`; the step efficiency
printed for the second level is the number `4294967295 / 1`, above 1. -/
theorem efficiency_above_one_after_wrap :
    analyze_all [⟨"A", "A", "fA", 0⟩, ⟨"B", "B", "fB", 1⟩]
        (beginJob [⟨"A", "A", "fA", 0⟩, ⟨"B", "B", "fB", 1⟩] [])
        (List.replicate 4294967295 ⟨true, 0⟩ ++ [⟨false, 1⟩, ⟨false, 1⟩]) =
      some [1, 4294967295] ∧
    (endJob [⟨"A", "A", "fA", 0⟩, ⟨"B", "B", "fB", 1⟩] [1, 4294967295]).step =
      [(1, some (Efficiency.percent 4294967295 1))] ∧
    Efficiency.ratio (Efficiency.percent 4294967295 1) = some 4294967295 ∧
    ¬ ((4294967295 : ℚ) ≤ 1) := by
  refine ⟨?_, by decide, ?_, by norm_num⟩
  · rw [analyze_all_append]
    have h : analyze_all [⟨"A", "A", "fA", 0⟩, ⟨"B", "B", "fB", 1⟩]
        (beginJob [⟨"A", "A", "fA", 0⟩, ⟨"B", "B", "fB", 1⟩] [])
        (List.replicate 4294967295 ⟨true, 0⟩) = some [4294967295, 4294967295] :=
      analyze_all_accepted [⟨"A", "A", "fA", 0⟩, ⟨"B", "B", "fB", 1⟩] 0 4294967295 0
    rw [h]
    decide
  · simp [Efficiency.ratio]

end HLTBtagLifetimeAnalyzer

namespace CSCSegmentReader

/-! ### The maps of the segment reader -/

theorem value_increment (m : TypeMap) (name k : String) :
    TypeMap.value (TypeMap.increment m name) k =
      if k = name then TypeMap.value m name + 1 else TypeMap.value m k := by
  unfold TypeMap.value TypeMap.increment
  split_ifs <;> rfl

theorem increment_some (m : TypeMap) (name k : String) (n : Int)
    (h : TypeMap.increment m name k = some n) :
    (k = name ∧ n = TypeMap.value m name + 1) ∨ (k ≠ name ∧ m k = some n) := by
  unfold TypeMap.increment at h
  split_ifs at h with hk
  · exact Or.inl ⟨hk, (Option.some.inj h).symm⟩
  · exact Or.inr ⟨hk, h⟩

theorem value_of_some (m : TypeMap) (k : String) (n : Int) (h : m k = some n) :
    TypeMap.value m k = n := by
  unfold TypeMap.value
  rw [h]
  rfl

/-- A segment with enough hits is a segment of the chamber: `satisfied2`
implies `satisfied1`. -/
theorem segmentLoop_flags (cfg : Thresholds) (simId : CSCDetId) (segs : List CSCSegment)
    (satisfied1 : Bool) :
    (segmentLoop cfg simId segs satisfied1).2 = true →
      (segmentLoop cfg simId segs satisfied1).1 = true := by
  induction segs generalizing satisfied1 with
  | nil => intro h; simp [segmentLoop] at h
  | cons seg rest ih =>
    simp only [segmentLoop]
    split_ifs
    · intro _; rfl
    · exact ih true
    · exact ih satisfied1

/-- The five conditional increments of one iteration keep the maps ordered. -/
theorem increments_ordered (maps : Maps) (name : String) (s0 s1 s2 : Bool)
    (hs : s2 = true → s1 = true) (h : maps.Ordered) :
    Maps.Ordered
      { chaMap1 := maps.chaMap1.increment name,
        chaMap2 := if s0 then maps.chaMap2.increment name else maps.chaMap2,
        segMap1 := if s1 then maps.segMap1.increment name else maps.segMap1,
        segMap2 := if s1 && s0 then maps.segMap2.increment name else maps.segMap2,
        segMap3 := if s2 && s0 then maps.segMap3.increment name else maps.segMap3 } := by
  intro k
  obtain ⟨h0, h1, h2, h3, h4, h5, h6, h7, h8⟩ := h k
  obtain ⟨g0, g1, g2, g3, g4, g5, _, _, _⟩ := h name
  have hpos : ∀ (m : TypeMap) (n : Int), 0 ≤ TypeMap.value m name →
      (∀ n, m k = some n → 1 ≤ n) → TypeMap.increment m name k = some n → 1 ≤ n := by
    intro m n hv hm hn
    rcases increment_some m name k n hn with ⟨_, rfl⟩ | ⟨_, hmk⟩
    · omega
    · exact hm n hmk
  by_cases hk : k = name
  · subst hk
    cases s0 <;> cases s1 <;> cases s2 <;> simp at hs <;>
      simp only [Bool.false_eq_true, if_false, if_true, Bool.and_self, Bool.and_true,
        Bool.and_false, value_increment] <;>
      refine ⟨by omega, by omega, by omega, by omega, by omega, by omega, ?_, ?_, ?_⟩ <;>
      first
        | assumption
        | (intro n hn; exact hpos _ n (by omega) (by assumption) hn)
  · cases s0 <;> cases s1 <;> cases s2 <;> simp at hs <;>
      simp only [Bool.false_eq_true, if_false, if_true, Bool.and_self, Bool.and_true,
        Bool.and_false, value_increment, if_neg hk] <;>
      refine ⟨h0, h1, h2, h3, h4, h5, ?_, ?_, ?_⟩ <;>
      first
        | assumption
        | (intro n hn; exact hpos _ n (by omega) (by assumption) hn)

/-- One iteration of the loop of `recInfo` either leaves the maps alone or makes
the five conditional increments at the type name of the chamber. -/
theorem recInfo_simHit_cases (cfg : Thresholds) (geom : CSCGeometry) (c : Collections)
    (maps : Maps) (simId : CSCDetId) :
    recInfo_simHit cfg geom c maps simId = maps ∨
    recInfo_simHit cfg geom c maps simId =
      { chaMap1 := maps.chaMap1.increment (geom.chamberTypeName simId),
        chaMap2 :=
          if decide (rechitLayerLoop simId c.recHits 0 0 ≥ cfg.minLayerWithRechitChamber) then
            maps.chaMap2.increment (geom.chamberTypeName simId) else maps.chaMap2,
        segMap1 :=
          if (segmentLoop cfg simId c.cscSegments false).1 then
            maps.segMap1.increment (geom.chamberTypeName simId) else maps.segMap1,
        segMap2 :=
          if (segmentLoop cfg simId c.cscSegments false).1 &&
              decide (rechitLayerLoop simId c.recHits 0 0 ≥ cfg.minLayerWithRechitChamber) then
            maps.segMap2.increment (geom.chamberTypeName simId) else maps.segMap2,
        segMap3 :=
          if (segmentLoop cfg simId c.cscSegments false).2 &&
              decide (rechitLayerLoop simId c.recHits 0 0 ≥ cfg.minLayerWithRechitChamber) then
            maps.segMap3.increment (geom.chamberTypeName simId) else maps.segMap3 } := by
  unfold recInfo_simHit
  simp only
  by_cases hl : simId.layer = (if geom.layer1Farther simId then (6 : Int) else 1)
  · rw [if_pos hl]
    by_cases hn : nLayerWithSimhitsInChamber simId c.simHits < cfg.minLayerWithSimhitChamber
    · rw [if_pos hn]
      exact Or.inl rfl
    · rw [if_neg hn]
      right
      cases decide (rechitLayerLoop simId c.recHits 0 0 ≥ cfg.minLayerWithRechitChamber) <;>
        cases (segmentLoop cfg simId c.cscSegments false).1 <;>
        cases (segmentLoop cfg simId c.cscSegments false).2 <;> rfl
  · rw [if_neg hl]
    exact Or.inl rfl

theorem recInfo_simHit_ordered (cfg : Thresholds) (geom : CSCGeometry) (c : Collections)
    (maps : Maps) (simId : CSCDetId) (h : maps.Ordered) :
    (recInfo_simHit cfg geom c maps simId).Ordered := by
  rcases recInfo_simHit_cases cfg geom c maps simId with e | e
  · rw [e]; exact h
  · rw [e]
    exact increments_ordered maps _ _ _ _ (segmentLoop_flags cfg simId c.cscSegments false) h

theorem recInfo_loop_ordered (cfg : Thresholds) (geom : CSCGeometry) (c : Collections)
    (simHits : List CSCDetId) (maps : Maps) (h : maps.Ordered) :
    (recInfo_loop cfg geom c maps simHits).Ordered := by
  induction simHits generalizing maps with
  | nil => exact h
  | cons simId rest ih => exact ih _ (recInfo_simHit_ordered cfg geom c maps simId h)

theorem recInfo_all_ordered (cfg : Thresholds) (geom : CSCGeometry) (events : List Collections)
    (maps : Maps) (h : maps.Ordered) : (recInfo_all cfg geom maps events).Ordered := by
  induction events generalizing maps with
  | nil => exact h
  | cons c rest ih => exact ih _ (recInfo_loop_ordered cfg geom c c.simHits maps h)

theorem empty_ordered : Maps.empty.Ordered := by
  intro k
  simp [Maps.empty, TypeMap.value]

theorem ratio_le_one (num den : Int) (hd : 0 < den) (hle : num ≤ den) :
    (num : ℚ) / (den : ℚ) ≤ 1 := by
  have hd' : (0 : ℚ) < (den : ℚ) := by exact_mod_cast hd
  rw [div_le_one hd']
  exact_mod_cast hle

/-- C29.  Starting from empty maps, after any sequence of `recInfo` calls, for
every chamber type name `k`:
`segMap3[k] ≤ segMap2[k] ≤ segMap1[k] ≤ chaMap1[k]` and
`segMap2[k] ≤ chaMap2[k] ≤ chaMap1[k]`; and in each of the four efficiency
divisions of the destructor, made for the keys of `segMap1`, `segMap2` and
`segMap3`, the denominator is strictly positive and the efficiency is at
most 1. -/
theorem csc_counters_ordered (cfg : Thresholds) (geom : CSCGeometry)
    (events : List Collections) (k : String) :
    ((recInfo_all cfg geom Maps.empty events).segMap3.value k ≤ (recInfo_all cfg geom Maps.empty events).segMap2.value k ∧
     (recInfo_all cfg geom Maps.empty events).segMap2.value k ≤ (recInfo_all cfg geom Maps.empty events).segMap1.value k ∧
     (recInfo_all cfg geom Maps.empty events).segMap1.value k ≤ (recInfo_all cfg geom Maps.empty events).chaMap1.value k ∧
     (recInfo_all cfg geom Maps.empty events).segMap2.value k ≤ (recInfo_all cfg geom Maps.empty events).chaMap2.value k ∧
     (recInfo_all cfg geom Maps.empty events).chaMap2.value k ≤ (recInfo_all cfg geom Maps.empty events).chaMap1.value k) ∧
    (∀ (num den : Int), destructor_heff0 (recInfo_all cfg geom Maps.empty events) k = some (num, den) →
      0 < den ∧ (num : ℚ) / (den : ℚ) ≤ 1) ∧
    (∀ (num den : Int), destructor_heff1 (recInfo_all cfg geom Maps.empty events) k = some (num, den) →
      0 < den ∧ (num : ℚ) / (den : ℚ) ≤ 1) ∧
    (∀ (num den : Int), destructor_heff2 (recInfo_all cfg geom Maps.empty events) k = some (num, den) →
      0 < den ∧ (num : ℚ) / (den : ℚ) ≤ 1) ∧
    (∀ (num den : Int), destructor_heff3 (recInfo_all cfg geom Maps.empty events) k = some (num, den) →
      0 < den ∧ (num : ℚ) / (den : ℚ) ≤ 1) := by
  obtain ⟨_, h1, h2, h3, h4, h5, h6, h7, h8⟩ :=
    recInfo_all_ordered cfg geom events Maps.empty empty_ordered k
  refine ⟨⟨h1, h2, h3, h4, h5⟩, ?_, ?_, ?_, ?_⟩
  · intro num den hline
    unfold destructor_heff0 at hline
    cases hs : (recInfo_all cfg geom Maps.empty events).segMap1 k with
    | none => rw [hs] at hline; cases hline
    | some n =>
      rw [hs] at hline
      cases hline
      have hv := value_of_some _ k num hs
      have hn := h6 num hs
      exact ⟨by omega, ratio_le_one _ _ (by omega) (by omega)⟩
  · intro num den hline
    unfold destructor_heff1 at hline
    cases hs : (recInfo_all cfg geom Maps.empty events).segMap2 k with
    | none => rw [hs] at hline; cases hline
    | some n =>
      rw [hs] at hline
      cases hline
      have hv := value_of_some _ k num hs
      have hn := h7 num hs
      exact ⟨by omega, ratio_le_one _ _ (by omega) (by omega)⟩
  · intro num den hline
    unfold destructor_heff2 at hline
    cases hs : (recInfo_all cfg geom Maps.empty events).segMap3 k with
    | none => rw [hs] at hline; cases hline
    | some n =>
      rw [hs] at hline
      cases hline
      have hv := value_of_some _ k num hs
      have hn := h8 num hs
      exact ⟨by omega, ratio_le_one _ _ (by omega) (by omega)⟩
  · intro num den hline
    unfold destructor_heff3 at hline
    cases hs : (recInfo_all cfg geom Maps.empty events).segMap3 k with
    | none => rw [hs] at hline; cases hline
    | some n =>
      rw [hs] at hline
      cases hline
      have hv := value_of_some _ k num hs
      have hn := h8 num hs
      exact ⟨by omega, ratio_le_one _ _ (by omega) (by omega)⟩

/-! ### Counting the layers with simulated hits -/

/-- C30 at a failing input.  Six simulated hits of one chamber in the layers
`1, 2, 3, 1, 2, 3`: the loop of `recInfo` counts 6, one for every change of
layer, while only 3 layers of the chamber hold a simulated hit; with the
threshold 6 the hits in the first layer then count the chamber in `chaMap1`. -/
theorem layer_count_counts_changes :
    nLayerWithSimhitsInChamber ⟨1, 1, 1, 1, 1⟩
      [⟨1, 1, 1, 1, 1⟩, ⟨1, 1, 1, 1, 2⟩, ⟨1, 1, 1, 1, 3⟩, ⟨1, 1, 1, 1, 1⟩, ⟨1, 1, 1, 1, 2⟩,
        ⟨1, 1, 1, 1, 3⟩] = 6 ∧
    (layersWithSimhits ⟨1, 1, 1, 1, 1⟩
      [⟨1, 1, 1, 1, 1⟩, ⟨1, 1, 1, 1, 2⟩, ⟨1, 1, 1, 1, 3⟩, ⟨1, 1, 1, 1, 1⟩, ⟨1, 1, 1, 1, 2⟩,
        ⟨1, 1, 1, 1, 3⟩]).length = 3 ∧
    (recInfo ⟨6, 6, 6⟩ ⟨fun _ => false, fun _ => "ME1/b"⟩ Maps.empty
      ⟨[⟨1, 1, 1, 1, 1⟩, ⟨1, 1, 1, 1, 2⟩, ⟨1, 1, 1, 1, 3⟩, ⟨1, 1, 1, 1, 1⟩, ⟨1, 1, 1, 1, 2⟩,
        ⟨1, 1, 1, 1, 3⟩], [], []⟩).chaMap1 "ME1/b" = some 2 := by
  refine ⟨by decide, by decide, by decide⟩

end CSCSegmentReader
